import Mathlib

/-!
Verification of the phylogenie simulation core against its specification.

This file gives a shallow embedding, in Lean 4, of the parts of the
phylogenie code base that the checked claims are about:

* `phylogenie/skyline/core/parameter.py` — the `SkylineParameter` class
  (piecewise-constant functions of time) with its constructor,
  `get_value_at_time` and `operate`;
* `phylogenie/skyline/core/matrix.py` — the `SkylineMatrix` constructor's
  shape check;
* `phylogenie/treesimulator/parameterizations/core.py` — `StochasticEvent`
  (`apply` and `get_next_firing_time`);
* `phylogenie/treesimulator/core.py` — the simulation `Model` (state,
  primitive mutations, `get_tree` pruning and `step`);
* `phylogenie/io/newick.py` — `to_newick` and `parse_newick`;
* `phylogenie/treesimulator/gillespie.py` — `simulate_tree`'s argument
  validation.

Python numbers (ints and floats) are embedded as exact rationals `ℚ`.
Randomness is embedded by passing the drawn values in as explicit oracle
arguments.  Python exceptions are embedded with `Except String`.
-/

namespace Phylogenie

/-! ## Skyline parameters (`phylogenie/skyline/core/parameter.py`)

`SkylineParameter` stores a list of values and a list of change times.
The constructor (`SkylineParameter.init` below) checks only that
`len(value) == len(change_times) + 1`; it performs no other validation
and no canonicalization (it stores both lists exactly as given). -/

structure SkylineParameter where
  value : List ℚ
  change_times : List ℚ
deriving DecidableEq, Repr

/-- Embeds Python's `bisect.bisect_right(a, x)`: for a sorted list it is the
insertion point to the right of existing entries, i.e. the number of
elements `≤ x`.  (The Python binary search assumes a sorted list; this is
its documented semantics on that domain.) -/
def bisect_right (a : List ℚ) (x : ℚ) : ℕ :=
  a.countP (fun t => decide (t ≤ x))

/-- Embeds `SkylineParameter.__init__`: the only validation performed is the
length relation `len(value) == len(change_times) + 1`; on success the two
lists are stored unchanged. -/
def SkylineParameter.init (value : List ℚ) (change_times : List ℚ) :
    Except String SkylineParameter :=
  if value.length ≠ change_times.length + 1 then
    .error "value must have exactly one more element than change_times"
  else
    .ok ⟨value, change_times⟩

/-- Embeds `SkylineParameter.get_value_at_time`:
`self.value[bisect_right(self.change_times, time)]`.  Under the length
invariant the index is always in range; `getD` with default `0` stands for
the in-range list access. -/
def SkylineParameter.get_value_at_time (p : SkylineParameter) (time : ℚ) : ℚ :=
  p.value.getD (bisect_right p.change_times time) 0

/-- Insert a value into a strictly sorted list, keeping it strictly sorted
and dropping duplicates.  Folding this over a list implements Python's
`sorted(set(l))`. -/
def insertTime (x : ℚ) : List ℚ → List ℚ
  | [] => [x]
  | y :: ys => if x < y then x :: y :: ys else if x = y then y :: ys else y :: insertTime x ys

/-- Embeds Python's `sorted(set(l))`: the strictly increasing enumeration of
the distinct elements of `l`. -/
def sortedUnion (l : List ℚ) : List ℚ :=
  l.foldr insertTime []

/-- Embeds `SkylineParameter.operate`: merge the change times
(`sorted(set(self.change_times + other.change_times))`), evaluate both
operands at `0` and at every merged change time, combine pointwise with
`func`, and build the result through the constructor (whose length check
always succeeds here, and which stores the lists unchanged). -/
def SkylineParameter.operate (self other : SkylineParameter) (func : ℚ → ℚ → ℚ) :
    SkylineParameter :=
  { value := ((0 : ℚ) :: sortedUnion (self.change_times ++ other.change_times)).map
      (fun t => func (self.get_value_at_time t) (other.get_value_at_time t)),
    change_times := sortedUnion (self.change_times ++ other.change_times) }

/-- Well-formedness of a skyline parameter as the specification states it:
the length invariant, strictly increasing change times, and positive change
times.  (The constructor embedded above does not enforce the last two.) -/
@[reducible] def SkylineParameter.Valid (p : SkylineParameter) : Prop :=
  p.value.length = p.change_times.length + 1 ∧
    p.change_times.Pairwise (· < ·) ∧ ∀ t ∈ p.change_times, 0 < t

theorem mem_insertTime (x y : ℚ) (l : List ℚ) :
    y ∈ insertTime x l ↔ y = x ∨ y ∈ l := by
  induction l with
  | nil => simp [insertTime]
  | cons z zs ih =>
    by_cases h1 : x < z
    · simp [insertTime, h1]
    · by_cases h2 : x = z
      · subst h2
        simp only [insertTime, h1, if_neg (lt_irrefl x), if_pos rfl]
        constructor
        · exact fun h => Or.inr h
        · rintro (rfl | h)
          · exact List.mem_cons_self _ _
          · exact h
      · simp only [insertTime, h1, h2, if_false, List.mem_cons, ih]
        tauto

theorem pairwise_insertTime (x : ℚ) (l : List ℚ) (h : l.Pairwise (· < ·)) :
    (insertTime x l).Pairwise (· < ·) := by
  induction l with
  | nil => simp [insertTime]
  | cons y ys ih =>
    rcases List.pairwise_cons.mp h with ⟨hy, hys⟩
    by_cases h1 : x < y
    · rw [insertTime, if_pos h1]
      refine List.pairwise_cons.mpr ⟨?_, h⟩
      intro z hz
      rcases List.mem_cons.mp hz with rfl | hz
      · exact h1
      · exact lt_trans h1 (hy z hz)
    · by_cases h2 : x = y
      · simpa [insertTime, h1, h2] using h
      · have hyx : y < x := lt_of_le_of_ne (not_lt.mp h1) (fun e => h2 e.symm)
        simp only [insertTime, h1, h2, if_false]
        refine List.pairwise_cons.mpr ⟨?_, ih hys⟩
        intro z hz
        rcases (mem_insertTime x z ys).mp hz with rfl | hz
        · exact hyx
        · exact hy z hz

theorem sortedUnion_pairwise (l : List ℚ) : (sortedUnion l).Pairwise (· < ·) := by
  induction l with
  | nil => simp [sortedUnion]
  | cons x xs ih => exact pairwise_insertTime x (sortedUnion xs) ih

theorem mem_sortedUnion (y : ℚ) (l : List ℚ) : y ∈ sortedUnion l ↔ y ∈ l := by
  induction l with
  | nil => simp [sortedUnion]
  | cons x xs ih =>
    show y ∈ insertTime x (sortedUnion xs) ↔ _
    rw [mem_insertTime, ih]
    simp

/-- The largest element of `t0 :: l` that is `≤ s`, for a sorted list `l`
whose head exceeds `t0`.  This is the boundary that `bisect_right` selects. -/
def lastLE (t0 : ℚ) (l : List ℚ) (s : ℚ) : ℚ :=
  match l with
  | [] => t0
  | t :: ts => if t ≤ s then lastLE t ts s else t0

theorem lastLE_le (t0 : ℚ) (l : List ℚ) (s : ℚ) (h : t0 ≤ s) : lastLE t0 l s ≤ s := by
  induction l generalizing t0 with
  | nil => exact h
  | cons t ts ih =>
    by_cases hts : t ≤ s
    · simpa [lastLE, hts] using ih t hts
    · simpa [lastLE, hts] using h

theorem le_lastLE (t0 : ℚ) (l : List ℚ) (s : ℚ) (h : (t0 :: l).Pairwise (· < ·)) :
    t0 ≤ lastLE t0 l s := by
  induction l generalizing t0 with
  | nil => exact le_refl _
  | cons t ts ih =>
    rcases List.pairwise_cons.mp h with ⟨ht, hts⟩
    by_cases hle : t ≤ s
    · have h1 : t0 ≤ lastLE t ts s :=
        le_trans (le_of_lt (ht t (List.mem_cons_self _ _))) (ih t hts)
      simpa [lastLE, hle] using h1
    · simp [lastLE, hle]

theorem mem_le_lastLE (t0 : ℚ) (l : List ℚ) (s : ℚ) (h : (t0 :: l).Pairwise (· < ·))
    (c : ℚ) (hc : c ∈ l) (hcs : c ≤ s) : c ≤ lastLE t0 l s := by
  induction l generalizing t0 with
  | nil => cases hc
  | cons t ts ih =>
    rcases List.pairwise_cons.mp h with ⟨ht, hts⟩
    rcases List.mem_cons.mp hc with rfl | hc
    · simp only [lastLE, if_pos hcs]
      exact le_lastLE c ts s hts
    · have htc : t < c := List.rel_of_pairwise_cons hts hc
      have hle : t ≤ s := le_trans (le_of_lt htc) hcs
      simp only [lastLE, if_pos hle]
      exact ih t hts hc

theorem countP_ext (l : List ℚ) (p q : ℚ → Bool) (h : ∀ x ∈ l, p x = q x) :
    l.countP p = l.countP q := by
  induction l with
  | nil => rfl
  | cons x xs ih =>
    rw [List.countP_cons, List.countP_cons, h x (List.mem_cons_self _ _),
      ih (fun y hy => h y (List.mem_cons.mpr (Or.inr hy)))]

theorem map_getD_bisect (g : ℚ → ℚ) (t0 s : ℚ) (l : List ℚ) (hs : t0 ≤ s)
    (h : (t0 :: l).Pairwise (· < ·)) :
    ((t0 :: l).map g).getD (bisect_right l s) 0 = g (lastLE t0 l s) := by
  induction l generalizing t0 with
  | nil => simp [bisect_right, lastLE]
  | cons t ts ih =>
    rcases List.pairwise_cons.mp h with ⟨ht, hts⟩
    by_cases hle : t ≤ s
    · have hidx : bisect_right (t :: ts) s = bisect_right ts s + 1 := by
        simp [bisect_right, List.countP_cons, hle]
      rw [hidx]
      have h2 : ((t0 :: t :: ts).map g).getD (bisect_right ts s + 1) 0
          = ((t :: ts).map g).getD (bisect_right ts s) 0 := by
        simp [List.getD_cons_succ]
      rw [h2, ih t hle hts]
      simp [lastLE, hle]
    · have hidx : bisect_right (t :: ts) s = 0 := by
        rw [bisect_right, List.countP_eq_zero]
        intro a ha
        rcases List.mem_cons.mp ha with rfl | ha
        · simpa using hle
        · have : t < a := List.rel_of_pairwise_cons hts ha
          have : ¬ a ≤ s := fun hc => hle (le_trans (le_of_lt this) hc)
          simpa using this
      rw [hidx]
      simp [lastLE, hle]

theorem bisect_eq_at_lastLE (ctA merged : List ℚ) (s : ℚ)
    (hA : ∀ c ∈ ctA, c ∈ merged) (hs : (0 : ℚ) ≤ s)
    (hm : ((0 : ℚ) :: merged).Pairwise (· < ·)) :
    bisect_right ctA (lastLE 0 merged s) = bisect_right ctA s := by
  apply countP_ext
  intro c hc
  have h1 : lastLE 0 merged s ≤ s := lastLE_le 0 merged s hs
  have : (c ≤ lastLE 0 merged s) ↔ (c ≤ s) := by
    constructor
    · exact fun h => le_trans h h1
    · exact fun h => mem_le_lastLE 0 merged s hm c (hA c hc) h
  exact decide_eq_decide.mpr this

/-- Pointwise soundness of `operate`: on well-formed operands, the result
evaluated at any time `s ≥ 0` is the pointwise combination of the operand
values at `s`. -/
theorem operate_get_value_at_time (a b : SkylineParameter) (func : ℚ → ℚ → ℚ)
    (ha : a.Valid) (hb : b.Valid) (s : ℚ) (hs : (0 : ℚ) ≤ s) :
    (a.operate b func).get_value_at_time s
      = func (a.get_value_at_time s) (b.get_value_at_time s) := by
  have hp : (sortedUnion (a.change_times ++ b.change_times)).Pairwise (· < ·) :=
    sortedUnion_pairwise _
  have hpos : ∀ t ∈ sortedUnion (a.change_times ++ b.change_times), (0 : ℚ) < t := by
    intro t ht
    rcases List.mem_append.mp ((mem_sortedUnion t _).mp ht) with h | h
    · exact ha.2.2 t h
    · exact hb.2.2 t h
  have h0 : ((0 : ℚ) :: sortedUnion (a.change_times ++ b.change_times)).Pairwise (· < ·) :=
    List.pairwise_cons.mpr ⟨hpos, hp⟩
  show (((0 : ℚ) :: sortedUnion (a.change_times ++ b.change_times)).map
      (fun t => func (a.get_value_at_time t) (b.get_value_at_time t))).getD
        (bisect_right (sortedUnion (a.change_times ++ b.change_times)) s) 0 = _
  rw [map_getD_bisect _ 0 s _ hs h0]
  show func (a.get_value_at_time _) (b.get_value_at_time _) = _
  have hA : ∀ c ∈ a.change_times, c ∈ sortedUnion (a.change_times ++ b.change_times) :=
    fun c hc => (mem_sortedUnion c _).mpr (List.mem_append.mpr (Or.inl hc))
  have hB : ∀ c ∈ b.change_times, c ∈ sortedUnion (a.change_times ++ b.change_times) :=
    fun c hc => (mem_sortedUnion c _).mpr (List.mem_append.mpr (Or.inr hc))
  rw [SkylineParameter.get_value_at_time, SkylineParameter.get_value_at_time,
    bisect_eq_at_lastLE a.change_times _ s hA hs h0,
    bisect_eq_at_lastLE b.change_times _ s hB hs h0]
  rfl

/-- C1: for any two well-formed skyline parameters `a`, `b`, each of the four
arithmetic operations (which the source dispatches through `operate` with the
corresponding lambda), and any time `s ≥ 0`, the result evaluated at `s`
equals the pointwise operation of the operand values at `s` (for division
under the claim's hypothesis that the divisor's values are non-zero). -/
theorem skyline_algebra_pointwise (a b : SkylineParameter) (ha : a.Valid) (hb : b.Valid)
    (s : ℚ) (hs : (0 : ℚ) ≤ s) :
    (a.operate b (fun x y => x + y)).get_value_at_time s
        = a.get_value_at_time s + b.get_value_at_time s
    ∧ (a.operate b (fun x y => x - y)).get_value_at_time s
        = a.get_value_at_time s - b.get_value_at_time s
    ∧ (a.operate b (fun x y => x * y)).get_value_at_time s
        = a.get_value_at_time s * b.get_value_at_time s
    ∧ ((∀ v ∈ b.value, v ≠ 0) →
        (a.operate b (fun x y => x / y)).get_value_at_time s
          = a.get_value_at_time s / b.get_value_at_time s) :=
  ⟨operate_get_value_at_time a b _ ha hb s hs,
   operate_get_value_at_time a b _ ha hb s hs,
   operate_get_value_at_time a b _ ha hb s hs,
   fun _ => operate_get_value_at_time a b _ ha hb s hs⟩

/-- Witness for C1 at the concrete skylines of the spec's scenario S3:
`a = ([3, 5], [1])`, `b = ([2, 4, 1], [1, 3])`, `s = 1`. -/
theorem skyline_algebra_pointwise_witness :
    ((⟨[3, 5], [1]⟩ : SkylineParameter).operate ⟨[2, 4, 1], [1, 3]⟩
        (fun x y => x * y)).get_value_at_time 1
      = (⟨[3, 5], [1]⟩ : SkylineParameter).get_value_at_time 1
          * (⟨[2, 4, 1], [1, 3]⟩ : SkylineParameter).get_value_at_time 1 :=
  (skyline_algebra_pointwise ⟨[3, 5], [1]⟩ ⟨[2, 4, 1], [1, 3]⟩
    (by decide) (by decide) 1 (by decide)).2.2.1

/-- C2 (code bug): the constructor stores its arguments unchanged whenever the
length relation holds.  It does not collapse adjacent equal values
(`[3, 5, 5]` stays `[3, 5, 5]`), and it accepts a negative change time and
non-strictly-increasing change times without raising, all contrary to the
specification and to the repository's own tests
(`tests/skyline/parameter/test_init.py`). -/
theorem skyline_init_no_canonicalization :
    SkylineParameter.init [3, 5, 5] [1, 2] = .ok ⟨[3, 5, 5], [1, 2]⟩
    ∧ SkylineParameter.init [5, 2] [-1] = .ok ⟨[5, 2], [-1]⟩
    ∧ SkylineParameter.init [5, 2, 3] [2, 1] = .ok ⟨[5, 2, 3], [2, 1]⟩
    ∧ SkylineParameter.init [5, 2, 3] [1] =
        .error "value must have exactly one more element than change_times" := by
  refine ⟨?_, ?_, ?_, ?_⟩ <;> rfl

/-- C8 (code bug): `get_value_at_time` never rejects a negative time — at
`s = -1` it silently returns the first value — while the right-continuous
step lookup for `s ≥ 0` behaves as claimed (new value at a change time). -/
theorem get_value_at_time_no_negative_check :
    (⟨[5, 2, 3], [1, 2]⟩ : SkylineParameter).get_value_at_time (-1) = 5
    ∧ (⟨[5, 2, 3], [1, 2]⟩ : SkylineParameter).get_value_at_time 0 = 5
    ∧ (⟨[5, 2, 3], [1, 2]⟩ : SkylineParameter).get_value_at_time 1 = 2
    ∧ (⟨[5, 2, 3], [1, 2]⟩ : SkylineParameter).get_value_at_time 2 = 3
    ∧ (⟨[5, 2, 3], [1, 2]⟩ : SkylineParameter).get_value_at_time 100 = 3 := by
  refine ⟨?_, ?_, ?_, ?_, ?_⟩ <;> decide

/-! ## Skyline matrices (`phylogenie/skyline/core/matrix.py`)

Only the constructor's shape check is claim-relevant (C10).  In the source,
entries are first coerced to `SkylineParameter` (a numeric entry `v` becomes
`SkylineParameter(v)`, which preserves every row's length), `self.N` is set
to the number of rows, and a `ValueError` is raised unless every row has
length `N - 1`. -/

structure SkylineMatrix where
  params : List (List SkylineParameter)

/-- Embeds `SkylineMatrix.__init__`'s validation: with `N` the number of
rows, raise `ValueError` unless every row has length `N - 1`. -/
def SkylineMatrix.init (params : List (List SkylineParameter)) :
    Except String SkylineMatrix :=
  if params.all (fun row => row.length = params.length - 1) then
    .ok ⟨params⟩
  else
    .error "The matrix should be a square matrix with no diagonal elements"

/-- C10: `SkylineMatrix.__init__` raises a `ValueError` exactly when some
row's length differs from `N - 1` (`N` the number of rows); consequently
only `N × (N-1)` inputs are constructible. -/
theorem skyline_matrix_init_square (params : List (List SkylineParameter)) :
    (∃ e, SkylineMatrix.init params = .error e)
      ↔ ∃ row ∈ params, row.length ≠ params.length - 1 := by
  unfold SkylineMatrix.init
  by_cases h : params.all (fun row => row.length = params.length - 1)
  · rw [if_pos h]
    simp only [List.all_eq_true, decide_eq_true_eq] at h
    constructor
    · rintro ⟨e, he⟩
      cases he
    · rintro ⟨row, hrow, hne⟩
      exact absurd (h row hrow) hne
  · rw [if_neg h]
    simp only [List.all_eq_true, decide_eq_true_eq] at h
    push_neg at h
    constructor
    · intro _
      exact h
    · intro _
      exact ⟨_, rfl⟩

/-- Witness for C10 in both directions at concrete inputs: a 3-row matrix
with rows of length 2 is accepted, and a 2 × 2 (rectangular, `N ≠ M - 1`)
input is rejected. -/
theorem skyline_matrix_init_square_witness :
    (¬ ∃ e, SkylineMatrix.init [[⟨[1], []⟩, ⟨[2], []⟩], [⟨[3], []⟩, ⟨[4], []⟩],
        [⟨[5], []⟩, ⟨[6], []⟩]] = .error e)
    ∧ (∃ e, SkylineMatrix.init [[⟨[1], []⟩, ⟨[2], []⟩], [⟨[3], []⟩, ⟨[4], []⟩]]
        = .error e) := by
  constructor
  · intro h
    have h2 := (skyline_matrix_init_square [[⟨[1], []⟩, ⟨[2], []⟩],
      [⟨[3], []⟩, ⟨[4], []⟩], [⟨[5], []⟩, ⟨[6], []⟩]]).mp h
    revert h2
    decide
  · exact (skyline_matrix_init_square [[⟨[1], []⟩, ⟨[2], []⟩],
      [⟨[3], []⟩, ⟨[4], []⟩]]).mpr (by decide)

/-! ## Stochastic events (`phylogenie/treesimulator/parameterizations/core.py`)

A `StochasticEvent` carries a skyline rate and a function object `fn` with
`reactant_combinations(model)` and `apply(model)`.  The simulation model
type is abstract here (`σ`); the RNG draw consumed by
`model.rng.expovariate(propensity)` is passed in as an explicit oracle
argument. -/

structure StochasticEvent (σ : Type) where
  rate : SkylineParameter
  fn_reactant_combinations : σ → ℕ
  fn_apply : σ → σ

/-- Embeds `_get_next_greater(times, current_time)`: the first element of
`times` (in iteration order) strictly greater than `current_time`, if any. -/
def get_next_greater (times : List ℚ) (current_time : ℚ) : Option ℚ :=
  times.find? (fun v => decide (current_time < v))

/-- Embeds `StochasticEvent.apply`: `self.fn.apply(model)` runs only when
`model.current_time not in self.rate.change_times`; at one of the event's
own rate change times the method does nothing. -/
def StochasticEvent.apply {σ : Type} (e : StochasticEvent σ) (current_time : ℚ)
    (m : σ) : σ :=
  if current_time ∈ e.rate.change_times then m else e.fn_apply m

/-- Embeds `StochasticEvent.get_next_firing_time`: if the propensity at
`current_time` is zero, return the next rate change time (possibly none);
otherwise return `current_time + draw`, clamped from above by the next rate
change time when there is one. -/
def StochasticEvent.get_next_firing_time {σ : Type} (e : StochasticEvent σ)
    (current_time : ℚ) (m : σ) (draw : ℚ) : Option ℚ :=
  let next_change_time := get_next_greater e.rate.change_times current_time
  let rate := e.rate.get_value_at_time current_time
  let propensity := rate * (e.fn_reactant_combinations m : ℚ)
  if propensity = 0 then next_change_time
  else
    let next_firing_time := current_time + draw
    match next_change_time with
    | none => some next_firing_time
    | some c => some (min next_firing_time c)

/-- C3 counterexample: for the event with rate `([1, 2], [3])` and one
reactant combination, at `current_time = 0` with exponential draw `5`, the
selected next firing time is the event's own rate change time `3`; `apply`
at time `3` then leaves the state unchanged (`0`, not `fn.apply`'s `1`):
the firing is skipped at the boundary, not taken. -/
theorem stochastic_event_boundary_skips :
    StochasticEvent.get_next_firing_time
        ⟨⟨[1, 2], [3]⟩, fun _ => 1, Nat.succ⟩ 0 (0 : ℕ) 5 = some 3
    ∧ StochasticEvent.apply ⟨⟨[1, 2], [3]⟩, fun _ => 1, Nat.succ⟩ 3 (0 : ℕ) = 0
    ∧ (⟨⟨[1, 2], [3]⟩, fun _ => 1, Nat.succ⟩ : StochasticEvent ℕ).fn_apply 0 = 1 := by
  refine ⟨?_, ?_, rfl⟩
  · simp [StochasticEvent.get_next_firing_time, get_next_greater,
      SkylineParameter.get_value_at_time, bisect_right]
    norm_num
  · simp [StochasticEvent.apply]

/-- C3 amended: when the selected next firing time of a stochastic event
coincides with one of that event's own rate change times, the event does
NOT fire — `apply` leaves the state unchanged, and `fn.apply` runs only at
times that are not change times of the event's rate; moreover the selected
time never precedes `current_time`. -/
theorem stochastic_event_boundary_no_op (σ : Type) (e : StochasticEvent σ)
    (m : σ) (current_time draw : ℚ) (hd : 0 ≤ draw) (t : ℚ)
    (h : e.get_next_firing_time current_time m draw = some t) :
    current_time ≤ t
    ∧ (t ∈ e.rate.change_times → e.apply t m = m)
    ∧ (t ∉ e.rate.change_times → e.apply t m = e.fn_apply m) := by
  refine ⟨?_, fun ht => if_pos ht, fun ht => if_neg ht⟩
  simp only [StochasticEvent.get_next_firing_time, get_next_greater] at h
  split at h
  · have ht := List.find?_some h
    simp only [decide_eq_true_eq] at ht
    exact le_of_lt ht
  · split at h
    · cases h
      linarith
    · rename_i c hg
      have hc := List.find?_some hg
      simp only [decide_eq_true_eq] at hc
      cases h
      exact le_min (by linarith) (le_of_lt hc)

/-- Witness for the amended C3 at the concrete event of the counterexample:
rate `([1, 2], [3])`, `current_time = 0`, draw `5`, selected time `3`. -/
theorem stochastic_event_boundary_no_op_witness :
    (0 : ℚ) ≤ 3
    ∧ ((3 : ℚ) ∈ (⟨⟨[1, 2], [3]⟩, fun _ => 1, Nat.succ⟩ : StochasticEvent ℕ).rate.change_times →
        StochasticEvent.apply ⟨⟨[1, 2], [3]⟩, fun _ => 1, Nat.succ⟩ 3 (0 : ℕ) = 0)
    ∧ ((3 : ℚ) ∉ (⟨⟨[1, 2], [3]⟩, fun _ => 1, Nat.succ⟩ : StochasticEvent ℕ).rate.change_times →
        StochasticEvent.apply ⟨⟨[1, 2], [3]⟩, fun _ => 1, Nat.succ⟩ 3 (0 : ℕ)
          = (⟨⟨[1, 2], [3]⟩, fun _ => 1, Nat.succ⟩ : StochasticEvent ℕ).fn_apply 0) :=
  stochastic_event_boundary_no_op ℕ ⟨⟨[1, 2], [3]⟩, fun _ => 1, Nat.succ⟩ 0 0 5
    (by norm_num) 3
    (by simp [StochasticEvent.get_next_firing_time, get_next_greater,
          SkylineParameter.get_value_at_time, bisect_right]
        norm_num)

/-! ## Gillespie driver argument validation (`phylogenie/treesimulator/gillespie.py`)

The first statement of `simulate_tree` validates the termination criterion:
`if (max_time is None) == (n_leaves is None): raise ValueError(...)`. -/

/-- Embeds the argument validation at the top of `simulate_tree` (lines
32-33 of `gillespie.py`). -/
def simulate_tree_validation (n_leaves : Option ℕ) (max_time : Option ℚ) :
    Except String Unit :=
  if max_time.isNone = n_leaves.isNone then
    .error "Exactly one of max_time or n_leaves must be specified."
  else
    .ok ()

/-- C9 counterexample: a call providing both `n_leaves` and `max_time`
raises a `ValueError` instead of being accepted and run. -/
theorem simulate_tree_both_rejected :
    simulate_tree_validation (some 50) (some 10)
      = .error "Exactly one of max_time or n_leaves must be specified." := rfl

/-- C9 amended: `simulate_tree` accepts its termination criterion exactly
when one and only one of `n_leaves`, `max_time` is given; it raises a
`ValueError` both when neither and when both are given. -/
theorem simulate_tree_exactly_one (n_leaves : Option ℕ) (max_time : Option ℚ) :
    simulate_tree_validation n_leaves max_time = .ok ()
      ↔ n_leaves.isSome ≠ max_time.isSome := by
  cases n_leaves <;> cases max_time <;> simp [simulate_tree_validation]

/-! ## Trees (`phylogenie/tree_node.py`) and the simulation model
(`phylogenie/treesimulator/core.py`)

The mutable `TreeNode` graph of the simulation is embedded arena-style: the
model state (`Sim` below) holds a list of node records, each carrying its
id, state label, optional branch length, parent id and ordered child ids.
A node's Python name `f"{id}|{state}"` is embedded as the pair
`(id, state)` (the format is injective, `id` containing no `|`).
`Model.get_tree` first deep-copies the node graph into a value tree
(`toTree` below produces the `STree` value) and then prunes it. -/

inductive STree : Type where
  | node (nid : ℕ) (nstate : String) (bl : Option ℚ) (children : List STree)
deriving Repr

def STree.bl : STree → Option ℚ
  | .node _ _ b _ => b

def STree.nid : STree → ℕ
  | .node i _ _ _ => i

def STree.setBl : STree → Option ℚ → STree
  | .node i st _ cs, b => .node i st b cs

mutual

def STree.tsize : STree → ℕ
  | .node _ _ _ cs => forestSize cs + 1

def forestSize : List STree → ℕ
  | [] => 0
  | t :: ts => t.tsize + forestSize ts

end

mutual

def STree.leafNames : STree → List (ℕ × String)
  | .node i st _ [] => [(i, st)]
  | .node _ _ _ (c :: cs) => leafNamesForest (c :: cs)

def leafNamesForest : List STree → List (ℕ × String)
  | [] => []
  | t :: ts => t.leafNames ++ leafNamesForest ts

end

mutual

def STree.internalOK : STree → Bool
  | .node _ _ _ cs => decide (cs.length ≠ 1) && forestInternalOK cs

def forestInternalOK : List STree → Bool
  | [] => true
  | t :: ts => t.internalOK && forestInternalOK ts

end

/-- Embeds the per-node action of the postorder pruning walk of
`Model.get_tree`, applied to the already-pruned children results `rs`:
surviving children keep their relative order and contraction replacements
are appended at the end (`child.update_parent` appends to the grandparent's
list); a childless node is dropped unless its name is sampled; a node with
exactly one surviving child is contracted, its branch length added onto the
child's (`child.branch_length += node.branch_length` raises a `TypeError`
when either length is `None`, embedded as the error case). -/
def pruneNodeStep (sampled : List (ℕ × String)) (i : ℕ) (st : String) (bl : Option ℚ)
    (rs : List (STree × Bool)) : Except String (Option (STree × Bool)) :=
  match (rs.filter (fun p => !p.2)).map Prod.fst ++ (rs.filter (fun p => p.2)).map Prod.fst with
  | [] =>
    if (i, st) ∈ sampled then .ok (some (.node i st bl [], false)) else .ok none
  | [c] =>
    match c.bl, bl with
    | some cb, some nb => .ok (some (c.setBl (some (cb + nb)), true))
    | _, _ => .error "unsupported operand types for +="
  | cs' => .ok (some (.node i st bl cs', false))

mutual

/-- Embeds the postorder pruning walk of `Model.get_tree` (lines 112-128 of
`treesimulator/core.py`), phrased as the equivalent bottom-up recursion
(children are fully processed before their parent, exactly as the
materialized postorder list guarantees).  The boolean flag records whether
the node was replaced by its single child. -/
def pruneTree (sampled : List (ℕ × String)) : STree → Except String (Option (STree × Bool))
  | .node i st bl cs =>
    match pruneForest sampled cs with
    | .error e => .error e
    | .ok rs => pruneNodeStep sampled i st bl rs

def pruneForest (sampled : List (ℕ × String)) : List STree → Except String (List (STree × Bool))
  | [] => .ok []
  | t :: ts =>
    match pruneTree sampled t with
    | .error e => .error e
    | .ok r =>
      match pruneForest sampled ts with
      | .error e => .error e
      | .ok rs =>
        match r with
        | none => .ok rs
        | some p => .ok (p :: rs)

end

/-! ### Arena records and the model state -/

structure NodeRec where
  nid : ℕ
  nstate : String
  bl : Option ℚ
  parent : Option ℕ
  children : List ℕ
deriving Repr, DecidableEq

structure Sim where
  current_time : ℚ
  next_node_id : ℕ
  nodes : List NodeRec
  sampled_nodes : List (ℕ × String)
  node_times : List (ℕ × ℚ)
  metadata : List (String × ℤ)
deriving Repr, DecidableEq

def lookupQ (l : List (ℕ × ℚ)) (k : ℕ) : Option ℚ :=
  (l.find? (fun p => decide (p.1 = k))).map Prod.snd

def findRec (nodes : List NodeRec) (i : ℕ) : Option NodeRec :=
  nodes.find? (fun r => decide (r.nid = i))

def updateRec (nodes : List NodeRec) (i : ℕ) (f : NodeRec → NodeRec) : List NodeRec :=
  nodes.map (fun r => if r.nid = i then f r else r)

/-- Embeds `Model.reset`: time `0`, node counter back to the first id, and a
single active root node in the initial state (the Python counter starts at
`0` and `get_new_node` pre-increments, so the root has id `1`). -/
def Sim.reset (init_state : String) (init_metadata : List (String × ℤ)) : Sim :=
  { current_time := 0, next_node_id := 1,
    nodes := [⟨1, init_state, none, none, []⟩],
    sampled_nodes := [], node_times := [], metadata := init_metadata }

/-- Embeds `Model.fix`: error if the node's branch length is already set;
parent time is `0.0` for the root and `self._node_times[node.parent]`
otherwise (a missing entry is Python's `KeyError`); the branch length
becomes `current_time - parent_time` and the fix time is recorded.  The
removal from the active-node index is not embedded: activeness is recovered
as `bl = none` (the source maintains the bijection between the two). -/
def Sim.fix (s : Sim) (target : ℕ) : Except String Sim :=
  match findRec s.nodes target with
  | none => .error "node not found"
  | some r =>
    match r.bl with
    | some _ => .error "Node has already been fixed"
    | none =>
      match r.parent with
      | none =>
        let nodes1 := updateRec s.nodes target (fun q => { q with bl := some (s.current_time - 0) })
        .ok { s with nodes := nodes1, node_times := (target, s.current_time) :: s.node_times }
      | some p =>
        match lookupQ s.node_times p with
        | none => .error "KeyError"
        | some pt =>
          let nodes1 := updateRec s.nodes target (fun q => { q with bl := some (s.current_time - pt) })
          .ok { s with nodes := nodes1, node_times := (target, s.current_time) :: s.node_times }

/-- Embeds `Model.get_new_node`: pre-increment the counter and create a new
active (branch length `None`), detached node in the given state. -/
def Sim.get_new_node (s : Sim) (state : String) : Sim × ℕ :=
  let nid := s.next_node_id + 1
  ({ s with next_node_id := nid, nodes := s.nodes ++ [⟨nid, state, none, none, []⟩] }, nid)

/-- Embeds `TreeNode.add_child`: rejects a child that already has a parent,
then links both sides (the child is appended to the parent's list). -/
def Sim.add_child (s : Sim) (parent child : ℕ) : Except String Sim :=
  match findRec s.nodes child with
  | none => .error "node not found"
  | some rc =>
    match rc.parent with
    | some _ => .error "already has a parent"
    | none =>
      let nodes1 := updateRec s.nodes child (fun q => { q with parent := some parent })
      let nodes2 := updateRec nodes1 parent (fun q => { q with children := q.children ++ [child] })
      .ok { s with nodes := nodes2 }

/-- Embeds `Model.stem`: fix the node, then attach a fresh active child in
`stem_state`. -/
def Sim.stem (s : Sim) (target : ℕ) (stem_state : String) : Except String Sim :=
  match s.fix target with
  | .error e => .error e
  | .ok s1 =>
    match s1.get_new_node stem_state with
    | (s2, nid) => s2.add_child target nid

/-- Embeds `Model.remove`: fix only. -/
def Sim.remove (s : Sim) (target : ℕ) : Except String Sim :=
  s.fix target

/-- Embeds `Model.migrate`: alias for `stem`. -/
def Sim.migrate (s : Sim) (target : ℕ) (new_state : String) : Except String Sim :=
  s.stem target new_state

/-- Reads `node[STATE_KEY]` of the node with a given id. -/
def Sim.stateOf (s : Sim) (target : ℕ) : Except String String :=
  match findRec s.nodes target with
  | none => .error "node not found"
  | some r => .ok r.nstate

/-- Embeds `Model.birth_from`: create a new active child in `new_state` and
attach it to the (still active) parent, then stem the parent into its own
state; returns the new node's id. -/
def Sim.birth_from (s : Sim) (parent : ℕ) (new_state : String) : Except String (Sim × ℕ) :=
  match s.stateOf parent with
  | .error e => .error e
  | .ok pstate =>
    match s.get_new_node new_state with
    | (s1, nid) =>
      match s1.add_child parent nid with
      | .error e => .error e
      | .ok s2 =>
        match s2.stem parent pstate with
        | .error e => .error e
        | .ok s3 => .ok (s3, nid)

/-- Embeds `Model.sample`: with removal, record the node's own name as
sampled and fix it; without removal, first `birth_from(node, node.state)`,
then record and fix the fresh (zero-length) node. -/
def Sim.sample (s : Sim) (target : ℕ) (removal : Bool) : Except String Sim :=
  if removal then
    match s.stateOf target with
    | .error e => .error e
    | .ok st =>
      ({ s with sampled_nodes := (target, st) :: s.sampled_nodes } : Sim).fix target
  else
    match s.stateOf target with
    | .error e => .error e
    | .ok st =>
      match s.birth_from target st with
      | .error e => .error e
      | .ok (s1, nid) =>
        ({ s1 with sampled_nodes := (nid, st) :: s1.sampled_nodes } : Sim).fix nid

/-- Sets `self._current_time` (the assignment in `Model.step`). -/
def Sim.setTime (s : Sim) (t : ℚ) : Sim :=
  { s with current_time := t }

/-- Sets a metadata key (`model[key] = value`, used e.g. by the SIR
transmission event's susceptibles bookkeeping). -/
def Sim.setMeta (s : Sim) (k : String) (v : ℤ) : Sim :=
  { s with metadata := (k, v) :: s.metadata }

/-- Monadic map over `Option`, specialized (this is `List.mapM` for the
`Option` monad, written out for direct reasoning). -/
def optionMapM (f : ℕ → Option STree) : List ℕ → Option (List STree)
  | [] => some []
  | x :: xs =>
    match f x with
    | none => none
    | some y =>
      match optionMapM f xs with
      | none => none
      | some ys => some (y :: ys)

/-- Embeds `TreeNode.copy` on the arena: rebuild the value tree rooted at a
given id.  Recursion is fueled; `nodes.length + 1` fuel suffices for every
well-formed arena (a parent's id is always smaller than its children's). -/
def toTree (nodes : List NodeRec) : ℕ → ℕ → Option STree
  | 0, _ => none
  | fuel + 1, i =>
    match findRec nodes i with
    | none => none
    | some r =>
      match optionMapM (toTree nodes fuel) r.children with
      | none => none
      | some cs => some (.node r.nid r.nstate r.bl cs)

/-- Embeds `Model.get_tree`: copy the tree rooted at the original seed
(id `1`), then run the pruning walk; `None` when the root itself is pruned
away, the contracted child when the root is unary. -/
def Sim.get_tree (s : Sim) : Except String (Option STree) :=
  match toTree s.nodes (s.nodes.length + 1) 1 with
  | none => .error "malformed tree"
  | some t =>
    match pruneTree s.sampled_nodes t with
    | .error e => .error e
    | .ok none => .ok none
    | .ok (some (r, _)) => .ok (some r)

/-! ### Structural soundness of the pruned tree (C4) -/

theorem tsize_pos (t : STree) : 1 ≤ t.tsize := by
  cases t
  rw [STree.tsize]
  omega

theorem tsize_le_forest (t : STree) (ts : List STree) (h : t ∈ ts) :
    t.tsize ≤ forestSize ts := by
  induction ts with
  | nil => cases h
  | cons c cts ih =>
    rcases List.mem_cons.mp h with rfl | h
    · rw [forestSize]
      omega
    · have := ih h
      rw [forestSize]
      omega

theorem leafNames_setBl (t : STree) (b : Option ℚ) :
    (t.setBl b).leafNames = t.leafNames := by
  obtain ⟨i, st, bl, cs⟩ := t
  cases cs <;> rfl

theorem internalOK_setBl (t : STree) (b : Option ℚ) :
    (t.setBl b).internalOK = t.internalOK := by
  obtain ⟨i, st, bl, cs⟩ := t
  rfl

theorem mem_leafNamesForest (x : ℕ × String) (ts : List STree) :
    x ∈ leafNamesForest ts ↔ ∃ t ∈ ts, x ∈ t.leafNames := by
  induction ts with
  | nil => simp [leafNamesForest]
  | cons c cts ih =>
    rw [leafNamesForest, List.mem_append, ih]
    simp

theorem forestInternalOK_iff (ts : List STree) :
    forestInternalOK ts = true ↔ ∀ t ∈ ts, t.internalOK = true := by
  induction ts with
  | nil => simp [forestInternalOK]
  | cons c cts ih =>
    rw [forestInternalOK, Bool.and_eq_true, ih]
    simp

/-- Soundness predicate for a pruned subtree: every leaf name is sampled and
no node has exactly one child. -/
def prunedOK (sampled : List (ℕ × String)) (r : STree) : Prop :=
  (∀ x ∈ r.leafNames, x ∈ sampled) ∧ r.internalOK = true

theorem mem_of_mem_pruneParts (rs : List (STree × Bool)) (c : STree)
    (h : c ∈ (rs.filter (fun p => !p.2)).map Prod.fst
          ++ (rs.filter (fun p => p.2)).map Prod.fst) :
    ∃ p ∈ rs, p.1 = c := by
  rcases List.mem_append.mp h with h | h <;>
    · rcases List.mem_map.mp h with ⟨p, hp, rfl⟩
      exact ⟨p, List.mem_of_mem_filter hp, rfl⟩

theorem pruneNodeStep_sound (sampled : List (ℕ × String)) (i : ℕ) (st : String)
    (bl : Option ℚ) (rs : List (STree × Bool))
    (hall : ∀ p ∈ rs, prunedOK sampled p.1) (r : STree) (flag : Bool)
    (hp : pruneNodeStep sampled i st bl rs = .ok (some (r, flag))) :
    prunedOK sampled r := by
  rw [pruneNodeStep] at hp
  rcases hcc : (rs.filter (fun p => !p.2)).map Prod.fst
      ++ (rs.filter (fun p => p.2)).map Prod.fst with _ | ⟨c, _ | ⟨c2, rest⟩⟩
  · rw [hcc] at hp
    have hp2 : (if (i, st) ∈ sampled then
          (Except.ok (some (STree.node i st bl [], false)) : Except String (Option (STree × Bool)))
        else .ok none) = .ok (some (r, flag)) := hp
    by_cases hmem : (i, st) ∈ sampled
    · rw [if_pos hmem] at hp2
      rcases hp2 with ⟨⟩
      constructor
      · intro x hx
        rw [STree.leafNames] at hx
        rcases List.mem_singleton.mp hx with rfl
        exact hmem
      · rfl
    · rw [if_neg hmem] at hp2
      cases hp2
  · rw [hcc] at hp
    have hp2 : (match c.bl, bl with
        | some cb, some nb =>
          (Except.ok (some (c.setBl (some (cb + nb)), true)) : Except String (Option (STree × Bool)))
        | _, _ => .error "unsupported operand types for +=") = .ok (some (r, flag)) := hp
    rcases mem_of_mem_pruneParts rs c (hcc ▸ List.mem_singleton.mpr rfl) with ⟨p, hpmem, hpc⟩
    have hcok : prunedOK sampled c := hpc ▸ hall p hpmem
    cases hcb : c.bl with
    | none =>
      rw [hcb] at hp2
      cases bl <;> cases hp2
    | some cb =>
      rw [hcb] at hp2
      cases bl with
      | none => cases hp2
      | some nb =>
        rcases hp2 with ⟨⟩
        refine ⟨?_, ?_⟩
        · intro x hx
          rw [leafNames_setBl] at hx
          exact hcok.1 x hx
        · rw [internalOK_setBl]
          exact hcok.2
  · rw [hcc] at hp
    rcases hp with ⟨⟩
    constructor
    · intro x hx
      rw [STree.leafNames] at hx
      rcases (mem_leafNamesForest x _).mp hx with ⟨tc, htc, hx⟩
      rcases mem_of_mem_pruneParts rs tc (hcc ▸ htc) with ⟨p, hpmem, hpc⟩
      exact (hpc ▸ hall p hpmem).1 x hx
    · rw [STree.internalOK, Bool.and_eq_true]
      constructor
      · simp
      · rw [forestInternalOK_iff]
        intro tc htc
        rcases mem_of_mem_pruneParts rs tc (hcc ▸ htc) with ⟨p, hpmem, hpc⟩
        exact (hpc ▸ hall p hpmem).2

theorem pruneTree_sound_aux (n : ℕ) :
    ∀ t : STree, t.tsize ≤ n → ∀ sampled r flag,
      pruneTree sampled t = .ok (some (r, flag)) → prunedOK sampled r := by
  induction n with
  | zero =>
    intro t ht
    have := tsize_pos t
    omega
  | succ n ih =>
    intro t ht sampled r flag hp
    obtain ⟨i, st, bl, cs⟩ := t
    have hforest : ∀ ts, forestSize ts ≤ n → ∀ rs, pruneForest sampled ts = .ok rs →
        ∀ p ∈ rs, prunedOK sampled p.1 := by
      intro ts
      induction ts with
      | nil =>
        intro _ rs hrs p hmem
        rw [pruneForest] at hrs
        cases hrs
        cases hmem
      | cons c cts ihc =>
        intro hsz rs hrs p hmem
        rw [pruneForest] at hrs
        have hc1 : c.tsize ≤ n := by
          rw [forestSize] at hsz
          omega
        have hc2 : forestSize cts ≤ n := by
          have := tsize_pos c
          rw [forestSize] at hsz
          omega
        cases h1 : pruneTree sampled c with
        | error e => rw [h1] at hrs; cases hrs
        | ok o =>
          rw [h1] at hrs
          cases h2 : pruneForest sampled cts with
          | error e =>
            rw [h2] at hrs
            have hrs2 : (Except.error e : Except String (List (STree × Bool))) = .ok rs := hrs
            cases hrs2
          | ok rs2 =>
            rw [h2] at hrs
            have hrs2 : (match o with
                | none => (Except.ok rs2 : Except String (List (STree × Bool)))
                | some p => .ok (p :: rs2)) = .ok rs := hrs
            cases o with
            | none =>
              have h3 : rs2 = rs := by injection hrs2
              rw [h3] at h2
              exact ihc hc2 rs h2 p hmem
            | some q =>
              have h3 : q :: rs2 = rs := by injection hrs2
              rw [← h3] at hmem
              rcases List.mem_cons.mp hmem with rfl | hmem2
              · exact ih c hc1 sampled p.1 p.2 h1
              · exact ihc hc2 rs2 h2 p hmem2
    have hcs_size : forestSize cs ≤ n := by
      rw [STree.tsize] at ht
      omega
    rw [pruneTree] at hp
    cases hrs : pruneForest sampled cs with
    | error e =>
      rw [hrs] at hp
      have hp2 : (Except.error e : Except String (Option (STree × Bool)))
          = .ok (some (r, flag)) := hp
      cases hp2
    | ok rs =>
      rw [hrs] at hp
      have hp2 : pruneNodeStep sampled i st bl rs = .ok (some (r, flag)) := hp
      exact pruneNodeStep_sound sampled i st bl rs (hforest cs hcs_size rs hrs) r flag hp2

/-- C4: whatever the simulation state, when `get_tree` returns a tree, every
leaf's name is one of the sampled names and every internal node has at
least two children (no node has exactly one child). -/
theorem get_tree_pruned_sound (s : Sim) (r : STree)
    (h : s.get_tree = .ok (some r)) :
    (∀ x ∈ r.leafNames, x ∈ s.sampled_nodes) ∧ r.internalOK = true := by
  rw [Sim.get_tree] at h
  cases htt : toTree s.nodes (s.nodes.length + 1) 1 with
  | none =>
    rw [htt] at h
    cases h
  | some t =>
    rw [htt] at h
    have h2 : (match pruneTree s.sampled_nodes t with
        | .error e => (Except.error e : Except String (Option STree))
        | .ok none => .ok none
        | .ok (some (r', _)) => .ok (some r')) = .ok (some r) := h
    cases hp : pruneTree s.sampled_nodes t with
    | error e =>
      rw [hp] at h2
      have h3 : (Except.error e : Except String (Option STree)) = .ok (some r) := h2
      cases h3
    | ok o =>
      rw [hp] at h2
      cases o with
      | none =>
        have h3 : (Except.ok (none : Option STree) : Except String (Option STree))
            = .ok (some r) := h2
        simp at h3
      | some p =>
        have h3 : (Except.ok (some p.1) : Except String (Option STree)) = .ok (some r) := h2
        have h4 : p.1 = r := by
          injection h3 with h5
          injection h5
        exact h4 ▸ pruneTree_sound_aux t.tsize t le_rfl s.sampled_nodes p.1 p.2 hp

/-- Witness for C4 at a concrete state: a single sampled, fixed root. -/
theorem get_tree_pruned_sound_witness :
    (∀ x ∈ (STree.node 1 "I" (some 0) []).leafNames, x ∈ [((1 : ℕ), "I")])
    ∧ (STree.node 1 "I" (some 0) []).internalOK = true :=
  get_tree_pruned_sound
    { current_time := 0, next_node_id := 1,
      nodes := [⟨1, "I", some 0, none, []⟩],
      sampled_nodes := [(1, "I")], node_times := [(1, 0)], metadata := [] }
    (STree.node 1 "I" (some 0) []) rfl

/-! ### Branch-length conservation (C5)

The key invariant of a run: whenever a node is fixed, its branch length is
`current_time - parent_time` and its fix time is recorded in `node_times`,
so along every root-to-leaf path the branch lengths telescope to the leaf's
fix time.  `Reachable` below closes `Sim.reset` under the public mutations
the event catalogue performs (`remove`, `stem`/`migrate`, `birth_from`,
`sample`, the driver's `current_time` assignment, and metadata updates); it
over-approximates the states a real run can reach, so a property proved for
all `Reachable` states holds in particular for every run. -/

/-- One per-node record of the value tree: id, state, branch length and the
accumulated branch-length sum from the root (a missing length counts 0). -/
structure TRec where
  rid : ℕ
  rstate : String
  rbl : Option ℚ
  rsum : ℚ
deriving Repr, DecidableEq

mutual

def STree.leafRecs : ℚ → STree → List TRec
  | acc, .node i st b [] => [⟨i, st, b, acc + b.getD 0⟩]
  | acc, .node _ _ b (c :: cs) => leafRecsForest (acc + b.getD 0) (c :: cs)

def leafRecsForest : ℚ → List STree → List TRec
  | _, [] => []
  | acc, t :: ts => t.leafRecs acc ++ leafRecsForest acc ts

end

mutual

def STree.nodeRecs : ℚ → STree → List TRec
  | acc, .node i st b cs => ⟨i, st, b, acc + b.getD 0⟩ :: nodeRecsForest (acc + b.getD 0) cs

def nodeRecsForest : ℚ → List STree → List TRec
  | _, [] => []
  | acc, t :: ts => t.nodeRecs acc ++ nodeRecsForest acc ts

end

/-- The `parent_time` that `Model.fix` reads for a record: `0.0` for the
root, the parent's recorded fix time otherwise. -/
def parentTime (times : List (ℕ × ℚ)) (r : NodeRec) : Option ℚ :=
  match r.parent with
  | none => some 0
  | some p => lookupQ times p

/-- The run invariant, parametrized by an optionally "excused" node id: the
node currently being grown by a composite operation (`birth_from` attaches
a child to a still-active parent before stemming it), which may temporarily
hold children while active.  With `excused = none` this is the full
invariant of the model between operations. -/
structure SimInv (excused : Option ℕ) (s : Sim) : Prop where
  timesOK : ∀ r ∈ s.nodes, ∀ b, r.bl = some b →
    ∃ pt, parentTime s.node_times r = some pt ∧ lookupQ s.node_times r.nid = some (pt + b)
  activeChildless : ∀ r ∈ s.nodes, r.bl = none → excused ≠ some r.nid → r.children = []
  childLinks : ∀ r ∈ s.nodes, ∀ c ∈ r.children,
    ∃ rc ∈ s.nodes, rc.nid = c ∧ rc.parent = some r.nid
  sampledFixed : ∀ p ∈ s.sampled_nodes,
    ∃ r, findRec s.nodes p.1 = some r ∧ r.bl.isSome = true
  idsNodup : (s.nodes.map NodeRec.nid).Nodup
  idsBound : ∀ r ∈ s.nodes, r.nid ≤ s.next_node_id
  rootOK : ∃ rr, findRec s.nodes 1 = some rr ∧ rr.parent = none
  activeNoTime : ∀ r ∈ s.nodes, r.bl = none → lookupQ s.node_times r.nid = none
  timesKeys : ∀ kv ∈ s.node_times, ∃ r ∈ s.nodes, r.nid = kv.1

/-- The operations of the model's public surface that the event catalogue
and the driver perform on the state. -/
inductive SimOp where
  | setTime (t : ℚ)
  | setMeta (k : String) (v : ℤ)
  | remove (target : ℕ)
  | stem (target : ℕ) (state : String)
  | birth (target : ℕ) (state : String)
  | sample (target : ℕ) (removal : Bool)

def applySimOp (s : Sim) : SimOp → Except String Sim
  | .setTime t => .ok (s.setTime t)
  | .setMeta k v => .ok (s.setMeta k v)
  | .remove t => s.remove t
  | .stem t st => s.stem t st
  | .birth t st => (s.birth_from t st).map Prod.fst
  | .sample t rm => s.sample t rm

/-- The states a configured model can be in: `reset` followed by any
sequence of successful public mutations (`migrate` is an alias of `stem`;
a timed event's applications are a sequence of `sample`/`remove` calls). -/
inductive Reachable : Sim → Prop
  | reset : ∀ st md, Reachable (Sim.reset st md)
  | step : ∀ s op s', Reachable s → applySimOp s op = .ok s' → Reachable s'

/-! #### List helper lemmas for the arena -/

theorem lookupQ_cons (k : ℕ) (v : ℚ) (times : List (ℕ × ℚ)) (j : ℕ) :
    lookupQ ((k, v) :: times) j = if k = j then some v else lookupQ times j := by
  rw [lookupQ, List.find?]
  by_cases h : k = j
  · simp [h]
  · simp only [decide_eq_false h, if_neg h]
    rfl

theorem findRec_mem_nid (nodes : List NodeRec) (i : ℕ) (r : NodeRec)
    (h : findRec nodes i = some r) : r ∈ nodes ∧ r.nid = i := by
  refine ⟨List.mem_of_find?_eq_some h, ?_⟩
  have := List.find?_some h
  simpa using this

theorem findRec_of_mem_nodup (nodes : List NodeRec) (r : NodeRec)
    (hmem : r ∈ nodes) (hnd : (nodes.map NodeRec.nid).Nodup) :
    findRec nodes r.nid = some r := by
  induction nodes with
  | nil => cases hmem
  | cons x xs ih =>
    rw [List.map_cons, List.nodup_cons] at hnd
    rcases List.mem_cons.mp hmem with rfl | hmem
    · rw [findRec, List.find?]
      simp
    · rw [findRec, List.find?]
      have hx : x.nid ≠ r.nid := by
        intro he
        exact hnd.1 (he ▸ List.mem_map.mpr ⟨r, hmem, rfl⟩)
      simp only [decide_eq_false hx]
      exact ih hmem hnd.2

theorem findRec_append_left (nodes : List NodeRec) (x : NodeRec) (i : ℕ) (r : NodeRec)
    (h : findRec nodes i = some r) : findRec (nodes ++ [x]) i = some r := by
  induction nodes with
  | nil => cases h
  | cons y ys ih =>
    rw [findRec, List.cons_append, List.find?]
    rw [findRec, List.find?] at h
    cases hy : decide (y.nid = i) with
    | true =>
      rw [hy] at h
      exact h
    | false =>
      rw [hy] at h
      exact ih h

theorem findRec_append_fresh (nodes : List NodeRec) (x : NodeRec)
    (hfresh : ∀ r ∈ nodes, r.nid ≠ x.nid) :
    findRec (nodes ++ [x]) x.nid = some x := by
  induction nodes with
  | nil => simp [findRec, List.find?]
  | cons y ys ih =>
    rw [List.cons_append, findRec, List.find?]
    have hy : y.nid ≠ x.nid := hfresh y (List.mem_cons_self _ _)
    simp only [decide_eq_false hy]
    exact ih (fun r hr => hfresh r (List.mem_cons.mpr (Or.inr hr)))

theorem findRec_none_of_fresh (nodes : List NodeRec) (i : ℕ)
    (hfresh : ∀ r ∈ nodes, r.nid ≠ i) : findRec nodes i = none := by
  induction nodes with
  | nil => rfl
  | cons y ys ih =>
    rw [findRec, List.find?]
    have hy : y.nid ≠ i := hfresh y (List.mem_cons_self _ _)
    simp only [decide_eq_false hy]
    exact ih (fun r hr => hfresh r (List.mem_cons.mpr (Or.inr hr)))

theorem mem_updateRec (nodes : List NodeRec) (t : ℕ) (f : NodeRec → NodeRec)
    (r' : NodeRec) :
    r' ∈ updateRec nodes t f ↔ ∃ r ∈ nodes, r' = if r.nid = t then f r else r := by
  rw [updateRec, List.mem_map]
  constructor
  · rintro ⟨r, hr, rfl⟩
    exact ⟨r, hr, rfl⟩
  · rintro ⟨r, hr, rfl⟩
    exact ⟨r, hr, rfl⟩

theorem findRec_updateRec (nodes : List NodeRec) (t : ℕ) (f : NodeRec → NodeRec)
    (hf : ∀ r, (f r).nid = r.nid) (i : ℕ) :
    findRec (updateRec nodes t f) i
      = (findRec nodes i).map (fun r => if r.nid = t then f r else r) := by
  induction nodes with
  | nil => rfl
  | cons y ys ih =>
    rw [updateRec, List.map_cons, findRec, List.find?]
    rw [findRec, List.find?]
    by_cases hy : y.nid = i
    · have h1 : (if y.nid = t then f y else y).nid = i := by
        by_cases ht : y.nid = t
        · rw [if_pos ht, hf]
          exact hy
        · rw [if_neg ht]
          exact hy
      rw [decide_eq_true h1, decide_eq_true hy]
      rfl
    · have h1 : (if y.nid = t then f y else y).nid ≠ i := by
        by_cases ht : y.nid = t
        · rw [if_pos ht, hf]
          exact hy
        · rw [if_neg ht]
          exact hy
      rw [decide_eq_false h1, decide_eq_false hy]
      exact ih

theorem map_nid_updateRec (nodes : List NodeRec) (t : ℕ) (f : NodeRec → NodeRec)
    (hf : ∀ r, (f r).nid = r.nid) :
    (updateRec nodes t f).map NodeRec.nid = nodes.map NodeRec.nid := by
  rw [updateRec, List.map_map]
  apply List.map_congr_left
  intro r _
  by_cases ht : r.nid = t <;> simp [ht, hf]

theorem optionMapM_mem (f : ℕ → Option STree) (l : List ℕ) (l' : List STree)
    (h : optionMapM f l = some l') : ∀ y ∈ l', ∃ x ∈ l, f x = some y := by
  induction l generalizing l' with
  | nil =>
    rw [optionMapM] at h
    injection h with h
    subst h
    intro y hy
    cases hy
  | cons x xs ih =>
    rw [optionMapM] at h
    cases hfx : f x with
    | none => rw [hfx] at h; cases h
    | some y0 =>
      rw [hfx] at h
      cases hm : optionMapM f xs with
      | none =>
        rw [hm] at h
        have h2 : (none : Option (List STree)) = some l' := h
        cases h2
      | some ys =>
        rw [hm] at h
        have h2 : some (y0 :: ys) = some l' := h
        injection h2 with h2
        subst h2
        intro y hy
        rcases List.mem_cons.mp hy with rfl | hy
        · exact ⟨x, List.mem_cons_self _ _, hfx⟩
        · rcases ih ys hm y hy with ⟨x', hx', hfx'⟩
          exact ⟨x', List.mem_cons.mpr (Or.inr hx'), hfx'⟩

theorem mem_nodeRecsForest (rec : TRec) (acc : ℚ) (ts : List STree) :
    rec ∈ nodeRecsForest acc ts ↔ ∃ t ∈ ts, rec ∈ t.nodeRecs acc := by
  induction ts with
  | nil => simp [nodeRecsForest]
  | cons c cts ih =>
    rw [nodeRecsForest, List.mem_append, ih]
    simp

theorem mem_leafRecsForest (rec : TRec) (acc : ℚ) (ts : List STree) :
    rec ∈ leafRecsForest acc ts ↔ ∃ t ∈ ts, rec ∈ t.leafRecs acc := by
  induction ts with
  | nil => simp [leafRecsForest]
  | cons c cts ih =>
    rw [leafRecsForest, List.mem_append, ih]
    simp

/-- In the copied (unpruned) tree of a state satisfying the invariant,
every node entry with a set branch length has its accumulated sum recorded
as its fix time, and every entry's branch length agrees with its arena
record. -/
theorem toTree_nodeRecs (nodes : List NodeRec) (times : List (ℕ × ℚ))
    (hA : ∀ r ∈ nodes, ∀ b, r.bl = some b →
      ∃ pt, parentTime times r = some pt ∧ lookupQ times r.nid = some (pt + b))
    (hB : ∀ r ∈ nodes, r.bl = none → r.children = [])
    (hC : ∀ r ∈ nodes, ∀ c ∈ r.children, ∃ rc ∈ nodes, rc.nid = c ∧ rc.parent = some r.nid)
    (hE : (nodes.map NodeRec.nid).Nodup) :
    ∀ fuel i t pt, toTree nodes fuel i = some t →
      (∀ ri, findRec nodes i = some ri → parentTime times ri = some pt) →
      ∀ rec ∈ t.nodeRecs pt,
        (∃ rr, findRec nodes rec.rid = some rr ∧ rr.bl = rec.rbl)
        ∧ (rec.rbl.isSome = true → lookupQ times rec.rid = some rec.rsum) := by
  intro fuel
  induction fuel with
  | zero =>
    intro i t pt h
    cases h
  | succ fuel ih =>
    intro i t pt h hpt
    rw [toTree] at h
    cases hfi : findRec nodes i with
    | none => rw [hfi] at h; cases h
    | some r =>
      rw [hfi] at h
      have h1 : (match optionMapM (toTree nodes fuel) r.children with
          | none => (none : Option STree)
          | some cs => some (STree.node r.nid r.nstate r.bl cs)) = some t := h
      cases hcs : optionMapM (toTree nodes fuel) r.children with
      | none =>
        rw [hcs] at h1
        cases h1
      | some cs =>
        rw [hcs] at h1
        have h2 : some (STree.node r.nid r.nstate r.bl cs) = some t := h1
        injection h2 with h2
        subst h2
        have hri : parentTime times r = some pt := hpt r hfi
        obtain ⟨hrmem, hrnid⟩ := findRec_mem_nid nodes i r hfi
        intro rec hrec
        rw [STree.nodeRecs] at hrec
        rcases List.mem_cons.mp hrec with rfl | hrec
        · refine ⟨⟨r, ?_, rfl⟩, ?_⟩
          · show findRec nodes r.nid = some r
            rw [hrnid]
            exact hfi
          · intro hsome
            cases hbl : r.bl with
            | none =>
              rw [hbl] at hsome
              cases hsome
            | some b =>
              rcases hA r hrmem b hbl with ⟨pt', hpt', hlk⟩
              have hpteq : pt' = pt := by
                rw [hri] at hpt'
                exact (Option.some.inj hpt').symm
              rw [hpteq] at hlk
              simpa using hlk
        · rcases (mem_nodeRecsForest rec _ cs).mp hrec with ⟨tc, htc, hrectc⟩
          rcases optionMapM_mem _ _ _ hcs tc htc with ⟨cid, hcid, htt⟩
          cases hbl : r.bl with
          | none =>
            have hnil : r.children = [] := hB r hrmem hbl
            rw [hnil] at hcid
            cases hcid
          | some b =>
            rcases hA r hrmem b hbl with ⟨pt', hpt', hlk⟩
            have hpteq : pt' = pt := by
              rw [hri] at hpt'
              exact (Option.some.inj hpt').symm
            rw [hpteq] at hlk
            rcases hC r hrmem cid hcid with ⟨rc, hrcmem, hrcnid, hrcpar⟩
            have hfrc : findRec nodes cid = some rc :=
              hrcnid ▸ findRec_of_mem_nodup nodes rc hrcmem hE
            have hptc : ∀ ri', findRec nodes cid = some ri' →
                parentTime times ri' = some (pt + b) := by
              intro ri' hri'
              rw [hfrc] at hri'
              injection hri' with he
              subst he
              rw [parentTime, hrcpar]
              exact hlk
            have hacc : rec ∈ tc.nodeRecs (pt + b) := by
              have : r.bl.getD 0 = b := by rw [hbl]; rfl
              rw [this] at hrectc
              exact hrectc
            exact ih cid tc (pt + b) htt hptc rec hacc

theorem pruneForest_origin (sampled : List (ℕ × String)) :
    ∀ ts rs, pruneForest sampled ts = .ok rs →
      ∀ p ∈ rs, ∃ tc ∈ ts, pruneTree sampled tc = .ok (some p) := by
  intro ts
  induction ts with
  | nil =>
    intro rs hrs p hmem
    rw [pruneForest] at hrs
    cases hrs
    cases hmem
  | cons c cts ih =>
    intro rs hrs p hmem
    rw [pruneForest] at hrs
    cases h1 : pruneTree sampled c with
    | error e => rw [h1] at hrs; cases hrs
    | ok o =>
      rw [h1] at hrs
      cases h2 : pruneForest sampled cts with
      | error e =>
        rw [h2] at hrs
        have hrs2 : (Except.error e : Except String (List (STree × Bool))) = .ok rs := hrs
        cases hrs2
      | ok rs2 =>
        rw [h2] at hrs
        have hrs2 : (match o with
            | none => (Except.ok rs2 : Except String (List (STree × Bool)))
            | some p => .ok (p :: rs2)) = .ok rs := hrs
        cases o with
        | none =>
          have h3 : rs2 = rs := by injection hrs2
          rw [h3] at h2
          rcases ih rs h2 p hmem with ⟨tc, htc, hptc⟩
          exact ⟨tc, List.mem_cons.mpr (Or.inr htc), hptc⟩
        | some q =>
          have h3 : q :: rs2 = rs := by injection hrs2
          rw [← h3] at hmem
          rcases List.mem_cons.mp hmem with rfl | hmem2
          · exact ⟨c, List.mem_cons_self _ _, h1⟩
          · rcases ih rs2 h2 p hmem2 with ⟨tc, htc, hptc⟩
            exact ⟨tc, List.mem_cons.mpr (Or.inr htc), hptc⟩

theorem setBl_leafRecs (c : STree) (cb x acc acc' : ℚ) (hcb : c.bl = some cb)
    (hacc : acc + x = acc' + cb) :
    ∀ rec ∈ (c.setBl (some x)).leafRecs acc,
      ∃ b0, (⟨rec.rid, rec.rstate, b0, rec.rsum⟩ : TRec) ∈ c.leafRecs acc' := by
  obtain ⟨ic, stc, blc, csc⟩ := c
  have hblc : blc = some cb := hcb
  subst hblc
  cases csc with
  | nil =>
    intro rec hrec
    rw [STree.setBl, STree.leafRecs] at hrec
    rcases List.mem_singleton.mp hrec with rfl
    refine ⟨some cb, ?_⟩
    rw [STree.leafRecs]
    have hs : acc + (some x).getD 0 = acc' + (some cb).getD 0 := by
      simpa using hacc
    rw [List.mem_singleton]
    show (⟨ic, stc, some cb, acc + (some x).getD 0⟩ : TRec)
        = ⟨ic, stc, some cb, acc' + (some cb).getD 0⟩
    rw [hs]
  | cons c2 cs2 =>
    intro rec hrec
    rw [STree.setBl, STree.leafRecs] at hrec
    refine ⟨rec.rbl, ?_⟩
    rw [STree.leafRecs]
    have hs : acc + (some x).getD 0 = acc' + (some cb).getD 0 := by
      simpa using hacc
    rw [hs] at hrec
    exact hrec

/-- Pruning preserves root-to-leaf branch-length sums: every leaf record of
the pruned tree matches a node entry of the original tree with the same id,
state and accumulated sum. -/
theorem prune_leafRecs_aux (n : ℕ) :
    ∀ t : STree, t.tsize ≤ n → ∀ sampled r flag acc,
      pruneTree sampled t = .ok (some (r, flag)) →
      ∀ rec ∈ r.leafRecs acc,
        ∃ b0, (⟨rec.rid, rec.rstate, b0, rec.rsum⟩ : TRec) ∈ t.nodeRecs acc := by
  induction n with
  | zero =>
    intro t ht
    have := tsize_pos t
    omega
  | succ n ih =>
    intro t ht sampled r flag acc hp
    obtain ⟨i, st, bl, cs⟩ := t
    have hcs_size : forestSize cs ≤ n := by
      rw [STree.tsize] at ht
      omega
    rw [pruneTree] at hp
    cases hrs : pruneForest sampled cs with
    | error e =>
      rw [hrs] at hp
      have hp2 : (Except.error e : Except String (Option (STree × Bool)))
          = .ok (some (r, flag)) := hp
      cases hp2
    | ok rs =>
      rw [hrs] at hp
      have hp2 : pruneNodeStep sampled i st bl rs = .ok (some (r, flag)) := hp
      have horigin : ∀ p ∈ rs, ∃ tc ∈ cs, pruneTree sampled tc = .ok (some p) :=
        pruneForest_origin sampled cs rs hrs
      rw [pruneNodeStep] at hp2
      rcases hcc : (rs.filter (fun p => !p.2)).map Prod.fst
          ++ (rs.filter (fun p => p.2)).map Prod.fst with _ | ⟨c, _ | ⟨c2, rest⟩⟩
      · rw [hcc] at hp2
        have hp3 : (if (i, st) ∈ sampled then
              (Except.ok (some (STree.node i st bl [], false)) : Except String (Option (STree × Bool)))
            else .ok none) = .ok (some (r, flag)) := hp2
        by_cases hmem : (i, st) ∈ sampled
        · rw [if_pos hmem] at hp3
          rcases hp3 with ⟨⟩
          intro rec hrec
          rw [STree.leafRecs] at hrec
          rcases List.mem_singleton.mp hrec with rfl
          refine ⟨bl, ?_⟩
          rw [STree.nodeRecs]
          exact List.mem_cons_self _ _
        · rw [if_neg hmem] at hp3
          cases hp3
      · rw [hcc] at hp2
        have hp3 : (match c.bl, bl with
            | some cb, some nb =>
              (Except.ok (some (c.setBl (some (cb + nb)), true)) : Except String (Option (STree × Bool)))
            | _, _ => .error "unsupported operand types for +=") = .ok (some (r, flag)) := hp2
        rcases mem_of_mem_pruneParts rs c (hcc ▸ List.mem_singleton.mpr rfl) with ⟨p, hpmem, hpc⟩
        rcases horigin p hpmem with ⟨tc, htcmem, hptc⟩
        have htcsize : tc.tsize ≤ n := le_trans (tsize_le_forest tc cs htcmem) hcs_size
        cases hcb : c.bl with
        | none =>
          rw [hcb] at hp3
          cases bl <;> cases hp3
        | some cb =>
          rw [hcb] at hp3
          cases bl with
          | none => cases hp3
          | some nb =>
            rcases hp3 with ⟨⟩
            intro rec hrec
            have hacc : acc + (cb + nb) = (acc + nb) + cb := by ring
            rcases setBl_leafRecs c cb (cb + nb) acc (acc + nb) hcb hacc rec hrec
              with ⟨b0, hb0⟩
            have hrec2 := ih tc htcsize sampled c p.2 (acc + nb) (hpc ▸ hptc)
              ⟨rec.rid, rec.rstate, b0, rec.rsum⟩ hb0
            rcases hrec2 with ⟨b1, hb1⟩
            refine ⟨b1, ?_⟩
            rw [STree.nodeRecs]
            refine List.mem_cons.mpr (Or.inr ?_)
            rw [mem_nodeRecsForest]
            refine ⟨tc, htcmem, ?_⟩
            have : (some nb).getD 0 = nb := rfl
            rw [this]
            exact hb1
      · rw [hcc] at hp2
        have hp3 : (Except.ok (some (STree.node i st bl (c :: c2 :: rest), false))
            : Except String (Option (STree × Bool))) = .ok (some (r, flag)) := hp2
        rcases hp3 with ⟨⟩
        intro rec hrec
        rw [STree.leafRecs] at hrec
        rcases (mem_leafRecsForest rec _ _).mp hrec with ⟨tcp, htcp, hrectcp⟩
        rcases mem_of_mem_pruneParts rs tcp (hcc ▸ htcp) with ⟨p, hpmem, hpc⟩
        rcases horigin p hpmem with ⟨tc, htcmem, hptc⟩
        have htcsize : tc.tsize ≤ n := le_trans (tsize_le_forest tc cs htcmem) hcs_size
        rcases ih tc htcsize sampled tcp p.2 (acc + bl.getD 0) (hpc ▸ hptc) rec hrectcp
          with ⟨b1, hb1⟩
        refine ⟨b1, ?_⟩
        rw [STree.nodeRecs]
        refine List.mem_cons.mpr (Or.inr ?_)
        rw [mem_nodeRecsForest]
        exact ⟨tc, htcmem, hb1⟩

/-! #### Preservation of the invariant by the public operations -/

theorem lookupQ_mem (times : List (ℕ × ℚ)) (j : ℕ) (v : ℚ)
    (h : lookupQ times j = some v) : ∃ kv ∈ times, kv.1 = j := by
  rw [lookupQ] at h
  cases hf : times.find? (fun p => decide (p.1 = j)) with
  | none => rw [hf] at h; cases h
  | some kv =>
    have h1 := List.find?_some hf
    simp only [decide_eq_true_eq] at h1
    exact ⟨kv, List.mem_of_find?_eq_some hf, h1⟩

theorem inv_weaken (s : Sim) (e : Option ℕ) (hI : SimInv none s) : SimInv e s :=
  ⟨hI.timesOK, fun r hr hbl _ => hI.activeChildless r hr hbl (by simp),
   hI.childLinks, hI.sampledFixed, hI.idsNodup, hI.idsBound, hI.rootOK,
   hI.activeNoTime, hI.timesKeys⟩

theorem fix_core (s : Sim) (target : ℕ) (r : NodeRec) (pt : ℚ)
    (hI : SimInv (some target) s)
    (hfr : findRec s.nodes target = some r)
    (hbl : r.bl = none)
    (hpt : parentTime s.node_times r = some pt) :
    SimInv none { s with
      nodes := updateRec s.nodes target (fun q => { q with bl := some (s.current_time - pt) }),
      node_times := (target, s.current_time) :: s.node_times } := by
  obtain ⟨hrmem, hrnid⟩ := findRec_mem_nid s.nodes target r hfr
  have hfpres : ∀ q : NodeRec,
      ((fun (q : NodeRec) => { q with bl := some (s.current_time - pt) }) q).nid
      = q.nid := fun q => rfl
  have hTtgt : lookupQ ((target, s.current_time) :: s.node_times) target
      = some s.current_time := by
    rw [lookupQ_cons, if_pos rfl]
  have hTother : ∀ j, j ≠ target →
      lookupQ ((target, s.current_time) :: s.node_times) j = lookupQ s.node_times j := by
    intro j hj
    rw [lookupQ_cons, if_neg (fun he => hj he.symm)]
  have hnotime : lookupQ s.node_times target = none := by
    have := hI.activeNoTime r hrmem hbl
    rw [hrnid] at this
    exact this
  have hmemchar : ∀ r' ∈ updateRec s.nodes target
      (fun q => { q with bl := some (s.current_time - pt) }),
      ∃ q ∈ s.nodes, r' = if q.nid = target then { q with bl := some (s.current_time - pt) } else q := by
    intro r' hr'
    exact (mem_updateRec _ _ _ r').mp hr'
  have huniq : ∀ q ∈ s.nodes, q.nid = target → q = r := by
    intro q hq hqn
    have h1 : findRec s.nodes q.nid = some q := findRec_of_mem_nodup s.nodes q hq hI.idsNodup
    rw [hqn, hfr] at h1
    exact (Option.some.inj h1).symm
  refine ⟨?_, ?_, ?_, ?_, ?_, ?_, ?_, ?_, ?_⟩
  · -- timesOK
    intro r' hr' b hb
    rcases hmemchar r' hr' with ⟨q, hq, rfl⟩
    by_cases hqt : q.nid = target
    · rw [if_pos hqt] at hb ⊢
      have hqr : r = q := (huniq q hq hqt).symm
      subst hqr
      have hbval : b = s.current_time - pt := by
        have : some (s.current_time - pt) = some b := hb
        exact (Option.some.inj this).symm
      subst hbval
      cases hpar : r.parent with
      | none =>
        have hpt0 : pt = 0 := by
          rw [parentTime, hpar] at hpt
          exact (Option.some.inj hpt).symm
        refine ⟨0, rfl, ?_⟩
        show lookupQ ((target, s.current_time) :: s.node_times) r.nid
          = some (0 + (s.current_time - pt))
        rw [hrnid, hTtgt, hpt0]
        congr 1
        ring
      | some p =>
        have hlkp : lookupQ s.node_times p = some pt := by
          rw [parentTime, hpar] at hpt
          exact hpt
        have hpnt : p ≠ target := by
          intro he
          rw [he, hnotime] at hlkp
          cases hlkp
        refine ⟨pt, ?_, ?_⟩
        · show lookupQ ((target, s.current_time) :: s.node_times) p = some pt
          rw [hTother p hpnt]
          exact hlkp
        · show lookupQ ((target, s.current_time) :: s.node_times) r.nid
            = some (pt + (s.current_time - pt))
          rw [hrnid, hTtgt]
          congr 1
          ring
    · rw [if_neg hqt] at hb ⊢
      rcases hI.timesOK q hq b hb with ⟨pt', hpt', hlk'⟩
      refine ⟨pt', ?_, ?_⟩
      · rw [parentTime] at hpt' ⊢
        cases hpar : q.parent with
        | none =>
          rw [hpar] at hpt'
          exact hpt'
        | some p2 =>
          rw [hpar] at hpt'
          have hpt2 : lookupQ s.node_times p2 = some pt' := hpt'
          have hp2 : p2 ≠ target := by
            intro he
            rw [he, hnotime] at hpt2
            cases hpt2
          show lookupQ ((target, s.current_time) :: s.node_times) p2 = some pt'
          rw [hTother p2 hp2]
          exact hpt2
      · show lookupQ ((target, s.current_time) :: s.node_times) q.nid = some (pt' + b)
        rw [hTother q.nid hqt]
        exact hlk'
  · -- activeChildless
    intro r' hr' hbl' _
    rcases hmemchar r' hr' with ⟨q, hq, rfl⟩
    by_cases hqt : q.nid = target
    · rw [if_pos hqt] at hbl'
      cases hbl'
    · rw [if_neg hqt] at hbl' ⊢
      exact hI.activeChildless q hq hbl' (by intro he; injection he with he; exact hqt he.symm)
  · -- childLinks
    intro r' hr' c hc
    rcases hmemchar r' hr' with ⟨q, hq, rfl⟩
    have hch : (if q.nid = target then
        ({ q with bl := some (s.current_time - pt) } : NodeRec) else q).children = q.children := by
      by_cases hqt : q.nid = target
      · rw [if_pos hqt]
      · rw [if_neg hqt]
    rw [hch] at hc
    rcases hI.childLinks q hq c hc with ⟨rc, hrcmem, hrcnid, hrcpar⟩
    refine ⟨if rc.nid = target then { rc with bl := some (s.current_time - pt) } else rc, ?_, ?_, ?_⟩
    · exact (mem_updateRec _ _ _ _).mpr ⟨rc, hrcmem, rfl⟩
    · by_cases hrt : rc.nid = target
      · rw [if_pos hrt]
        exact hrt ▸ hrcnid
      · rw [if_neg hrt]
        exact hrcnid
    · have hnid : (if q.nid = target then
          ({ q with bl := some (s.current_time - pt) } : NodeRec) else q).nid = q.nid := by
        by_cases hqt : q.nid = target
        · rw [if_pos hqt]
        · rw [if_neg hqt]
      rw [hnid]
      by_cases hrt : rc.nid = target
      · rw [if_pos hrt]
        exact hrcpar
      · rw [if_neg hrt]
        exact hrcpar
  · -- sampledFixed
    intro p hp
    rcases hI.sampledFixed p hp with ⟨rr, hrr, hrrbl⟩
    refine ⟨if rr.nid = target then { rr with bl := some (s.current_time - pt) } else rr, ?_, ?_⟩
    · rw [findRec_updateRec _ _ _ hfpres, hrr]
      rfl
    · by_cases hrt : rr.nid = target
      · rw [if_pos hrt]
        rfl
      · rw [if_neg hrt]
        exact hrrbl
  · -- idsNodup
    show ((updateRec s.nodes target _).map NodeRec.nid).Nodup
    rw [map_nid_updateRec _ _ _ hfpres]
    exact hI.idsNodup
  · -- idsBound
    intro r' hr'
    rcases hmemchar r' hr' with ⟨q, hq, rfl⟩
    have : (if q.nid = target then
        ({ q with bl := some (s.current_time - pt) } : NodeRec) else q).nid = q.nid := by
      by_cases hqt : q.nid = target
      · rw [if_pos hqt]
      · rw [if_neg hqt]
    rw [this]
    exact hI.idsBound q hq
  · -- rootOK
    rcases hI.rootOK with ⟨rr, hrr, hpar⟩
    refine ⟨if rr.nid = target then { rr with bl := some (s.current_time - pt) } else rr, ?_, ?_⟩
    · rw [findRec_updateRec _ _ _ hfpres, hrr]
      rfl
    · by_cases hrt : rr.nid = target
      · rw [if_pos hrt]
        exact hpar
      · rw [if_neg hrt]
        exact hpar
  · -- activeNoTime
    intro r' hr' hbl'
    rcases hmemchar r' hr' with ⟨q, hq, rfl⟩
    by_cases hqt : q.nid = target
    · rw [if_pos hqt] at hbl'
      cases hbl'
    · rw [if_neg hqt] at hbl' ⊢
      rw [hTother q.nid hqt]
      exact hI.activeNoTime q hq hbl'
  · -- timesKeys
    intro kv hkv
    rcases List.mem_cons.mp hkv with rfl | hkv
    · refine ⟨{ r with bl := some (s.current_time - pt) }, ?_, ?_⟩
      · have := (mem_updateRec s.nodes target
          (fun q => { q with bl := some (s.current_time - pt) })
          ({ r with bl := some (s.current_time - pt) })).mpr ⟨r, hrmem, by rw [if_pos hrnid]⟩
        exact this
      · exact hrnid
    · rcases hI.timesKeys kv hkv with ⟨q, hq, hqn⟩
      refine ⟨if q.nid = target then { q with bl := some (s.current_time - pt) } else q, ?_, ?_⟩
      · exact (mem_updateRec _ _ _ _).mpr ⟨q, hq, rfl⟩
      · by_cases hqt : q.nid = target
        · rw [if_pos hqt]
          exact hqn
        · rw [if_neg hqt]
          exact hqn

theorem fix_preserves (s : Sim) (target : ℕ) (s' : Sim)
    (hI : SimInv (some target) s) (h : s.fix target = .ok s') :
    SimInv none s'
    ∧ s'.current_time = s.current_time
    ∧ s'.next_node_id = s.next_node_id
    ∧ s'.sampled_nodes = s.sampled_nodes
    ∧ s'.metadata = s.metadata
    ∧ (∃ r', findRec s'.nodes target = some r' ∧ r'.bl.isSome = true)
    ∧ (∀ i rr, findRec s.nodes i = some rr → i ≠ target → findRec s'.nodes i = some rr) := by
  rw [Sim.fix] at h
  cases hfr : findRec s.nodes target with
  | none =>
    rw [hfr] at h
    cases h
  | some r =>
    rw [hfr] at h
    have h1 : (match r.bl with
        | some _ => (Except.error "Node has already been fixed" : Except String Sim)
        | none =>
          match r.parent with
          | none =>
            .ok { s with
              nodes := updateRec s.nodes target (fun q => { q with bl := some (s.current_time - 0) }),
              node_times := (target, s.current_time) :: s.node_times }
          | some p =>
            match lookupQ s.node_times p with
            | none => .error "KeyError"
            | some pt =>
              .ok { s with
                nodes := updateRec s.nodes target (fun q => { q with bl := some (s.current_time - pt) }),
                node_times := (target, s.current_time) :: s.node_times }) = .ok s' := h
    cases hbl : r.bl with
    | some b =>
      rw [hbl] at h1
      cases h1
    | none =>
      rw [hbl] at h1
      have hfixed : ∀ pt : ℚ,
          (∃ r1, findRec (updateRec s.nodes target
              (fun q => { q with bl := some (s.current_time - pt) })) target = some r1
            ∧ r1.bl.isSome = true) := by
        intro pt
        refine ⟨{ r with bl := some (s.current_time - pt) }, ?_, rfl⟩
        rw [findRec_updateRec s.nodes target
          (fun q => { q with bl := some (s.current_time - pt) }) (fun q => rfl), hfr]
        show some (if r.nid = target then _ else r) = _
        rw [if_pos (findRec_mem_nid s.nodes target r hfr).2]
      have hkeep : ∀ pt : ℚ, ∀ i rr, findRec s.nodes i = some rr → i ≠ target →
          findRec (updateRec s.nodes target
            (fun q => { q with bl := some (s.current_time - pt) })) i = some rr := by
        intro pt i rr hi hne
        rw [findRec_updateRec s.nodes target
          (fun q => { q with bl := some (s.current_time - pt) }) (fun q => rfl), hi]
        have : rr.nid = i := (findRec_mem_nid s.nodes i rr hi).2
        show some (if rr.nid = target then _ else rr) = _
        rw [this, if_neg hne]
      cases hpar : r.parent with
      | none =>
        rw [hpar] at h1
        have h3 : Except.ok ({ s with
            nodes := updateRec s.nodes target (fun q => { q with bl := some (s.current_time - 0) }),
            node_times := (target, s.current_time) :: s.node_times } : Sim) = .ok s' := h1
        have h4 : ({ s with
            nodes := updateRec s.nodes target (fun q => { q with bl := some (s.current_time - 0) }),
            node_times := (target, s.current_time) :: s.node_times } : Sim) = s' := by
          injection h3
        subst h4
        have hpt : parentTime s.node_times r = some 0 := by
          rw [parentTime, hpar]
        exact ⟨fix_core s target r 0 hI hfr hbl hpt, rfl, rfl, rfl, rfl,
          hfixed 0, hkeep 0⟩
      | some p =>
        rw [hpar] at h1
        have h2 : (match lookupQ s.node_times p with
            | none => (Except.error "KeyError" : Except String Sim)
            | some pt =>
              .ok { s with
                nodes := updateRec s.nodes target (fun q => { q with bl := some (s.current_time - pt) }),
                node_times := (target, s.current_time) :: s.node_times }) = .ok s' := h1
        cases hlk : lookupQ s.node_times p with
        | none =>
          rw [hlk] at h2
          cases h2
        | some pt =>
          rw [hlk] at h2
          have h3 : Except.ok ({ s with
              nodes := updateRec s.nodes target (fun q => { q with bl := some (s.current_time - pt) }),
              node_times := (target, s.current_time) :: s.node_times } : Sim) = .ok s' := h2
          have h4 : ({ s with
              nodes := updateRec s.nodes target (fun q => { q with bl := some (s.current_time - pt) }),
              node_times := (target, s.current_time) :: s.node_times } : Sim) = s' := by
            injection h3
          subst h4
          have hpt : parentTime s.node_times r = some pt := by
            rw [parentTime, hpar]
            exact hlk
          exact ⟨fix_core s target r pt hI hfr hbl hpt, rfl, rfl, rfl, rfl,
            hfixed pt, hkeep pt⟩

theorem get_new_preserves (s : Sim) (e : Option ℕ) (st : String) (hI : SimInv e s) :
    SimInv e (s.get_new_node st).1 := by
  have hmem : ∀ r' : NodeRec, r' ∈ s.nodes ++ [⟨s.next_node_id + 1, st, none, none, []⟩] ↔
      r' ∈ s.nodes ∨ r' = ⟨s.next_node_id + 1, st, none, none, []⟩ := by
    intro r'
    rw [List.mem_append, List.mem_singleton]
  have hfresh : ∀ r ∈ s.nodes, r.nid ≠ s.next_node_id + 1 := by
    intro r hr he
    have := hI.idsBound r hr
    omega
  refine ⟨?_, ?_, ?_, ?_, ?_, ?_, ?_, ?_, ?_⟩
  · intro r' hr' b hb
    rcases (hmem r').mp hr' with hr' | rfl
    · exact hI.timesOK r' hr' b hb
    · cases hb
  · intro r' hr' hbl' hex
    rcases (hmem r').mp hr' with hr' | rfl
    · exact hI.activeChildless r' hr' hbl' hex
    · rfl
  · intro r' hr' c hc
    rcases (hmem r').mp hr' with hr' | rfl
    · rcases hI.childLinks r' hr' c hc with ⟨rc, hrcmem, hrcnid, hrcpar⟩
      exact ⟨rc, (hmem rc).mpr (Or.inl hrcmem), hrcnid, hrcpar⟩
    · cases hc
  · intro p hp
    rcases hI.sampledFixed p hp with ⟨rr, hrr, hrrbl⟩
    exact ⟨rr, findRec_append_left s.nodes _ p.1 rr hrr, hrrbl⟩
  · show ((s.nodes ++ [(⟨s.next_node_id + 1, st, none, none, []⟩ : NodeRec)]).map NodeRec.nid).Nodup
    rw [List.map_append]
    refine List.Nodup.append hI.idsNodup (List.nodup_singleton _) ?_
    intro a ha ha2
    rcases List.mem_map.mp ha with ⟨r, hr, rfl⟩
    rcases List.mem_singleton.mp ha2 with he
    exact hfresh r hr (by simpa using he)
  · intro r' hr'
    rcases (hmem r').mp hr' with hr' | rfl
    · have := hI.idsBound r' hr'
      show r'.nid ≤ s.next_node_id + 1
      omega
    · show s.next_node_id + 1 ≤ s.next_node_id + 1
      omega
  · rcases hI.rootOK with ⟨rr, hrr, hpar⟩
    exact ⟨rr, findRec_append_left s.nodes _ 1 rr hrr, hpar⟩
  · intro r' hr' hbl'
    rcases (hmem r').mp hr' with hr' | rfl
    · exact hI.activeNoTime r' hr' hbl'
    · show lookupQ s.node_times (s.next_node_id + 1) = none
      cases hlk : lookupQ s.node_times (s.next_node_id + 1) with
      | none => rfl
      | some v =>
        rcases lookupQ_mem _ _ _ hlk with ⟨kv, hkv, hk⟩
        rcases hI.timesKeys kv hkv with ⟨q, hq, hqn⟩
        have := hI.idsBound q hq
        rw [hk] at hqn
        omega
  · intro kv hkv
    rcases hI.timesKeys kv hkv with ⟨q, hq, hqn⟩
    exact ⟨q, (hmem q).mpr (Or.inl hq), hqn⟩

/-- The combined effect on a single arena record of `TreeNode.add_child`'s
two updates: the child's parent pointer is set, the parent's child list gets
the child appended, every other record is untouched. -/
def linkUpd (parent child : ℕ) (q : NodeRec) : NodeRec :=
  if q.nid = child then { q with parent := some parent }
  else if q.nid = parent then { q with children := q.children ++ [child] } else q

theorem linkUpd_nid (parent child : ℕ) (q : NodeRec) : (linkUpd parent child q).nid = q.nid := by
  rw [linkUpd]
  by_cases hc : q.nid = child
  · rw [if_pos hc]
  · rw [if_neg hc]
    by_cases hp : q.nid = parent
    · rw [if_pos hp]
    · rw [if_neg hp]

theorem linkUpd_bl (parent child : ℕ) (q : NodeRec) : (linkUpd parent child q).bl = q.bl := by
  rw [linkUpd]
  by_cases hc : q.nid = child
  · rw [if_pos hc]
  · rw [if_neg hc]
    by_cases hp : q.nid = parent
    · rw [if_pos hp]
    · rw [if_neg hp]

theorem linkUpd_parent_self (parent child : ℕ) (q : NodeRec) (h : q.nid = child) :
    (linkUpd parent child q).parent = some parent := by
  rw [linkUpd, if_pos h]

theorem linkUpd_parent_of_ne (parent child : ℕ) (q : NodeRec) (h : q.nid ≠ child) :
    (linkUpd parent child q).parent = q.parent := by
  rw [linkUpd, if_neg h]
  by_cases hp : q.nid = parent
  · rw [if_pos hp]
  · rw [if_neg hp]

theorem linkUpd_children_self (parent child : ℕ) (q : NodeRec) (hq : q.nid = parent)
    (hne : parent ≠ child) :
    (linkUpd parent child q).children = q.children ++ [child] := by
  have hc : q.nid ≠ child := by
    rw [hq]
    exact hne
  rw [linkUpd, if_neg hc, if_pos hq]

theorem linkUpd_children_of_ne (parent child : ℕ) (q : NodeRec) (h : q.nid ≠ parent) :
    (linkUpd parent child q).children = q.children := by
  rw [linkUpd]
  by_cases hc : q.nid = child
  · rw [if_pos hc]
  · rw [if_neg hc, if_neg h]

/-- The arena after `TreeNode.add_child`'s two updates (child's parent set,
child appended to the parent's list). -/
def linkNodes (parent child : ℕ) (nodes : List NodeRec) : List NodeRec :=
  updateRec (updateRec nodes child (fun q => { q with parent := some parent })) parent
    (fun q => { q with children := q.children ++ [child] })

theorem add_child_preserves (s : Sim) (parent child : ℕ) (cst : String) (rp : NodeRec)
    (hI : SimInv none s)
    (hrc : findRec s.nodes child = some ⟨child, cst, none, none, []⟩)
    (hrp : findRec s.nodes parent = some rp)
    (hne : parent ≠ child) (hc1 : child ≠ 1) :
    ∃ s', s.add_child parent child = .ok s'
    ∧ SimInv (some parent) s'
    ∧ (rp.bl.isSome = true → SimInv none s')
    ∧ s'.current_time = s.current_time ∧ s'.next_node_id = s.next_node_id
    ∧ s'.sampled_nodes = s.sampled_nodes ∧ s'.node_times = s.node_times
    ∧ s'.metadata = s.metadata := by
  have hCmem : (⟨child, cst, none, none, []⟩ : NodeRec) ∈ s.nodes :=
    (findRec_mem_nid s.nodes child _ hrc).1
  obtain ⟨hrpmem, hrpnid⟩ := findRec_mem_nid s.nodes parent rp hrp
  have huniqC : ∀ q ∈ s.nodes, q.nid = child → q = ⟨child, cst, none, none, []⟩ := by
    intro q hq hqn
    have h1 : findRec s.nodes q.nid = some q := findRec_of_mem_nodup s.nodes q hq hI.idsNodup
    rw [hqn, hrc] at h1
    exact (Option.some.inj h1).symm
  have huniqP : ∀ q ∈ s.nodes, q.nid = parent → q = rp := by
    intro q hq hqn
    have h1 : findRec s.nodes q.nid = some q := findRec_of_mem_nodup s.nodes q hq hI.idsNodup
    rw [hqn, hrp] at h1
    exact (Option.some.inj h1).symm
  have hg1 : ∀ q : NodeRec,
      ((fun (q : NodeRec) => { q with parent := some parent }) q).nid = q.nid := fun _ => rfl
  have hg2 : ∀ q : NodeRec,
      ((fun (q : NodeRec) => { q with children := q.children ++ [child] }) q).nid = q.nid :=
    fun _ => rfl
  -- the image of a record under the two updates is `linkUpd`
  have himg : ∀ q : NodeRec,
      (if (if q.nid = child then ({ q with parent := some parent } : NodeRec) else q).nid = parent
        then { (if q.nid = child then ({ q with parent := some parent } : NodeRec) else q) with
          children := (if q.nid = child then ({ q with parent := some parent } : NodeRec) else q).children ++ [child] }
        else (if q.nid = child then ({ q with parent := some parent } : NodeRec) else q))
      = linkUpd parent child q := by
    intro q
    rw [linkUpd]
    by_cases hqc : q.nid = child
    · rw [if_pos hqc, if_pos hqc]
      have hnp : ({ q with parent := some parent } : NodeRec).nid ≠ parent := by
        show q.nid ≠ parent
        rw [hqc]
        exact fun he => hne he.symm
      rw [if_neg hnp]
    · rw [if_neg hqc, if_neg hqc]
  have hmem2 : ∀ r' ∈ linkNodes parent child s.nodes,
      ∃ q ∈ s.nodes, r' = linkUpd parent child q := by
    intro r' hr'
    rw [linkNodes] at hr'
    rcases (mem_updateRec _ _ _ r').mp hr' with ⟨q1, hq1, rfl⟩
    rcases (mem_updateRec _ _ _ q1).mp hq1 with ⟨q, hq, rfl⟩
    exact ⟨q, hq, himg q⟩
  have hmemg : ∀ q ∈ s.nodes, linkUpd parent child q ∈ linkNodes parent child s.nodes := by
    intro q hq
    rw [linkNodes]
    refine (mem_updateRec _ _ _ _).mpr
      ⟨if q.nid = child then { q with parent := some parent } else q,
       (mem_updateRec _ _ _ _).mpr ⟨q, hq, rfl⟩, (himg q).symm⟩
  have hfind : ∀ i, findRec (linkNodes parent child s.nodes) i
      = (findRec s.nodes i).map (linkUpd parent child) := by
    intro i
    rw [linkNodes, findRec_updateRec _ _ _ hg2, findRec_updateRec _ _ _ hg1]
    cases hf : findRec s.nodes i with
    | none => rfl
    | some q => exact congrArg some (himg q)
  have hmain : SimInv (some parent) ({ s with nodes := linkNodes parent child s.nodes } : Sim) := by
    refine ⟨?_, ?_, ?_, ?_, ?_, ?_, ?_, ?_, ?_⟩
    · -- timesOK
      intro r' hr' b hb
      show ∃ pt, parentTime s.node_times r' = some pt
        ∧ lookupQ s.node_times r'.nid = some (pt + b)
      rcases hmem2 r' hr' with ⟨q, hq, rfl⟩
      have hb2 : q.bl = some b := by
        rw [← linkUpd_bl parent child q]
        exact hb
      by_cases hqc : q.nid = child
      · have hqbl : q.bl = none := by rw [huniqC q hq hqc]
        rw [hqbl] at hb2
        exact Option.noConfusion hb2
      · rcases hI.timesOK q hq b hb2 with ⟨pt, hpt, hlk⟩
        refine ⟨pt, ?_, ?_⟩
        · have hpe : parentTime s.node_times (linkUpd parent child q)
              = parentTime s.node_times q := by
            rw [parentTime, parentTime, linkUpd_parent_of_ne parent child q hqc]
          rw [hpe]
          exact hpt
        · rw [linkUpd_nid]
          exact hlk
    · -- activeChildless (the parent is the excused node)
      intro r' hr' hbl' hex
      rcases hmem2 r' hr' with ⟨q, hq, rfl⟩
      have hqp : q.nid ≠ parent := by
        intro he
        rw [linkUpd_nid] at hex
        exact hex (by rw [he])
      rw [linkUpd_children_of_ne parent child q hqp]
      have hbl2 : q.bl = none := by
        rw [← linkUpd_bl parent child q]
        exact hbl'
      exact hI.activeChildless q hq hbl2 (fun he => Option.noConfusion he)
    · -- childLinks
      intro r' hr' c hc
      show ∃ rc ∈ linkNodes parent child s.nodes, rc.nid = c ∧ rc.parent = some r'.nid
      rcases hmem2 r' hr' with ⟨q, hq, rfl⟩
      by_cases hqp : q.nid = parent
      · have hcc : c ∈ q.children ++ [child] := by
          rw [← linkUpd_children_self parent child q hqp hne]
          exact hc
        rcases List.mem_append.mp hcc with hcold | hcnew
        · rcases hI.childLinks q hq c hcold with ⟨rc, hrcm, hrcn, hrcp⟩
          have hrcc : rc.nid ≠ child := by
            intro he
            have h1 : rc.parent = none := by rw [huniqC rc hrcm he]
            rw [h1] at hrcp
            exact Option.noConfusion hrcp
          refine ⟨linkUpd parent child rc, hmemg rc hrcm, ?_, ?_⟩
          · rw [linkUpd_nid]
            exact hrcn
          · rw [linkUpd_parent_of_ne parent child rc hrcc, linkUpd_nid]
            exact hrcp
        · have hcchild : c = child := List.mem_singleton.mp hcnew
          refine ⟨linkUpd parent child ⟨child, cst, none, none, []⟩, hmemg _ hCmem, ?_, ?_⟩
          · rw [linkUpd_nid]
            rw [hcchild]
          · rw [linkUpd_parent_self parent child _ rfl, linkUpd_nid, hqp]
      · have hcc : c ∈ q.children := by
          rw [← linkUpd_children_of_ne parent child q hqp]
          exact hc
        rcases hI.childLinks q hq c hcc with ⟨rc, hrcm, hrcn, hrcp⟩
        have hrcc : rc.nid ≠ child := by
          intro he
          have h1 : rc.parent = none := by rw [huniqC rc hrcm he]
          rw [h1] at hrcp
          exact Option.noConfusion hrcp
        refine ⟨linkUpd parent child rc, hmemg rc hrcm, ?_, ?_⟩
        · rw [linkUpd_nid]
          exact hrcn
        · rw [linkUpd_parent_of_ne parent child rc hrcc, linkUpd_nid]
          exact hrcp
    · -- sampledFixed
      intro p hp
      rcases hI.sampledFixed p hp with ⟨rr, hrr, hrrbl⟩
      refine ⟨linkUpd parent child rr, ?_, ?_⟩
      · show findRec (linkNodes parent child s.nodes) p.1 = some (linkUpd parent child rr)
        rw [hfind p.1, hrr]
        rfl
      · rw [linkUpd_bl]
        exact hrrbl
    · -- idsNodup
      show ((linkNodes parent child s.nodes).map NodeRec.nid).Nodup
      rw [linkNodes, map_nid_updateRec _ _ _ hg2, map_nid_updateRec _ _ _ hg1]
      exact hI.idsNodup
    · -- idsBound
      intro r' hr'
      show r'.nid ≤ s.next_node_id
      rcases hmem2 r' hr' with ⟨q, hq, rfl⟩
      rw [linkUpd_nid]
      exact hI.idsBound q hq
    · -- rootOK
      rcases hI.rootOK with ⟨rr, hrr, hpar⟩
      obtain ⟨hrrm, hrrn⟩ := findRec_mem_nid s.nodes 1 rr hrr
      have hrrc : rr.nid ≠ child := fun he => hc1 (he.symm.trans hrrn)
      refine ⟨linkUpd parent child rr, ?_, ?_⟩
      · show findRec (linkNodes parent child s.nodes) 1 = some (linkUpd parent child rr)
        rw [hfind 1, hrr]
        rfl
      · rw [linkUpd_parent_of_ne parent child rr hrrc]
        exact hpar
    · -- activeNoTime
      intro r' hr' hbl'
      show lookupQ s.node_times r'.nid = none
      rcases hmem2 r' hr' with ⟨q, hq, rfl⟩
      rw [linkUpd_nid]
      have hbl2 : q.bl = none := by
        rw [← linkUpd_bl parent child q]
        exact hbl'
      exact hI.activeNoTime q hq hbl2
    · -- timesKeys
      intro kv hkv
      rcases hI.timesKeys kv hkv with ⟨q, hq, hqn⟩
      refine ⟨linkUpd parent child q, hmemg q hq, ?_⟩
      rw [linkUpd_nid]
      exact hqn
  rw [Sim.add_child, hrc]
  refine ⟨{ s with nodes := linkNodes parent child s.nodes }, rfl, hmain, ?_, rfl, rfl, rfl, rfl, rfl⟩
  intro hbs
  refine ⟨hmain.timesOK, ?_, hmain.childLinks, hmain.sampledFixed, hmain.idsNodup,
    hmain.idsBound, hmain.rootOK, hmain.activeNoTime, hmain.timesKeys⟩
  intro r' hr' hbl' _
  by_cases hrp2 : r'.nid = parent
  · rcases hmem2 r' hr' with ⟨q, hq, rfl⟩
    rw [linkUpd_nid] at hrp2
    have hbl2 : q.bl = none := by
      rw [← linkUpd_bl parent child q]
      exact hbl'
    have hqrp : q = rp := huniqP q hq hrp2
    rw [hqrp] at hbl2
    rw [hbl2] at hbs
    exact Bool.noConfusion hbs
  · exact hmain.activeChildless r' hr' hbl' (fun he => hrp2 (Option.some.inj he).symm)

/-- The state `Model.fix` produces on success: the target's branch length
becomes `current_time - pt` and the fix time is recorded. -/
def fixedState (s : Sim) (t : ℕ) (pt : ℚ) : Sim :=
  { s with
    nodes := updateRec s.nodes t (fun q => { q with bl := some (s.current_time - pt) }),
    node_times := (t, s.current_time) :: s.node_times }

theorem fix_sampled_comm (s : Sim) (X : List (ℕ × String)) (t : ℕ) :
    ({ s with sampled_nodes := X } : Sim).fix t
      = (s.fix t).map (fun s1 => { s1 with sampled_nodes := X }) := by
  rw [Sim.fix, Sim.fix]
  cases hfr : findRec s.nodes t with
  | none => rfl
  | some r =>
    show (match r.bl with
        | some _ => (Except.error "Node has already been fixed" : Except String Sim)
        | none =>
          match r.parent with
          | none => .ok { fixedState s t 0 with sampled_nodes := X }
          | some p =>
            match lookupQ s.node_times p with
            | none => .error "KeyError"
            | some pt => .ok { fixedState s t pt with sampled_nodes := X })
      = Except.map (fun s1 => { s1 with sampled_nodes := X })
        (match r.bl with
          | some _ => Except.error "Node has already been fixed"
          | none =>
            match r.parent with
            | none => .ok (fixedState s t 0)
            | some p =>
              match lookupQ s.node_times p with
              | none => .error "KeyError"
              | some pt => .ok (fixedState s t pt))
    cases hbl : r.bl with
    | some b => rfl
    | none =>
      cases hpar : r.parent with
      | none => rfl
      | some p =>
        show (match lookupQ s.node_times p with
            | none => (Except.error "KeyError" : Except String Sim)
            | some pt => .ok { fixedState s t pt with sampled_nodes := X })
          = Except.map (fun s1 => { s1 with sampled_nodes := X })
            (match lookupQ s.node_times p with
              | none => Except.error "KeyError"
              | some pt => .ok (fixedState s t pt))
        cases hlk : lookupQ s.node_times p with
        | none => rfl
        | some pt => rfl

theorem stem_preserves (s : Sim) (target : ℕ) (st : String) (s' : Sim)
    (hI : SimInv (some target) s) (h : s.stem target st = .ok s') :
    SimInv none s' ∧ s'.current_time = s.current_time
      ∧ s'.sampled_nodes = s.sampled_nodes := by
  rw [Sim.stem] at h
  cases hfx : s.fix target with
  | error e =>
    rw [hfx] at h
    cases h
  | ok s1 =>
    rw [hfx] at h
    obtain ⟨hI1, hct, hnn, hsn, hmd, hfixed, hkeep⟩ := fix_preserves s target s1 hI hfx
    obtain ⟨rfix, hrfix, hrfixbl⟩ := hfixed
    have h2 : (s1.get_new_node st).1.add_child target (s1.next_node_id + 1) = .ok s' := h
    have hfresh : ∀ q ∈ s1.nodes, q.nid ≠ s1.next_node_id + 1 := by
      intro q hq he
      have := hI1.idsBound q hq
      omega
    have hrc2 : findRec (s1.get_new_node st).1.nodes (s1.next_node_id + 1)
        = some ⟨s1.next_node_id + 1, st, none, none, []⟩ := by
      show findRec (s1.nodes ++ [(⟨s1.next_node_id + 1, st, none, none, []⟩ : NodeRec)])
          (s1.next_node_id + 1) = some ⟨s1.next_node_id + 1, st, none, none, []⟩
      exact findRec_append_fresh s1.nodes _ hfresh
    have hrp2 : findRec (s1.get_new_node st).1.nodes target = some rfix := by
      show findRec (s1.nodes ++ [(⟨s1.next_node_id + 1, st, none, none, []⟩ : NodeRec)]) target
        = some rfix
      exact findRec_append_left s1.nodes _ target rfix hrfix
    obtain ⟨hrfm, hrfn⟩ := findRec_mem_nid s1.nodes target rfix hrfix
    have hne2 : target ≠ s1.next_node_id + 1 := by
      have hb := hI1.idsBound rfix hrfm
      rw [hrfn] at hb
      omega
    have hc12 : s1.next_node_id + 1 ≠ 1 := by
      obtain ⟨rr, hrr, hrrpar⟩ := hI1.rootOK
      obtain ⟨hrrm, hrrn⟩ := findRec_mem_nid s1.nodes 1 rr hrr
      have hb := hI1.idsBound rr hrrm
      rw [hrrn] at hb
      omega
    have hI2 : SimInv none (s1.get_new_node st).1 := get_new_preserves s1 none st hI1
    obtain ⟨s3, heq, hm3, hupg, hct3, hnn3, hsn3, hnt3, hmd3⟩ :=
      add_child_preserves (s1.get_new_node st).1 target (s1.next_node_id + 1) st rfix
        hI2 hrc2 hrp2 hne2 hc12
    rw [heq] at h2
    have hs : s3 = s' := Except.ok.inj h2
    subst hs
    refine ⟨hupg hrfixbl, ?_, ?_⟩
    · rw [hct3]
      show s1.current_time = s.current_time
      exact hct
    · rw [hsn3]
      show s1.sampled_nodes = s.sampled_nodes
      exact hsn

theorem birth_preserves (s : Sim) (target : ℕ) (st : String) (s' : Sim) (nid : ℕ)
    (hI : SimInv none s) (h : s.birth_from target st = .ok (s', nid)) :
    SimInv none s' ∧ s'.current_time = s.current_time := by
  rw [Sim.birth_from] at h
  cases hso : s.stateOf target with
  | error e =>
    rw [hso] at h
    cases h
  | ok pstate =>
    rw [hso] at h
    rw [Sim.stateOf] at hso
    cases hfr : findRec s.nodes target with
    | none =>
      rw [hfr] at hso
      cases hso
    | some rt =>
      rw [hfr] at hso
      obtain ⟨hrtm, hrtn⟩ := findRec_mem_nid s.nodes target rt hfr
      have h2 : (match (s.get_new_node st).1.add_child target (s.next_node_id + 1) with
          | .error e => (.error e : Except String (Sim × ℕ))
          | .ok s2 =>
            match s2.stem target pstate with
            | .error e => .error e
            | .ok s3 => .ok (s3, s.next_node_id + 1)) = .ok (s', nid) := h
      have hfresh : ∀ q ∈ s.nodes, q.nid ≠ s.next_node_id + 1 := by
        intro q hq he
        have := hI.idsBound q hq
        omega
      have hrc2 : findRec (s.get_new_node st).1.nodes (s.next_node_id + 1)
          = some ⟨s.next_node_id + 1, st, none, none, []⟩ := by
        show findRec (s.nodes ++ [(⟨s.next_node_id + 1, st, none, none, []⟩ : NodeRec)])
            (s.next_node_id + 1) = some ⟨s.next_node_id + 1, st, none, none, []⟩
        exact findRec_append_fresh s.nodes _ hfresh
      have hrp2 : findRec (s.get_new_node st).1.nodes target = some rt := by
        show findRec (s.nodes ++ [(⟨s.next_node_id + 1, st, none, none, []⟩ : NodeRec)]) target
          = some rt
        exact findRec_append_left s.nodes _ target rt hfr
      have hne2 : target ≠ s.next_node_id + 1 := by
        have hb := hI.idsBound rt hrtm
        rw [hrtn] at hb
        omega
      have hc12 : s.next_node_id + 1 ≠ 1 := by
        obtain ⟨rr, hrr, hrrpar⟩ := hI.rootOK
        obtain ⟨hrrm, hrrn⟩ := findRec_mem_nid s.nodes 1 rr hrr
        have hb := hI.idsBound rr hrrm
        rw [hrrn] at hb
        omega
      have hI2 : SimInv none (s.get_new_node st).1 := get_new_preserves s none st hI
      obtain ⟨s2, heq, hm2, hupg2, hct2, hnn2, hsn2, hnt2, hmd2⟩ :=
        add_child_preserves (s.get_new_node st).1 target (s.next_node_id + 1) st rt
          hI2 hrc2 hrp2 hne2 hc12
      rw [heq] at h2
      have h3 : (match s2.stem target pstate with
          | .error e => (.error e : Except String (Sim × ℕ))
          | .ok s3 => .ok (s3, s.next_node_id + 1)) = .ok (s', nid) := h2
      cases hst : s2.stem target pstate with
      | error e =>
        rw [hst] at h3
        have h4 : (Except.error e : Except String (Sim × ℕ)) = .ok (s', nid) := h3
        cases h4
      | ok s3 =>
        rw [hst] at h3
        have h4 : (Except.ok (s3, s.next_node_id + 1) : Except String (Sim × ℕ))
            = .ok (s', nid) := h3
        have h5 := Except.ok.inj h4
        have hs3 : s3 = s' := congrArg Prod.fst h5
        obtain ⟨hI3, hct3, hsn3⟩ := stem_preserves s2 target pstate s3 hm2 hst
        subst hs3
        refine ⟨hI3, ?_⟩
        rw [hct3, hct2]
        rfl

theorem sample_preserves (s : Sim) (target : ℕ) (rm : Bool) (s' : Sim)
    (hI : SimInv none s) (h : s.sample target rm = .ok s') :
    SimInv none s' ∧ s'.current_time = s.current_time := by
  rw [Sim.sample] at h
  cases rm with
  | true =>
    have h2 : (match s.stateOf target with
        | .error e => (.error e : Except String Sim)
        | .ok st =>
          ({ s with sampled_nodes := (target, st) :: s.sampled_nodes } : Sim).fix target)
        = .ok s' := h
    cases hso : s.stateOf target with
    | error e =>
      rw [hso] at h2
      cases h2
    | ok st =>
      rw [hso] at h2
      have h3 : ({ s with sampled_nodes := (target, st) :: s.sampled_nodes } : Sim).fix target
          = .ok s' := h2
      rw [fix_sampled_comm] at h3
      cases hfx : s.fix target with
      | error e =>
        rw [hfx] at h3
        have h4 : (Except.error e : Except String Sim) = .ok s' := h3
        cases h4
      | ok s1 =>
        rw [hfx] at h3
        have h4 : (Except.ok ({ s1 with sampled_nodes := (target, st) :: s.sampled_nodes } : Sim)
            : Except String Sim) = .ok s' := h3
        have hs : ({ s1 with sampled_nodes := (target, st) :: s.sampled_nodes } : Sim) = s' :=
          Except.ok.inj h4
        obtain ⟨hI1, hct, hnn, hsn, hmd, hfixed, hkeep⟩ :=
          fix_preserves s target s1 (inv_weaken s (some target) hI) hfx
        obtain ⟨rfx, hrfx, hrfxbl⟩ := hfixed
        subst hs
        refine ⟨?_, ?_⟩
        · refine ⟨hI1.timesOK, hI1.activeChildless, hI1.childLinks, ?_, hI1.idsNodup,
            hI1.idsBound, hI1.rootOK, hI1.activeNoTime, hI1.timesKeys⟩
          intro p hp
          have hp2 : p ∈ (target, st) :: s.sampled_nodes := hp
          rcases List.mem_cons.mp hp2 with rfl | hp3
          · exact ⟨rfx, hrfx, hrfxbl⟩
          · refine hI1.sampledFixed p ?_
            rw [hsn]
            exact hp3
        · show s1.current_time = s.current_time
          exact hct
  | false =>
    have h2 : (match s.stateOf target with
        | .error e => (.error e : Except String Sim)
        | .ok st =>
          match s.birth_from target st with
          | .error e => .error e
          | .ok (s1, nid) =>
            ({ s1 with sampled_nodes := (nid, st) :: s1.sampled_nodes } : Sim).fix nid)
        = .ok s' := h
    cases hso : s.stateOf target with
    | error e =>
      rw [hso] at h2
      cases h2
    | ok st =>
      rw [hso] at h2
      have h3 : (match s.birth_from target st with
          | .error e => (.error e : Except String Sim)
          | .ok (s1, nid) =>
            ({ s1 with sampled_nodes := (nid, st) :: s1.sampled_nodes } : Sim).fix nid)
          = .ok s' := h2
      cases hbf : s.birth_from target st with
      | error e =>
        rw [hbf] at h3
        have h4 : (Except.error e : Except String Sim) = .ok s' := h3
        cases h4
      | ok p =>
        rw [hbf] at h3
        obtain ⟨s1, nid⟩ := p
        have h4 : ({ s1 with sampled_nodes := (nid, st) :: s1.sampled_nodes } : Sim).fix nid
            = .ok s' := h3
        rw [fix_sampled_comm] at h4
        obtain ⟨hI1, hct1⟩ := birth_preserves s target st s1 nid hI hbf
        cases hfx : s1.fix nid with
        | error e =>
          rw [hfx] at h4
          have h5 : (Except.error e : Except String Sim) = .ok s' := h4
          cases h5
        | ok s2 =>
          rw [hfx] at h4
          have h5 : (Except.ok ({ s2 with sampled_nodes := (nid, st) :: s1.sampled_nodes } : Sim)
              : Except String Sim) = .ok s' := h4
          have hs : ({ s2 with sampled_nodes := (nid, st) :: s1.sampled_nodes } : Sim) = s' :=
            Except.ok.inj h5
          obtain ⟨hI2, hct2, hnn2, hsn2, hmd2, hfixed2, hkeep2⟩ :=
            fix_preserves s1 nid s2 (inv_weaken s1 (some nid) hI1) hfx
          obtain ⟨rfx, hrfx, hrfxbl⟩ := hfixed2
          subst hs
          refine ⟨?_, ?_⟩
          · refine ⟨hI2.timesOK, hI2.activeChildless, hI2.childLinks, ?_, hI2.idsNodup,
              hI2.idsBound, hI2.rootOK, hI2.activeNoTime, hI2.timesKeys⟩
            intro p2 hp
            have hp2 : p2 ∈ (nid, st) :: s1.sampled_nodes := hp
            rcases List.mem_cons.mp hp2 with rfl | hp3
            · exact ⟨rfx, hrfx, hrfxbl⟩
            · refine hI2.sampledFixed p2 ?_
              rw [hsn2]
              exact hp3
          · show s2.current_time = s.current_time
            rw [hct2]
            exact hct1

theorem reset_inv (st : String) (md : List (String × ℤ)) : SimInv none (Sim.reset st md) := by
  refine ⟨?_, ?_, ?_, ?_, ?_, ?_, ?_, ?_, ?_⟩
  · intro r hr b hb
    have hr2 : r ∈ [(⟨1, st, none, none, []⟩ : NodeRec)] := hr
    have he := List.mem_singleton.mp hr2
    subst he
    exact Option.noConfusion hb
  · intro r hr hbl hex
    have hr2 : r ∈ [(⟨1, st, none, none, []⟩ : NodeRec)] := hr
    have he := List.mem_singleton.mp hr2
    subst he
    rfl
  · intro r hr c hc
    have hr2 : r ∈ [(⟨1, st, none, none, []⟩ : NodeRec)] := hr
    have he := List.mem_singleton.mp hr2
    subst he
    have hc2 : c ∈ ([] : List ℕ) := hc
    cases hc2
  · intro p hp
    have hp2 : p ∈ ([] : List (ℕ × String)) := hp
    cases hp2
  · show ([(⟨1, st, none, none, []⟩ : NodeRec)].map NodeRec.nid).Nodup
    exact List.nodup_singleton 1
  · intro r hr
    have hr2 : r ∈ [(⟨1, st, none, none, []⟩ : NodeRec)] := hr
    have he := List.mem_singleton.mp hr2
    subst he
    exact le_refl 1
  · exact ⟨⟨1, st, none, none, []⟩, rfl, rfl⟩
  · intro r hr hbl
    rfl
  · intro kv hkv
    have hkv2 : kv ∈ ([] : List (ℕ × ℚ)) := hkv
    cases hkv2

/-- Every reachable state satisfies the full run invariant. -/
theorem reachable_inv (s : Sim) (h : Reachable s) : SimInv none s := by
  induction h with
  | reset st md => exact reset_inv st md
  | step s0 op s1 hr happ ih =>
    cases op with
    | setTime t =>
      have hs : Sim.setTime s0 t = s1 := Except.ok.inj happ
      subst hs
      exact ⟨ih.timesOK, ih.activeChildless, ih.childLinks, ih.sampledFixed, ih.idsNodup,
        ih.idsBound, ih.rootOK, ih.activeNoTime, ih.timesKeys⟩
    | setMeta k v =>
      have hs : Sim.setMeta s0 k v = s1 := Except.ok.inj happ
      subst hs
      exact ⟨ih.timesOK, ih.activeChildless, ih.childLinks, ih.sampledFixed, ih.idsNodup,
        ih.idsBound, ih.rootOK, ih.activeNoTime, ih.timesKeys⟩
    | remove t =>
      have happ2 : s0.fix t = .ok s1 := happ
      exact (fix_preserves s0 t s1 (inv_weaken s0 (some t) ih) happ2).1
    | stem t st =>
      have happ2 : s0.stem t st = .ok s1 := happ
      exact (stem_preserves s0 t st s1 (inv_weaken s0 (some t) ih) happ2).1
    | birth t st =>
      have happ2 : (s0.birth_from t st).map Prod.fst = .ok s1 := happ
      cases hbf : s0.birth_from t st with
      | error e =>
        rw [hbf] at happ2
        have h4 : (Except.error e : Except String Sim) = .ok s1 := happ2
        cases h4
      | ok p =>
        rw [hbf] at happ2
        have h4 : (Except.ok p.1 : Except String Sim) = .ok s1 := happ2
        have hs : p.1 = s1 := Except.ok.inj h4
        obtain ⟨sb, nid⟩ := p
        have hs2 : sb = s1 := hs
        subst hs2
        exact (birth_preserves s0 t st sb nid ih hbf).1
    | sample t rm =>
      have happ2 : s0.sample t rm = .ok s1 := happ
      exact (sample_preserves s0 t rm s1 ih happ2).1

theorem leafRecs_names (n : ℕ) :
    ∀ t : STree, t.tsize ≤ n → ∀ acc rec, rec ∈ t.leafRecs acc →
      (rec.rid, rec.rstate) ∈ t.leafNames := by
  induction n with
  | zero =>
    intro t ht
    have := tsize_pos t
    omega
  | succ n ih =>
    intro t ht acc rec hrec
    obtain ⟨i, st, bl, cs⟩ := t
    cases cs with
    | nil =>
      rw [STree.leafRecs] at hrec
      have he := List.mem_singleton.mp hrec
      subst he
      rw [STree.leafNames]
      exact List.mem_singleton.mpr rfl
    | cons c cts =>
      rw [STree.leafRecs] at hrec
      rw [STree.leafNames]
      rcases (mem_leafRecsForest rec _ _).mp hrec with ⟨tc, htc, hrectc⟩
      rw [mem_leafNamesForest]
      refine ⟨tc, htc, ?_⟩
      have htcsize : tc.tsize ≤ n := by
        have h1 := tsize_le_forest tc _ htc
        rw [STree.tsize] at ht
        omega
      exact ih tc htcsize _ rec hrectc

/-- C5: for every reachable simulation state, in the pruned tree returned by
`get_tree` every leaf's accumulated branch-length sum from the root (the
root's branch length included, a missing length counting 0) equals the
recorded simulation time at which that leaf node was fixed, and the leaf is
one of the sampled nodes; the sums survive unary-node contraction because
the contraction adds the removed node's branch length to its child's. -/
theorem get_tree_leaf_times (s : Sim) (r : STree)
    (hreach : Reachable s) (h : s.get_tree = .ok (some r)) :
    ∀ rec ∈ r.leafRecs 0,
      lookupQ s.node_times rec.rid = some rec.rsum
      ∧ (rec.rid, rec.rstate) ∈ s.sampled_nodes := by
  have hI : SimInv none s := reachable_inv s hreach
  rw [Sim.get_tree] at h
  cases htt : toTree s.nodes (s.nodes.length + 1) 1 with
  | none =>
    rw [htt] at h
    cases h
  | some t =>
    rw [htt] at h
    have h2 : (match pruneTree s.sampled_nodes t with
        | .error e => (Except.error e : Except String (Option STree))
        | .ok none => .ok none
        | .ok (some (r', _)) => .ok (some r')) = .ok (some r) := h
    cases hp : pruneTree s.sampled_nodes t with
    | error e =>
      rw [hp] at h2
      have h3 : (Except.error e : Except String (Option STree)) = .ok (some r) := h2
      cases h3
    | ok o =>
      rw [hp] at h2
      cases o with
      | none =>
        have h3 : (Except.ok (none : Option STree) : Except String (Option STree))
            = .ok (some r) := h2
        simp at h3
      | some p =>
        have h3 : (Except.ok (some p.1) : Except String (Option STree)) = .ok (some r) := h2
        have h4 : p.1 = r := by
          injection h3 with h5
          injection h5
        have hpt0 : ∀ ri, findRec s.nodes 1 = some ri → parentTime s.node_times ri = some 0 := by
          intro ri hri
          obtain ⟨rr0, hrr0, hpar0⟩ := hI.rootOK
          rw [hrr0] at hri
          have he := Option.some.inj hri
          subst he
          rw [parentTime, hpar0]
        intro rec hrec
        have hrec' : rec ∈ p.1.leafRecs 0 := by
          rw [h4]
          exact hrec
        have hpruned : prunedOK s.sampled_nodes p.1 :=
          pruneTree_sound_aux t.tsize t le_rfl s.sampled_nodes p.1 p.2 hp
        have hname : (rec.rid, rec.rstate) ∈ s.sampled_nodes := by
          refine hpruned.1 _ ?_
          exact leafRecs_names p.1.tsize p.1 le_rfl 0 rec hrec'
        obtain ⟨b0, hb0⟩ :=
          prune_leafRecs_aux t.tsize t le_rfl s.sampled_nodes p.1 p.2 0 hp rec hrec'
        have hB : ∀ q ∈ s.nodes, q.bl = none → q.children = [] := by
          intro q hq hbl
          exact hI.activeChildless q hq hbl (fun he => Option.noConfusion he)
        obtain ⟨⟨rr, hfr, hbl⟩, himp⟩ := toTree_nodeRecs s.nodes s.node_times hI.timesOK hB
          hI.childLinks hI.idsNodup (s.nodes.length + 1) 1 t 0 htt hpt0
          ⟨rec.rid, rec.rstate, b0, rec.rsum⟩ hb0
        have hbs : b0.isSome = true := by
          obtain ⟨rr2, hrr2, hrr2bl⟩ := hI.sampledFixed (rec.rid, rec.rstate) hname
          have hrr2' : findRec s.nodes rec.rid = some rr2 := hrr2
          have hfr' : findRec s.nodes rec.rid = some rr := hfr
          rw [hfr'] at hrr2'
          have he := Option.some.inj hrr2'
          subst he
          have hbl' : rr.bl = b0 := hbl
          rw [← hbl']
          exact hrr2bl
        exact ⟨himp hbs, hname⟩

/-- Witness for C5 on a concrete run: reset into state `"I"`, advance the
clock to `1`, then sample the root with removal; the single leaf's sum
`0 + (1 - 0)` is its recorded fix time. -/
theorem get_tree_leaf_times_witness :
    lookupQ [((1 : ℕ), (1 : ℚ))] 1 = some ((0 : ℚ) + (some ((1 : ℚ) - 0)).getD 0)
    ∧ ((1 : ℕ), "I") ∈ [((1 : ℕ), "I")] :=
  get_tree_leaf_times
    { current_time := 1, next_node_id := 1,
      nodes := [⟨1, "I", some (1 - 0), none, []⟩],
      sampled_nodes := [(1, "I")], node_times := [(1, 1)], metadata := [] }
    (STree.node 1 "I" (some (1 - 0)) [])
    (Reachable.step
      { current_time := 1, next_node_id := 1, nodes := [⟨1, "I", none, none, []⟩],
        sampled_nodes := [], node_times := [], metadata := [] }
      (SimOp.sample 1 true)
      { current_time := 1, next_node_id := 1,
        nodes := [⟨1, "I", some (1 - 0), none, []⟩],
        sampled_nodes := [(1, "I")], node_times := [(1, 1)], metadata := [] }
      (Reachable.step (Sim.reset "I" []) (SimOp.setTime 1)
        { current_time := 1, next_node_id := 1, nodes := [⟨1, "I", none, none, []⟩],
          sampled_nodes := [], node_times := [], metadata := [] }
        (Reachable.reset "I" []) rfl)
      rfl)
    rfl
    ⟨1, "I", some (1 - 0), (0 : ℚ) + (some ((1 : ℚ) - 0)).getD 0⟩
    (List.mem_singleton.mpr rfl)

/-! ### Monotonicity of `current_time` across `Model.step` (C7)

`Model.step` (lines 148-195 of `treesimulator/core.py`) computes the next
rate change time, the next stochastic event time
(`current_time + rng.expovariate(total_propensity)` unless the total
propensity is falsy) and the next timed event time, sets `current_time` to
the minimum of the non-`None` candidates together with `max_time`, and then
runs the selected timed/stochastic events.  The embedding below passes the
random draws in as oracles: `udraw / total_propensity` stands for
`rng.expovariate(total_propensity)` (for a fixed uniform draw the
exponential variate is a positive numerator divided by the rate, so its
sign flips with the sign of the propensity, exactly as in CPython), and
`sel` stands for the `searchsorted` index that picks the firing event.
Events are `StochasticEvent`/`TimedEvent` subclasses: a propensity function
of the model and an `apply` that performs a sequence of the model's public
mutations (the catalogue's `Death`, `Migration`, `Sampling`, transmission
events are all of this shape). -/

/-- The public mutations an event's `apply` performs on the model (the
catalogue calls `remove`, `migrate`/`stem`, `sample`, `birth_from` and
metadata assignments; none of them assigns `_current_time`). -/
inductive EventOp where
  | setMeta (k : String) (v : ℤ)
  | remove (target : ℕ)
  | stem (target : ℕ) (state : String)
  | birth (target : ℕ) (state : String)
  | sample (target : ℕ) (removal : Bool)

def applyEventOp (s : Sim) : EventOp → Except String Sim
  | .setMeta k v => .ok (s.setMeta k v)
  | .remove t => s.remove t
  | .stem t st => s.stem t st
  | .birth t st => (s.birth_from t st).map Prod.fst
  | .sample t rm => s.sample t rm

def applyEventOps : Sim → List EventOp → Except String Sim
  | s, [] => .ok s
  | s, op :: ops =>
    match applyEventOp s op with
    | .error e => .error e
    | .ok s1 => applyEventOps s1 ops

/-- A registered run stochastic event: a skyline rate, an abstract
`get_propensity` and an `apply` given by public mutations. -/
structure RunStochEv where
  rate : SkylineParameter
  propensity : Sim → ℚ
  fire : Sim → List EventOp

/-- A registered run timed event: firing times and an `apply`. -/
structure RunTimedEv where
  times : List ℚ
  fire : Sim → List EventOp

def runTimedList : Sim → List RunTimedEv → Except String Sim
  | s, [] => .ok s
  | s, e :: es =>
    match applyEventOps s (e.fire s) with
    | .error er => .error er
    | .ok s1 => runTimedList s1 es

/-- Python's `min(list)` as an `Option` (`None` for the empty list). -/
def minOfList : List ℚ → Option ℚ
  | [] => none
  | x :: xs =>
    match minOfList xs with
    | none => some x
    | some m => some (min x m)

/-- Minimum over optional candidates (`None` entries are skipped). -/
def omin : Option ℚ → Option ℚ → Option ℚ
  | none, b => b
  | some a, none => some a
  | some a, some b => some (min a b)

/-- `min(t for e in events for t in e.rate.change_times if t > current_time)`. -/
def rateChangeTime (sevs : List RunStochEv) (s : Sim) : Option ℚ :=
  minOfList ((sevs.map
    (fun e => e.rate.change_times.filter (fun t => decide (s.current_time < t)))).flatten)

/-- `min(t for e in timed_events for t in e.times if t > current_time)`. -/
def timedEventsTime (tevs : List RunTimedEv) (s : Sim) : Option ℚ :=
  minOfList ((tevs.map
    (fun e => e.times.filter (fun t => decide (s.current_time < t)))).flatten)

def totalPropensity (sevs : List RunStochEv) (s : Sim) : ℚ :=
  (sevs.map (fun e => e.propensity s)).sum

/-- `None if not total_propensity else current_time + expovariate(total)`. -/
def stochasticEventTime (sevs : List RunStochEv) (s : Sim) (udraw : ℚ) : Option ℚ :=
  if totalPropensity sevs s = 0 then none
  else some (s.current_time + udraw / totalPropensity sevs s)

/-- The part of `Model.step` after the new `current_time` is computed:
assign it, run the timed events whose times were hit, run the selected
stochastic event when the stochastic candidate was hit, and report whether
the horizon was reached. -/
def stepEvents (sevs : List RunStochEv) (tevs : List RunTimedEv) (max_time : Option ℚ)
    (udraw : ℚ) (sel : ℕ) (s : Sim) (new_time : ℚ) : Except String (Sim × Bool) :=
  match (if timedEventsTime tevs s = some new_time then
      runTimedList ({ s with current_time := new_time } : Sim)
        (tevs.filter (fun e => decide (new_time ∈ e.times)))
    else .ok ({ s with current_time := new_time } : Sim)) with
  | .error e => .error e
  | .ok s2 =>
    match (if stochasticEventTime sevs s udraw = some new_time then
        (match sevs[sel]? with
          | none => (Except.error "IndexError" : Except String Sim)
          | some e => applyEventOps s2 (e.fire s2))
      else .ok s2) with
    | .error e => .error e
    | .ok s3 =>
      if max_time = some new_time then .ok (s3, false) else .ok (s3, true)

/-- Embeds `Model.step`: candidate times, `False` when all are `None`,
otherwise the time update `current_time = min(*candidates, max_time)`
followed by the event applications. -/
def modelStep (sevs : List RunStochEv) (tevs : List RunTimedEv) (max_time : Option ℚ)
    (udraw : ℚ) (sel : ℕ) (s : Sim) : Except String (Sim × Bool) :=
  match omin (omin (rateChangeTime sevs s) (timedEventsTime tevs s))
      (stochasticEventTime sevs s udraw) with
  | none => .ok (s, false)
  | some tmin =>
    stepEvents sevs tevs max_time udraw sel s
      (match max_time with | none => tmin | some mt => min tmin mt)

/-! Structural time-preservation of the model's mutations (no invariant
needed: none of them writes `_current_time`). -/

theorem fix_shape (s : Sim) (t : ℕ) (s' : Sim) (h : s.fix t = .ok s') :
    ∃ pt, s' = fixedState s t pt := by
  rw [Sim.fix] at h
  cases hfr : findRec s.nodes t with
  | none =>
    rw [hfr] at h
    cases h
  | some r =>
    rw [hfr] at h
    have h1 : (match r.bl with
        | some _ => (Except.error "Node has already been fixed" : Except String Sim)
        | none =>
          match r.parent with
          | none => .ok (fixedState s t 0)
          | some p =>
            match lookupQ s.node_times p with
            | none => .error "KeyError"
            | some pt => .ok (fixedState s t pt)) = .ok s' := h
    cases hbl : r.bl with
    | some b =>
      rw [hbl] at h1
      cases h1
    | none =>
      rw [hbl] at h1
      have h2 : (match r.parent with
          | none => (Except.ok (fixedState s t 0) : Except String Sim)
          | some p =>
            match lookupQ s.node_times p with
            | none => .error "KeyError"
            | some pt => .ok (fixedState s t pt)) = .ok s' := h1
      cases hpar : r.parent with
      | none =>
        rw [hpar] at h2
        exact ⟨0, (Except.ok.inj h2).symm⟩
      | some p =>
        rw [hpar] at h2
        have h3 : (match lookupQ s.node_times p with
            | none => (Except.error "KeyError" : Except String Sim)
            | some pt => .ok (fixedState s t pt)) = .ok s' := h2
        cases hlk : lookupQ s.node_times p with
        | none =>
          rw [hlk] at h3
          cases h3
        | some pt =>
          rw [hlk] at h3
          exact ⟨pt, (Except.ok.inj h3).symm⟩

theorem fix_time (s : Sim) (t : ℕ) (s' : Sim) (h : s.fix t = .ok s') :
    s'.current_time = s.current_time := by
  obtain ⟨pt, rfl⟩ := fix_shape s t s' h
  rfl

theorem add_child_time (s : Sim) (a b : ℕ) (s' : Sim) (h : s.add_child a b = .ok s') :
    s'.current_time = s.current_time := by
  rw [Sim.add_child] at h
  cases hfr : findRec s.nodes b with
  | none =>
    rw [hfr] at h
    cases h
  | some rc =>
    rw [hfr] at h
    have h1 : (match rc.parent with
        | some _ => (Except.error "already has a parent" : Except String Sim)
        | none => .ok { s with nodes := linkNodes a b s.nodes }) = .ok s' := h
    cases hpar : rc.parent with
    | some p =>
      rw [hpar] at h1
      cases h1
    | none =>
      rw [hpar] at h1
      have h2 : ({ s with nodes := linkNodes a b s.nodes } : Sim) = s' := Except.ok.inj h1
      rw [← h2]

theorem stem_time (s : Sim) (t : ℕ) (st : String) (s' : Sim) (h : s.stem t st = .ok s') :
    s'.current_time = s.current_time := by
  rw [Sim.stem] at h
  cases hfx : s.fix t with
  | error e =>
    rw [hfx] at h
    cases h
  | ok s1 =>
    rw [hfx] at h
    have h2 : (s1.get_new_node st).1.add_child t (s1.next_node_id + 1) = .ok s' := h
    have h3 := add_child_time _ _ _ _ h2
    rw [h3]
    show s1.current_time = s.current_time
    exact fix_time s t s1 hfx

theorem birth_time (s : Sim) (t : ℕ) (st : String) (s' : Sim) (nid : ℕ)
    (h : s.birth_from t st = .ok (s', nid)) : s'.current_time = s.current_time := by
  rw [Sim.birth_from] at h
  cases hso : s.stateOf t with
  | error e =>
    rw [hso] at h
    cases h
  | ok pstate =>
    rw [hso] at h
    have h2 : (match (s.get_new_node st).1.add_child t (s.next_node_id + 1) with
        | .error e => (.error e : Except String (Sim × ℕ))
        | .ok s2 =>
          match s2.stem t pstate with
          | .error e => .error e
          | .ok s3 => .ok (s3, s.next_node_id + 1)) = .ok (s', nid) := h
    cases hac : (s.get_new_node st).1.add_child t (s.next_node_id + 1) with
    | error e =>
      rw [hac] at h2
      have h3 : (Except.error e : Except String (Sim × ℕ)) = .ok (s', nid) := h2
      cases h3
    | ok s2 =>
      rw [hac] at h2
      have h3 : (match s2.stem t pstate with
          | .error e => (.error e : Except String (Sim × ℕ))
          | .ok s3 => .ok (s3, s.next_node_id + 1)) = .ok (s', nid) := h2
      cases hst : s2.stem t pstate with
      | error e =>
        rw [hst] at h3
        have h4 : (Except.error e : Except String (Sim × ℕ)) = .ok (s', nid) := h3
        cases h4
      | ok s3 =>
        rw [hst] at h3
        have h4 : (Except.ok (s3, s.next_node_id + 1) : Except String (Sim × ℕ))
            = .ok (s', nid) := h3
        have h5 : s3 = s' := congrArg Prod.fst (Except.ok.inj h4)
        rw [← h5]
        have hst2 := stem_time s2 t pstate s3 hst
        rw [hst2]
        have hac2 := add_child_time _ _ _ _ hac
        rw [hac2]
        rfl

theorem sample_time (s : Sim) (t : ℕ) (rm : Bool) (s' : Sim) (h : s.sample t rm = .ok s') :
    s'.current_time = s.current_time := by
  rw [Sim.sample] at h
  cases rm with
  | true =>
    have h2 : (match s.stateOf t with
        | .error e => (.error e : Except String Sim)
        | .ok st => ({ s with sampled_nodes := (t, st) :: s.sampled_nodes } : Sim).fix t)
        = .ok s' := h
    cases hso : s.stateOf t with
    | error e =>
      rw [hso] at h2
      cases h2
    | ok st =>
      rw [hso] at h2
      have h3 : ({ s with sampled_nodes := (t, st) :: s.sampled_nodes } : Sim).fix t
          = .ok s' := h2
      have h4 := fix_time _ t s' h3
      rw [h4]
  | false =>
    have h2 : (match s.stateOf t with
        | .error e => (.error e : Except String Sim)
        | .ok st =>
          match s.birth_from t st with
          | .error e => .error e
          | .ok (s1, nid) =>
            ({ s1 with sampled_nodes := (nid, st) :: s1.sampled_nodes } : Sim).fix nid)
        = .ok s' := h
    cases hso : s.stateOf t with
    | error e =>
      rw [hso] at h2
      cases h2
    | ok st =>
      rw [hso] at h2
      have h3 : (match s.birth_from t st with
          | .error e => (.error e : Except String Sim)
          | .ok (s1, nid) =>
            ({ s1 with sampled_nodes := (nid, st) :: s1.sampled_nodes } : Sim).fix nid)
          = .ok s' := h2
      cases hbf : s.birth_from t st with
      | error e =>
        rw [hbf] at h3
        have h4 : (Except.error e : Except String Sim) = .ok s' := h3
        cases h4
      | ok p =>
        rw [hbf] at h3
        obtain ⟨s1, nid⟩ := p
        have h4 : ({ s1 with sampled_nodes := (nid, st) :: s1.sampled_nodes } : Sim).fix nid
            = .ok s' := h3
        have h5 := fix_time _ nid s' h4
        rw [h5]
        show s1.current_time = s.current_time
        exact birth_time s t st s1 nid hbf

theorem applyEventOp_time (s : Sim) (op : EventOp) (s' : Sim)
    (h : applyEventOp s op = .ok s') : s'.current_time = s.current_time := by
  cases op with
  | setMeta k v =>
    have h2 : s.setMeta k v = s' := Except.ok.inj h
    rw [← h2]
    rfl
  | remove t => exact fix_time s t s' h
  | stem t st => exact stem_time s t st s' h
  | birth t st =>
    have h2 : (s.birth_from t st).map Prod.fst = .ok s' := h
    cases hbf : s.birth_from t st with
    | error e =>
      rw [hbf] at h2
      have h3 : (Except.error e : Except String Sim) = .ok s' := h2
      cases h3
    | ok p =>
      rw [hbf] at h2
      have h3 : (Except.ok p.1 : Except String Sim) = .ok s' := h2
      have h4 := Except.ok.inj h3
      obtain ⟨sb, nid⟩ := p
      have h5 : sb = s' := h4
      rw [← h5]
      exact birth_time s t st sb nid hbf
  | sample t rm => exact sample_time s t rm s' h

theorem applyEventOps_time (ops : List EventOp) :
    ∀ s s', applyEventOps s ops = .ok s' → s'.current_time = s.current_time := by
  induction ops with
  | nil =>
    intro s s' h
    have h2 : s = s' := Except.ok.inj h
    rw [h2]
  | cons op ops ih =>
    intro s s' h
    rw [applyEventOps] at h
    cases h1 : applyEventOp s op with
    | error e =>
      rw [h1] at h
      cases h
    | ok s1 =>
      rw [h1] at h
      have h2 : applyEventOps s1 ops = .ok s' := h
      rw [ih s1 s' h2]
      exact applyEventOp_time s op s1 h1

theorem runTimedList_time (tevs : List RunTimedEv) :
    ∀ s s', runTimedList s tevs = .ok s' → s'.current_time = s.current_time := by
  induction tevs with
  | nil =>
    intro s s' h
    have h2 : s = s' := Except.ok.inj h
    rw [h2]
  | cons e es ih =>
    intro s s' h
    rw [runTimedList] at h
    cases h1 : applyEventOps s (e.fire s) with
    | error er =>
      rw [h1] at h
      cases h
    | ok s1 =>
      rw [h1] at h
      have h2 : runTimedList s1 es = .ok s' := h
      rw [ih s1 s' h2]
      exact applyEventOps_time (e.fire s) s s1 h1

theorem stepEvents_time (sevs : List RunStochEv) (tevs : List RunTimedEv)
    (max_time : Option ℚ) (udraw : ℚ) (sel : ℕ) (s : Sim) (nt : ℚ) (s' : Sim) (b : Bool)
    (h : stepEvents sevs tevs max_time udraw sel s nt = .ok (s', b)) :
    s'.current_time = nt := by
  rw [stepEvents] at h
  cases hT : (if timedEventsTime tevs s = some nt then
      runTimedList ({ s with current_time := nt } : Sim)
        (tevs.filter (fun e => decide (nt ∈ e.times)))
    else .ok ({ s with current_time := nt } : Sim)) with
  | error e =>
    rw [hT] at h
    cases h
  | ok s2 =>
    rw [hT] at h
    have hs2 : s2.current_time = nt := by
      by_cases hc : timedEventsTime tevs s = some nt
      · rw [if_pos hc] at hT
        have h2 := runTimedList_time _ _ _ hT
        exact h2
      · rw [if_neg hc] at hT
        have h2 : ({ s with current_time := nt } : Sim) = s2 := Except.ok.inj hT
        rw [← h2]
    have h1 : (match (if stochasticEventTime sevs s udraw = some nt then
        (match sevs[sel]? with
          | none => (Except.error "IndexError" : Except String Sim)
          | some e => applyEventOps s2 (e.fire s2))
      else .ok s2) with
      | .error e => (.error e : Except String (Sim × Bool))
      | .ok s3 =>
        if max_time = some nt then .ok (s3, false) else .ok (s3, true)) = .ok (s', b) := h
    cases hS : (if stochasticEventTime sevs s udraw = some nt then
        (match sevs[sel]? with
          | none => (Except.error "IndexError" : Except String Sim)
          | some e => applyEventOps s2 (e.fire s2))
      else .ok s2) with
    | error e =>
      rw [hS] at h1
      cases h1
    | ok s3 =>
      rw [hS] at h1
      have hs3 : s3.current_time = s2.current_time := by
        by_cases hc : stochasticEventTime sevs s udraw = some nt
        · rw [if_pos hc] at hS
          cases hsel : sevs[sel]? with
          | none =>
            rw [hsel] at hS
            cases hS
          | some e =>
            rw [hsel] at hS
            exact applyEventOps_time _ _ _ hS
        · rw [if_neg hc] at hS
          have h2 : s2 = s3 := Except.ok.inj hS
          rw [← h2]
      have h2 : (if max_time = some nt then (Except.ok (s3, false) : Except String (Sim × Bool))
          else .ok (s3, true)) = .ok (s', b) := h1
      have hfin : s3 = s' := by
        by_cases hc : max_time = some nt
        · rw [if_pos hc] at h2
          exact congrArg Prod.fst (Except.ok.inj h2)
        · rw [if_neg hc] at h2
          exact congrArg Prod.fst (Except.ok.inj h2)
      rw [← hfin, hs3, hs2]

theorem minOfList_bound (c : ℚ) (l : List ℚ) (hl : ∀ x ∈ l, c ≤ x) :
    ∀ v, minOfList l = some v → c ≤ v := by
  induction l with
  | nil =>
    intro v h
    cases h
  | cons x xs ih =>
    intro v h
    rw [minOfList] at h
    cases hm : minOfList xs with
    | none =>
      rw [hm] at h
      have h2 := Option.some.inj h
      rw [← h2]
      exact hl x (List.mem_cons_self x xs)
    | some m =>
      rw [hm] at h
      have h2 := Option.some.inj h
      rw [← h2]
      exact le_min (hl x (List.mem_cons_self x xs))
        (ih (fun y hy => hl y (List.mem_cons.mpr (Or.inr hy))) m hm)

theorem omin_bound (c : ℚ) (a b : Option ℚ) (ha : ∀ v, a = some v → c ≤ v)
    (hb : ∀ v, b = some v → c ≤ v) : ∀ v, omin a b = some v → c ≤ v := by
  intro v h
  cases a with
  | none =>
    have h2 : b = some v := h
    exact hb v h2
  | some x =>
    cases b with
    | none =>
      have h2 : (some x : Option ℚ) = some v := h
      rw [← Option.some.inj h2]
      exact ha x rfl
    | some y =>
      have h2 : (some (min x y) : Option ℚ) = some v := h
      rw [← Option.some.inj h2]
      exact le_min (ha x rfl) (hb y rfl)

theorem rateChangeTime_bound (sevs : List RunStochEv) (s : Sim) :
    ∀ v, rateChangeTime sevs s = some v → s.current_time ≤ v := by
  intro v h
  rw [rateChangeTime] at h
  refine minOfList_bound s.current_time _ ?_ v h
  intro x hx
  rcases List.mem_flatten.mp hx with ⟨l, hl, hxl⟩
  rcases List.mem_map.mp hl with ⟨e, he, rfl⟩
  have h2 := List.of_mem_filter hxl
  simp only [decide_eq_true_eq] at h2
  exact le_of_lt h2

theorem timedEventsTime_bound (tevs : List RunTimedEv) (s : Sim) :
    ∀ v, timedEventsTime tevs s = some v → s.current_time ≤ v := by
  intro v h
  rw [timedEventsTime] at h
  refine minOfList_bound s.current_time _ ?_ v h
  intro x hx
  rcases List.mem_flatten.mp hx with ⟨l, hl, hxl⟩
  rcases List.mem_map.mp hl with ⟨e, he, rfl⟩
  have h2 := List.of_mem_filter hxl
  simp only [decide_eq_true_eq] at h2
  exact le_of_lt h2

theorem stochasticEventTime_bound (sevs : List RunStochEv) (s : Sim) (udraw : ℚ)
    (hu : 0 ≤ udraw) (hp : 0 ≤ totalPropensity sevs s) :
    ∀ v, stochasticEventTime sevs s udraw = some v → s.current_time ≤ v := by
  intro v h
  rw [stochasticEventTime] at h
  by_cases hz : totalPropensity sevs s = 0
  · rw [if_pos hz] at h
    cases h
  · rw [if_neg hz] at h
    have h2 := Option.some.inj h
    rw [← h2]
    have hpos : 0 < totalPropensity sevs s := lt_of_le_of_ne hp (Ne.symm hz)
    have hd : 0 ≤ udraw / totalPropensity sevs s := div_nonneg hu (le_of_lt hpos)
    linarith

/-- C7 counterexample: a single registered stochastic event in the shape of
the catalogue's `Death` (propensity = skyline rate at the current time × one
active reactant) with the negative rate `-1`: starting from `reset` (time
`0`) with `max_time = 100 ≥ 0` and exponential-numerator draw `1`, one
`step` sets `current_time` to `-1 < 0` — time decreases even though
`max_time` is above the current time, because
`expovariate(total_propensity)` is negative for a negative total
propensity. -/
theorem step_time_decreases :
    (modelStep
        [⟨⟨[-1], []⟩,
          fun s => SkylineParameter.get_value_at_time ⟨[-1], []⟩ s.current_time * 1,
          fun _ => [EventOp.remove 1]⟩]
        [] (some 100) 1 0 (Sim.reset "I" [])).map (fun p => p.1.current_time)
      = .ok (-1)
    ∧ (Sim.reset "I" []).current_time = 0
    ∧ ((-1 : ℚ) < 0) := by
  refine ⟨?_, rfl, by norm_num⟩
  simp only [modelStep, rateChangeTime, timedEventsTime, stochasticEventTime,
    totalPropensity, minOfList, omin, stepEvents, runTimedList, applyEventOps,
    applyEventOp, Sim.remove, Sim.reset, SkylineParameter.get_value_at_time,
    bisect_right, List.map, List.filter, List.flatten, List.sum]
  norm_num [applyEventOps, applyEventOp, Sim.remove, Sim.fix, findRec, List.find?,
    lookupQ, updateRec, Except.map]

/-- C7 amended: a `Model.step` call never decreases `current_time` provided
`max_time` (when given) is not below the current time AND the total
propensity of the registered stochastic events is nonnegative (as it is for
the catalogue's events whenever the skyline rates are nonnegative): the
rate-change and timed candidates are filtered to be strictly later, the
stochastic candidate `current_time + expovariate(total)` is later when the
exponential draw is nonnegative, and the event applications never write
`_current_time`.  With a negative total propensity the step can move time
backwards. -/
theorem step_time_monotone (sevs : List RunStochEv) (tevs : List RunTimedEv)
    (max_time : Option ℚ) (udraw : ℚ) (sel : ℕ) (s s' : Sim) (b : Bool)
    (hmt : ∀ mt, max_time = some mt → s.current_time ≤ mt)
    (hu : 0 ≤ udraw)
    (hp : 0 ≤ totalPropensity sevs s)
    (h : modelStep sevs tevs max_time udraw sel s = .ok (s', b)) :
    s.current_time ≤ s'.current_time := by
  rw [modelStep] at h
  cases hm : omin (omin (rateChangeTime sevs s) (timedEventsTime tevs s))
      (stochasticEventTime sevs s udraw) with
  | none =>
    rw [hm] at h
    have h1 : (Except.ok (s, false) : Except String (Sim × Bool)) = .ok (s', b) := h
    have h2 : s = s' := congrArg Prod.fst (Except.ok.inj h1)
    rw [← h2]
  | some tmin =>
    rw [hm] at h
    have htmin : s.current_time ≤ tmin :=
      omin_bound s.current_time _ _
        (omin_bound s.current_time _ _ (rateChangeTime_bound sevs s)
          (timedEventsTime_bound tevs s))
        (stochasticEventTime_bound sevs s udraw hu hp) tmin hm
    cases max_time with
    | none =>
      have h1 : stepEvents sevs tevs none udraw sel s tmin = .ok (s', b) := h
      have h2 := stepEvents_time sevs tevs none udraw sel s tmin s' b h1
      rw [h2]
      exact htmin
    | some mt =>
      have h1 : stepEvents sevs tevs (some mt) udraw sel s (min tmin mt) = .ok (s', b) := h
      have h2 := stepEvents_time sevs tevs (some mt) udraw sel s (min tmin mt) s' b h1
      rw [h2]
      exact le_min htmin (hmt mt rfl)

/-- Witness for the amended C7: no registered events, no horizon — the step
reports `False` and leaves the time unchanged. -/
theorem step_time_monotone_witness :
    (0 : ℚ) ≤ 0
    ∧ (Sim.reset "I" []).current_time ≤ (Sim.reset "I" []).current_time :=
  ⟨le_refl 0,
    step_time_monotone [] [] none 0 0 (Sim.reset "I" []) (Sim.reset "I" []) false
      (fun mt hmt => by cases hmt) (le_refl 0) (le_refl 0) rfl⟩

/-! ## Newick serialization and parsing (`phylogenie/io/newick.py`, C6)

`to_newick` emits `(children)name[&k=v,...]:bl` and `parse_newick` is a
character loop with a stack.  The embedding works on `List Char`.  CPython
boundaries are modeled as follows: `repr(v).replace("'", '"')` for metadata
values that are ints, booleans, or strings free of quotes and backslashes
produces the decimal numeral, `True`/`False`, or `"..."` respectively
(`mrepr` below); `eval(value)` on exactly these literal forms produces the
corresponding value and fails (falling back to the raw string) otherwise
(`pyEval` below); `str(branch_length)`/`float(chars)` are passed in as an
explicit codec (`FloatFmt`), since CPython float formatting is outside the
repository.  The `translations` parameter is `None` throughout (as in the
serializer-output round trip). -/

/-- A Python metadata value as restricted by the round-trip claim: a
number, a boolean or a string. -/
inductive MVal where
  | mint (n : ℤ)
  | mstr (s : String)
  | mbool (b : Bool)
deriving Repr, DecidableEq

/-- The parsed tree: `TreeNode` with name, optional branch length, metadata
dictionary (insertion-ordered key/value pairs) and children. -/
inductive PTree where
  | node (name : String) (bl : Option ℚ) (meta : List (String × MVal)) (children : List PTree)

def PTree.name : PTree → String
  | .node n _ _ _ => n

def PTree.bl : PTree → Option ℚ
  | .node _ b _ _ => b

def PTree.meta : PTree → List (String × MVal)
  | .node _ _ m _ => m

def PTree.children : PTree → List PTree
  | .node _ _ _ cs => cs

/-- The codec for `str(branch_length)` / `float(chars)` (CPython's float
formatting and parsing, passed in as an oracle pair). -/
structure FloatFmt where
  print : ℚ → List Char
  parse : List Char → Option ℚ

/-- Decimal digits of a natural number (fueled; `fuel = n + 1` suffices). -/
def natReprAux : ℕ → ℕ → List Char
  | 0, _ => []
  | fuel + 1, n =>
    if n < 10 then [Char.ofNat (48 + n)]
    else natReprAux fuel (n / 10) ++ [Char.ofNat (48 + n % 10)]

def natRepr (n : ℕ) : List Char := natReprAux (n + 1) n

/-- `repr` of a Python int. -/
def intRepr (n : ℤ) : List Char :=
  if n < 0 then Char.ofNat 45 :: natRepr (-n).toNat else natRepr n.toNat

/-- The numeric value of a digit string (as read by `eval` on an int
literal). -/
def digitsToNat (l : List Char) : ℕ :=
  l.foldl (fun acc c => acc * 10 + (c.toNat - 48)) 0

/-- `repr(v).replace("'", '"')` on the claim's value sublanguage (for
strings this is exact when the string is free of quotes, backslashes, and
control characters: `repr` then single-quotes it and the replacement turns
the outer quotes into double quotes). -/
def mrepr : MVal → List Char
  | .mint n => intRepr n
  | .mstr s => Char.ofNat 34 :: s.data ++ [Char.ofNat 34]
  | .mbool true => "True".data
  | .mbool false => "False".data

/-- `eval(value)` on the literal forms `mrepr` produces: a double-quoted
string literal, `True`/`False`, or a decimal int literal with optional
sign; anything else fails (the parser then falls back to the raw string). -/
def pyEval (l : List Char) : Option MVal :=
  match l with
  | [] => none
  | c :: rest =>
    if c = Char.ofNat 34 then
      if rest ≠ [] ∧ rest.getLast? = some (Char.ofNat 34)
          ∧ rest.dropLast.all (fun x => decide (x ≠ Char.ofNat 34) && decide (x ≠ Char.ofNat 92))
      then some (.mstr ⟨rest.dropLast⟩)
      else none
    else if l = "True".data then some (.mbool true)
    else if l = "False".data then some (.mbool false)
    else if c = Char.ofNat 45 then
      if rest ≠ [] ∧ rest.all Char.isDigit then some (.mint (-(digitsToNat rest : ℤ)))
      else none
    else if l.all Char.isDigit then some (.mint (digitsToNat l))
    else none

/-- `",".join`. -/
def intercComma : List (List Char) → List Char
  | [] => []
  | [x] => x
  | x :: y :: xs => x ++ Char.ofNat 44 :: intercComma (y :: xs)

/-- The serializer's feature validation: keys must not contain `','`, `'='`
or `']'`; value reprs must not contain `'='` or `']'`. -/
def featOK (k : String) (r : List Char) : Bool :=
  k.data.all (fun c => decide (c ≠ Char.ofNat 44) && decide (c ≠ Char.ofNat 61)
    && decide (c ≠ Char.ofNat 93))
  && r.all (fun c => decide (c ≠ Char.ofNat 61) && decide (c ≠ Char.ofNat 93))

/-- The `[&k1=v1,...]` block (empty when there is no metadata), with the
serializer's validation. -/
def metaPart (meta : List (String × MVal)) : Except String (List Char) :=
  match meta with
  | [] => .ok []
  | _ =>
    if meta.all (fun kv => featOK kv.1 (mrepr kv.2)) then
      .ok (Char.ofNat 91 :: Char.ofNat 38 ::
        intercComma (meta.map (fun kv => kv.1.data ++ Char.ofNat 61 :: mrepr kv.2))
        ++ [Char.ofNat 93])
    else .error "Invalid feature"

mutual

/-- Embeds `to_newick` (without the trailing semicolon, as in the source):
`(children_newick)name[&features]:branch_length`. Note that the source's
`if children_newick:` tests the truthiness of the comma-JOINED STRING, not
of the child list: when a node's children join to the empty string (one
child that itself serializes to `""`), the parentheses — and with them the
child — are dropped from the output. -/
def to_newick (ff : FloatFmt) : PTree → Except String (List Char)
  | .node name bl meta children =>
    match to_newickForest ff children with
    | .error e => .error e
    | .ok childStrs =>
      match metaPart meta with
      | .error e => .error e
      | .ok mp =>
        let base := name.data ++ mp
        let base2 :=
          if (intercComma childStrs).isEmpty then base
          else Char.ofNat 40 :: intercComma childStrs ++ Char.ofNat 41 :: base
        match bl with
        | none => .ok base2
        | some b => .ok (base2 ++ Char.ofNat 58 :: ff.print b)

def to_newickForest (ff : FloatFmt) : List PTree → Except String (List (List Char))
  | [] => .ok []
  | t :: ts =>
    match to_newick ff t with
    | .error e => .error e
    | .ok s =>
      match to_newickForest ff ts with
      | .error e => .error e
      | .ok ss => .ok (s :: ss)

end

/-- `_read_chars(stoppers)`: the characters up to the first stopper, plus
the remaining input (starting with the stopper); `none` models the
`ValueError` at end of string. -/
def readChars (stops : List Char) : List Char → Option (List Char × List Char)
  | [] => none
  | c :: cs =>
    if c ∈ stops then some ([], c :: cs)
    else
      match readChars stops cs with
      | none => none
      | some (w, r) => some (c :: w, r)

/-- `re.split(r",(?=[^,]+=)", s)`: split at the commas followed by a
nonempty comma-free run and a `'='`. -/
def splitFeatsGo : List Char → List Char → List (List Char)
  | acc, [] => [acc.reverse]
  | acc, c :: cs =>
    if c = Char.ofNat 44
        ∧ Char.ofNat 61 ∈ (cs.takeWhile (fun x => decide (x ≠ Char.ofNat 44))).drop 1 then
      acc.reverse :: splitFeatsGo [] cs
    else splitFeatsGo (c :: acc) cs

def splitFeatures (l : List Char) : List (List Char) := splitFeatsGo [] l

/-- `key, value = feature.split("=")`: succeeds exactly when the feature
contains a single `'='`. -/
def splitEq (l : List Char) : Option (List Char × List Char) :=
  if l.count (Char.ofNat 61) = 1 then
    some (l.takeWhile (fun c => decide (c ≠ Char.ofNat 61)),
      (l.dropWhile (fun c => decide (c ≠ Char.ofNat 61))).drop 1)
  else none

/-- `node.set(key, value)`: Python dict assignment (replace in place, or
append a new key). -/
def setKV : List (String × MVal) → String → MVal → List (String × MVal)
  | [], k, v => [(k, v)]
  | (k0, v0) :: rest, k, v =>
    if k0 = k then (k0, v) :: rest else (k0, v0) :: setKV rest k v

/-- The feature loop: split each feature at its `'='`; `eval` the value and
fall back to the raw string when `eval` fails. -/
def applyFeaturesGo : List (String × MVal) → List (List Char) → Except String (List (String × MVal))
  | acc, [] => .ok acc
  | acc, f :: fs =>
    match splitEq f with
    | none => .error "ValueError: too many values to unpack"
    | some (k, v) =>
      applyFeaturesGo (setKV acc ⟨k⟩ (match pyEval v with | some mv => mv | none => .mstr ⟨v⟩)) fs

/-- The `[&...]` block of one node, if present. -/
def parseMeta : List Char → Except String (List (String × MVal) × List Char)
  | c :: rest =>
    if c = Char.ofNat 91 then
      match rest with
      | [] => .error "IndexError"
      | c2 :: r2 =>
        if c2 = Char.ofNat 38 then
          match readChars [Char.ofNat 93] r2 with
          | none => .error "Expected one of stoppers, got end of string"
          | some (feats, r3) =>
            match applyFeaturesGo [] (splitFeatures feats) with
            | .error e => .error e
            | .ok kvs => .ok (kvs, r3.drop 1)
        else .error "Expected an ampersand at the start of node features"
    else .ok ([], c :: rest)
  | [] => .ok ([], [])

/-- The `:branch_length` suffix of one node, if present. -/
def parseBl (ff : FloatFmt) : List Char → Except String (Option ℚ × List Char)
  | c :: rest =>
    if c = Char.ofNat 58 then
      match readChars [Char.ofNat 44, Char.ofNat 41, Char.ofNat 59] rest with
      | none => .error "Expected one of stoppers, got end of string"
      | some (w, r) =>
        match ff.parse w with
        | none => .error "ValueError: could not convert string to float"
        | some q => .ok (some q, r)
    else .ok (none, c :: rest)
  | [] => .ok (none, [])

/-- The parser's main loop: the explicit while-loop of `parse_newick` with
its stack, `current_children` and `current_nodes`, fueled by the input
length (each iteration consumes at least one character). -/
def parseLoop (ff : FloatFmt) :
    ℕ → List Char → List (List PTree) → List PTree → List PTree → Except String PTree
  | 0, _, _, _, _ => .error "out of fuel"
  | fuel + 1, rest, stack, cur_children, cur_nodes =>
    match rest with
    | [] => .error "IndexError"
    | c :: cs =>
      if c = Char.ofNat 40 then
        parseLoop ff fuel cs (cur_nodes :: stack) cur_children []
      else
        match readChars [Char.ofNat 58, Char.ofNat 91, Char.ofNat 44,
            Char.ofNat 41, Char.ofNat 59] (c :: cs) with
        | none => .error "Expected one of stoppers, got end of string"
        | some (nameChars, rest1) =>
          match parseMeta rest1 with
          | .error e => .error e
          | .ok (meta, rest2) =>
            match parseBl ff rest2 with
            | .error e => .error e
            | .ok (bl, rest3) =>
              match rest3 with
              | [] => .error "IndexError"
              | d :: r4 =>
                if d = Char.ofNat 41 then
                  match stack with
                  | [] => .error "pop from empty list"
                  | top :: stk =>
                    parseLoop ff fuel r4 stk
                      (cur_nodes ++ [PTree.node ⟨nameChars⟩ bl meta cur_children]) top
                else if d = Char.ofNat 59 then
                  .ok (PTree.node ⟨nameChars⟩ bl meta cur_children)
                else
                  parseLoop ff fuel r4 stack []
                    (cur_nodes ++ [PTree.node ⟨nameChars⟩ bl meta cur_children])

/-- `str.strip()`: drop whitespace at both ends. -/
def stripWs (l : List Char) : List Char :=
  ((l.dropWhile Char.isWhitespace).reverse.dropWhile Char.isWhitespace).reverse

/-- `re.sub(r"^\[\&[^\]]*\]", "", newick)`: drop a leading `[&...]` root
annotation when one is present. -/
def stripRootAnn (l : List Char) : List Char :=
  match l with
  | c1 :: c2 :: rest =>
    if c1 = Char.ofNat 91 ∧ c2 = Char.ofNat 38 ∧ rest.any (fun c => decide (c = Char.ofNat 93)) then
      (rest.dropWhile (fun c => decide (c ≠ Char.ofNat 93))).drop 1
    else l
  | _ => l

/-- Embeds `parse_newick` (with `translations = None`). -/
def parse_newick (ff : FloatFmt) (input : List Char) : Except String PTree :=
  let l := stripWs (stripRootAnn (stripWs input))
  parseLoop ff (l.length + 1) l [] [] []

/-- C6 counterexample: a childless root with empty name and one metadata
entry serializes to `[&a="v"]`; with the terminating `;` the parser first
strips it as a leading root annotation, so the parse returns a bare root
with NO metadata: the round trip loses the key/value pairs even though the
name avoids all structural characters and the key/value satisfy the claim's
character restrictions. -/
theorem newick_root_metadata_lost :
    (to_newick ⟨fun _ => [], fun _ => none⟩ (PTree.node "" none [("a", .mstr "v")] [])
      = .ok "[&a=\"v\"]".data)
    ∧ parse_newick ⟨fun _ => [], fun _ => none⟩ ("[&a=\"v\"]".data ++ [Char.ofNat 59])
        = .ok (PTree.node "" none [] [])
    ∧ (PTree.node "" none [] []).meta ≠ (PTree.node "" none [("a", .mstr "v")] []).meta := by
  refine ⟨rfl, rfl, ?_⟩
  intro h
  cases h

/-! ### Round-trip restrictions and supporting lemmas (C6) -/

/-- A name avoiding the structural characters `: [ , ( ) ;` and
whitespace. -/
def nameOKb (s : String) : Bool :=
  s.data.all (fun c => decide (c ≠ Char.ofNat 58) && decide (c ≠ Char.ofNat 91)
    && decide (c ≠ Char.ofNat 44) && decide (c ≠ Char.ofNat 40)
    && decide (c ≠ Char.ofNat 41) && decide (c ≠ Char.ofNat 59) && !c.isWhitespace)

/-- A nonempty metadata key without `, = ]`. -/
def keyOKb (k : String) : Bool :=
  !k.data.isEmpty && k.data.all (fun c => decide (c ≠ Char.ofNat 44)
    && decide (c ≠ Char.ofNat 61) && decide (c ≠ Char.ofNat 93))

/-- A metadata value: any int or bool; a string free of quotes, backslashes,
`=` and `]`. -/
def valOKb : MVal → Bool
  | .mint _ => true
  | .mbool _ => true
  | .mstr s => s.data.all (fun c => decide (c ≠ Char.ofNat 34) && decide (c ≠ Char.ofNat 39)
      && decide (c ≠ Char.ofNat 92) && decide (c ≠ Char.ofNat 61) && decide (c ≠ Char.ofNat 93))

/-- A branch length whose printed form parses back and avoids `, ) ;`. -/
def blOKb (ff : FloatFmt) : Option ℚ → Bool
  | none => true
  | some b => decide (ff.parse (ff.print b) = some b)
      && (ff.print b).all (fun c => decide (c ≠ Char.ofNat 44) && decide (c ≠ Char.ofNat 41)
        && decide (c ≠ Char.ofNat 59))

mutual

def ptreeOK (ff : FloatFmt) : PTree → Bool
  | .node name bl meta children =>
    nameOKb name && blOKb ff bl
      && meta.all (fun kv => keyOKb kv.1 && valOKb kv.2)
      && decide ((meta.map Prod.fst).Nodup)
      && pforestOK ff children

def pforestOK (ff : FloatFmt) : List PTree → Bool
  | [] => true
  | t :: ts => ptreeOK ff t && pforestOK ff ts

end

mutual

def psize : PTree → ℕ
  | .node _ _ _ cs => 1 + pforestSize cs

def pforestSize : List PTree → ℕ
  | [] => 0
  | t :: ts => psize t + pforestSize ts

end

mutual

/-- Loop iterations the parser spends on one serialized node (including the
delimiter that follows it). -/
def itersT : PTree → ℕ
  | .node _ _ _ [] => 1
  | .node _ _ _ (c :: cs) => 2 + itersF (c :: cs)

def itersF : List PTree → ℕ
  | [] => 0
  | t :: ts => itersT t + itersF ts

end

mutual

/-- Whether a tree serializes to the empty string: empty name, no metadata,
no branch length, and children whose comma-join is empty (no children, or a
single child that itself serializes to the empty string). -/
def emptySer : PTree → Bool
  | .node name bl meta cs =>
    name.data.isEmpty && bl.isNone && meta.isEmpty && emptySerF cs

def emptySerF : List PTree → Bool
  | [] => true
  | [c] => emptySer c
  | _ :: _ :: _ => false

end

/-- The serializer's `if children_newick:` tests the joined string, so a
node with exactly one empty-serializing child loses its parentheses and the
child is silently dropped from the output; `loneOK` rules that shape out at
one node. -/
def loneOK : List PTree → Bool
  | [c] => !emptySer c
  | _ => true

mutual

/-- No node of the tree has exactly one child that serializes to the empty
string. -/
def noLoneEmpty : PTree → Bool
  | .node _ _ _ cs => loneOK cs && noLoneEmptyF cs

def noLoneEmptyF : List PTree → Bool
  | [] => true
  | t :: ts => noLoneEmpty t && noLoneEmptyF ts

end

/-- The serialized `:branch_length` suffix. -/
def blPart (ff : FloatFmt) : Option ℚ → List Char
  | none => []
  | some b => Char.ofNat 58 :: ff.print b

/-- The state of the parser loop right after a node's characters have been
consumed: the delimiter decides attach-and-continue, pop, or return. -/
def afterN (ff : FloatFmt) (fuel : ℕ) (d : Char) (r : List Char)
    (stk : List (List PTree)) (cn : List PTree) (t : PTree) : Except String PTree :=
  if d = Char.ofNat 41 then
    match stk with
    | [] => .error "pop from empty list"
    | top :: stk2 => parseLoop ff fuel r stk2 (cn ++ [t]) top
  else if d = Char.ofNat 59 then .ok t
  else parseLoop ff fuel r stk [] (cn ++ [t])

theorem readChars_append (stops pre rest : List Char)
    (hpre : ∀ c ∈ pre, c ∉ stops) (d : Char) (r : List Char)
    (hrest : rest = d :: r) (hd : d ∈ stops) :
    readChars stops (pre ++ rest) = some (pre, rest) := by
  induction pre with
  | nil =>
    subst hrest
    show readChars stops (d :: r) = some ([], d :: r)
    rw [readChars]
    rw [if_pos hd]
  | cons c pre2 ih =>
    rw [List.cons_append, readChars]
    rw [if_neg (hpre c (List.mem_cons_self c pre2))]
    rw [ih (fun x hx => hpre x (List.mem_cons.mpr (Or.inr hx)))]

theorem takeWhile_append_all (p : Char → Bool) (a b : List Char)
    (h : ∀ c ∈ a, p c = true) : (a ++ b).takeWhile p = a ++ b.takeWhile p := by
  induction a with
  | nil => rfl
  | cons c a2 ih =>
    rw [List.cons_append, List.takeWhile_cons, h c (List.mem_cons_self c a2)]
    rw [ih (fun x hx => h x (List.mem_cons.mpr (Or.inr hx)))]
    rw [if_pos rfl, List.cons_append]

theorem mem_takeWhile_imp (p : Char → Bool) (l : List Char) (c : Char)
    (h : c ∈ l.takeWhile p) : c ∈ l := by
  induction l with
  | nil => cases h
  | cons x xs ih =>
    rw [List.takeWhile_cons] at h
    cases hp : p x with
    | false =>
      rw [hp] at h
      cases h
    | true =>
      rw [hp] at h
      rcases List.mem_cons.mp h with rfl | h2
      · exact List.mem_cons_self c xs
      · exact List.mem_cons.mpr (Or.inr (ih h2))

theorem mem_drop_one (l : List Char) (c : Char) (h : c ∈ l.drop 1) : c ∈ l := by
  cases l with
  | nil => cases h
  | cons x xs => exact List.mem_cons.mpr (Or.inr h)

theorem splitFeatsGo_commafree (seg : List Char) (hseg : ∀ c ∈ seg, c ≠ Char.ofNat 44) :
    ∀ acc rest, splitFeatsGo acc (seg ++ rest) = splitFeatsGo (seg.reverse ++ acc) rest := by
  induction seg with
  | nil =>
    intro acc rest
    rfl
  | cons c seg2 ih =>
    intro acc rest
    rw [List.cons_append, splitFeatsGo]
    rw [if_neg (fun h => hseg c (List.mem_cons_self c seg2) h.1)]
    rw [ih (fun x hx => hseg x (List.mem_cons.mpr (Or.inr hx))) (c :: acc) rest]
    rw [List.reverse_cons, List.append_assoc]
    rfl

theorem eq_not_mem_takeWhile (v : List Char) (rest : List Char)
    (hv : Char.ofNat 61 ∉ v) (hrest : rest = [] ∨ ∃ z, rest = Char.ofNat 44 :: z) :
    Char.ofNat 61 ∉ (v ++ rest).takeWhile (fun x => decide (x ≠ Char.ofNat 44)) := by
  induction v with
  | nil =>
    rcases hrest with rfl | ⟨z, rfl⟩
    · intro h
      cases h
    · intro h
      rw [List.nil_append, List.takeWhile_cons] at h
      simp at h
  | cons c v2 ih =>
    intro h
    rw [List.cons_append, List.takeWhile_cons] at h
    cases hc : decide (c ≠ Char.ofNat 44) with
    | false =>
      rw [hc] at h
      cases h
    | true =>
      rw [hc] at h
      rcases List.mem_cons.mp h with rfl | h2
      · exact hv (List.mem_cons_self _ _)
      · exact ih (fun hm => hv (List.mem_cons.mpr (Or.inr hm))) h2

theorem splitFeatsGo_value (v : List Char) (hv : Char.ofNat 61 ∉ v) :
    ∀ acc rest, (rest = [] ∨ ∃ z, rest = Char.ofNat 44 :: z) →
      splitFeatsGo acc (v ++ rest) = splitFeatsGo (v.reverse ++ acc) rest := by
  induction v with
  | nil =>
    intro acc rest _
    rfl
  | cons c v2 ih =>
    intro acc rest hrest
    rw [List.cons_append, splitFeatsGo]
    have hnc : ¬(c = Char.ofNat 44
        ∧ Char.ofNat 61 ∈ ((v2 ++ rest).takeWhile (fun x => decide (x ≠ Char.ofNat 44))).drop 1) := by
      rintro ⟨rfl, hmem⟩
      exact eq_not_mem_takeWhile v2 rest (fun hm => hv (List.mem_cons.mpr (Or.inr hm))) hrest
        (mem_drop_one _ _ hmem)
    rw [if_neg hnc]
    rw [ih (fun hm => hv (List.mem_cons.mpr (Or.inr hm))) (c :: acc) rest hrest]
    rw [List.reverse_cons, List.append_assoc]
    rfl

theorem splitFeatsGo_chunk (k v : List Char)
    (hk : ∀ c ∈ k, c ≠ Char.ofNat 44 ∧ c ≠ Char.ofNat 61)
    (hv : Char.ofNat 61 ∉ v) :
    ∀ acc rest, (rest = [] ∨ ∃ z, rest = Char.ofNat 44 :: z) →
      splitFeatsGo acc ((k ++ Char.ofNat 61 :: v) ++ rest)
        = splitFeatsGo ((k ++ Char.ofNat 61 :: v).reverse ++ acc) rest := by
  intro acc rest hrest
  rw [List.append_assoc, List.cons_append]
  rw [splitFeatsGo_commafree k (fun c hc => (hk c hc).1) acc]
  rw [splitFeatsGo]
  have hne61 : ¬(Char.ofNat 61 = Char.ofNat 44
      ∧ Char.ofNat 61 ∈ ((v ++ rest).takeWhile (fun x => decide (x ≠ Char.ofNat 44))).drop 1) := by
    rintro ⟨h1, _⟩
    exact absurd h1 (by decide)
  rw [if_neg hne61]
  rw [splitFeatsGo_value v hv (Char.ofNat 61 :: (k.reverse ++ acc)) rest hrest]
  congr 1
  simp [List.reverse_append]

theorem dropWhile_append_all (p : Char → Bool) (a b : List Char)
    (h : ∀ c ∈ a, p c = true) : (a ++ b).dropWhile p = b.dropWhile p := by
  induction a with
  | nil => rfl
  | cons c a2 ih =>
    rw [List.cons_append, List.dropWhile_cons, h c (List.mem_cons_self c a2)]
    rw [ih (fun x hx => h x (List.mem_cons.mpr (Or.inr hx)))]
    rw [if_pos rfl]

theorem toNat_ofNat_digit (d : ℕ) (hd : d < 10) : (Char.ofNat (48 + d)).toNat = 48 + d := by
  interval_cases d <;> decide

theorem isDigit_ofNat_digit (d : ℕ) (hd : d < 10) : (Char.ofNat (48 + d)).isDigit = true := by
  interval_cases d <;> decide

theorem digitsToNat_concat (l : List Char) (c : Char) :
    digitsToNat (l ++ [c]) = digitsToNat l * 10 + (c.toNat - 48) := by
  rw [digitsToNat, digitsToNat, List.foldl_append]
  rfl

theorem natReprAux_spec : ∀ fuel n, n < 10 ^ fuel →
    digitsToNat (natReprAux fuel n) = n ∧ ∀ c ∈ natReprAux fuel n, c.isDigit = true := by
  intro fuel
  induction fuel with
  | zero =>
    intro n hn
    rw [pow_zero] at hn
    have hn0 : n = 0 := by omega
    subst hn0
    refine ⟨rfl, ?_⟩
    intro c hc
    cases hc
  | succ fuel ih =>
    intro n hn
    rw [natReprAux]
    by_cases h10 : n < 10
    · rw [if_pos h10]
      constructor
      · have h1 : digitsToNat [Char.ofNat (48 + n)] = 0 * 10 + ((Char.ofNat (48 + n)).toNat - 48) :=
          rfl
        rw [h1, toNat_ofNat_digit n h10]
        omega
      · intro c hc
        rcases List.mem_singleton.mp hc with rfl
        exact isDigit_ofNat_digit n h10
    · rw [if_neg h10]
      have hdiv : n / 10 < 10 ^ fuel := by
        rw [pow_succ] at hn
        exact (Nat.div_lt_iff_lt_mul (by norm_num)).mpr hn
      obtain ⟨ihv, ihd⟩ := ih (n / 10) hdiv
      constructor
      · rw [digitsToNat_concat, ihv, toNat_ofNat_digit (n % 10) (Nat.mod_lt n (by omega))]
        have := Nat.div_add_mod n 10
        omega
      · intro c hc
        rcases List.mem_append.mp hc with hc1 | hc2
        · exact ihd c hc1
        · rcases List.mem_singleton.mp hc2 with rfl
          exact isDigit_ofNat_digit (n % 10) (Nat.mod_lt n (by omega))

theorem natRepr_spec (n : ℕ) :
    digitsToNat (natRepr n) = n ∧ ∀ c ∈ natRepr n, c.isDigit = true := by
  have h1 : n < 10 ^ n := Nat.lt_pow_self (by norm_num) n
  have h2 : 10 ^ n ≤ 10 ^ (n + 1) := Nat.pow_le_pow_right (by norm_num) (by omega)
  exact natReprAux_spec (n + 1) n (by omega)

theorem natRepr_ne_nil (n : ℕ) : natRepr n ≠ [] := by
  rw [natRepr, natReprAux]
  by_cases h : n < 10
  · rw [if_pos h]
    simp
  · rw [if_neg h]
    simp

theorem isDigit_ne (c : Char) (h : c.isDigit = true) :
    c ≠ Char.ofNat 34 ∧ c ≠ Char.ofNat 45 ∧ c ≠ Char.ofNat 61 ∧ c ≠ Char.ofNat 93
    ∧ c ≠ Char.ofNat 44 ∧ c ≠ Char.ofNat 84 ∧ c ≠ Char.ofNat 70 := by
  refine ⟨?_, ?_, ?_, ?_, ?_, ?_, ?_⟩ <;> intro he <;> rw [he] at h <;> exact absurd h (by decide)

theorem mrepr_no_eq_rb (v : MVal) (hv : valOKb v = true) :
    ∀ c ∈ mrepr v, c ≠ Char.ofNat 61 ∧ c ≠ Char.ofNat 93 := by
  cases v with
  | mint n =>
    intro c hc
    rw [mrepr, intRepr] at hc
    by_cases hn : n < 0
    · rw [if_pos hn] at hc
      rcases List.mem_cons.mp hc with rfl | hc2
      · exact ⟨by decide, by decide⟩
      · have hd := isDigit_ne c ((natRepr_spec _).2 c hc2)
        exact ⟨hd.2.2.1, hd.2.2.2.1⟩
    · rw [if_neg hn] at hc
      have hd := isDigit_ne c ((natRepr_spec _).2 c hc)
      exact ⟨hd.2.2.1, hd.2.2.2.1⟩
  | mstr s =>
    intro c hc
    rw [mrepr] at hc
    rcases List.mem_cons.mp hc with rfl | hc2
    · exact ⟨by decide, by decide⟩
    rcases List.mem_append.mp hc2 with hc3 | hc4
    · rw [valOKb] at hv
      have h2 := List.all_eq_true.mp hv c hc3
      simp only [Bool.and_eq_true, decide_eq_true_eq] at h2
      exact ⟨h2.1.2, h2.2⟩
    · rcases List.mem_singleton.mp hc4 with rfl
      exact ⟨by decide, by decide⟩
  | mbool b =>
    cases b with
    | true =>
      intro c hc
      have he : mrepr (.mbool true)
          = [Char.ofNat 84, Char.ofNat 114, Char.ofNat 117, Char.ofNat 101] := by decide
      rw [he] at hc
      simp only [List.mem_cons, List.not_mem_nil, or_false] at hc
      rcases hc with rfl | rfl | rfl | rfl <;> exact ⟨by decide, by decide⟩
    | false =>
      intro c hc
      have he : mrepr (.mbool false)
          = [Char.ofNat 70, Char.ofNat 97, Char.ofNat 108, Char.ofNat 115, Char.ofNat 101] := by
        decide
      rw [he] at hc
      simp only [List.mem_cons, List.not_mem_nil, or_false] at hc
      rcases hc with rfl | rfl | rfl | rfl | rfl <;> exact ⟨by decide, by decide⟩

theorem pyEval_cons (c : Char) (rest : List Char) :
    pyEval (c :: rest) =
      if c = Char.ofNat 34 then
        if rest ≠ [] ∧ rest.getLast? = some (Char.ofNat 34)
            ∧ rest.dropLast.all (fun x => decide (x ≠ Char.ofNat 34) && decide (x ≠ Char.ofNat 92))
        then some (.mstr ⟨rest.dropLast⟩)
        else none
      else if c :: rest = "True".data then some (.mbool true)
      else if c :: rest = "False".data then some (.mbool false)
      else if c = Char.ofNat 45 then
        if rest ≠ [] ∧ rest.all Char.isDigit then some (.mint (-(digitsToNat rest : ℤ)))
        else none
      else if (c :: rest).all Char.isDigit then some (.mint (digitsToNat (c :: rest)))
      else none := rfl

theorem pyEval_mrepr (v : MVal) (hv : valOKb v = true) : pyEval (mrepr v) = some v := by
  cases v with
  | mbool b => cases b <;> decide
  | mstr s =>
    rw [valOKb] at hv
    rw [mrepr, List.cons_append, pyEval_cons]
    rw [if_pos rfl]
    have hcond : (s.data ++ [Char.ofNat 34]) ≠ []
        ∧ (s.data ++ [Char.ofNat 34]).getLast? = some (Char.ofNat 34)
        ∧ (s.data ++ [Char.ofNat 34]).dropLast.all
            (fun x => decide (x ≠ Char.ofNat 34) && decide (x ≠ Char.ofNat 92)) = true := by
      refine ⟨by simp, by rw [List.getLast?_concat], ?_⟩
      rw [List.dropLast_concat]
      refine List.all_eq_true.mpr ?_
      intro c hc
      have h2 := List.all_eq_true.mp hv c hc
      simp only [Bool.and_eq_true, decide_eq_true_eq] at h2
      simp only [Bool.and_eq_true, decide_eq_true_eq]
      exact ⟨h2.1.1.1.1, h2.1.1.2⟩
    rw [if_pos hcond, List.dropLast_concat]
  | mint n =>
    rw [mrepr, intRepr]
    by_cases hn : n < 0
    · rw [if_pos hn, pyEval_cons]
      rw [if_neg (by decide : ¬(Char.ofNat 45 = Char.ofNat 34))]
      have hTrue : ¬(Char.ofNat 45 :: natRepr (-n).toNat = "True".data) := by
        intro h
        have h2 : "True".data = Char.ofNat 84 :: "rue".data := by decide
        rw [h2] at h
        injection h with h1 _
        exact absurd h1 (by decide)
      have hFalse : ¬(Char.ofNat 45 :: natRepr (-n).toNat = "False".data) := by
        intro h
        have h2 : "False".data = Char.ofNat 70 :: "alse".data := by decide
        rw [h2] at h
        injection h with h1 _
        exact absurd h1 (by decide)
      rw [if_neg hTrue, if_neg hFalse, if_pos rfl]
      have hne : natRepr (-n).toNat ≠ [] := natRepr_ne_nil _
      have hdig : (natRepr (-n).toNat).all Char.isDigit = true :=
        List.all_eq_true.mpr (fun c hc => (natRepr_spec _).2 c hc)
      rw [if_pos ⟨hne, hdig⟩]
      rw [(natRepr_spec (-n).toNat).1]
      rw [Int.toNat_of_nonneg (by omega), neg_neg]
    · rw [if_neg hn]
      cases hl : natRepr n.toNat with
      | nil => exact absurd hl (natRepr_ne_nil _)
      | cons c rest =>
        have hcd : c.isDigit = true :=
          (natRepr_spec n.toNat).2 c (by rw [hl]; exact List.mem_cons_self _ _)
        have hne := isDigit_ne c hcd
        rw [pyEval_cons]
        rw [if_neg hne.1]
        have hTrue : ¬(c :: rest = "True".data) := by
          intro h
          have h2 : "True".data = Char.ofNat 84 :: "rue".data := by decide
          rw [h2] at h
          injection h with h1 _
          exact hne.2.2.2.2.2.1 h1
        have hFalse : ¬(c :: rest = "False".data) := by
          intro h
          have h2 : "False".data = Char.ofNat 70 :: "alse".data := by decide
          rw [h2] at h
          injection h with h1 _
          exact hne.2.2.2.2.2.2 h1
        rw [if_neg hTrue, if_neg hFalse, if_neg hne.2.1]
        have hdig : (c :: rest).all Char.isDigit = true := by
          rw [← hl]
          exact List.all_eq_true.mpr (fun x hx => (natRepr_spec _).2 x hx)
        rw [if_pos hdig]
        rw [← hl, (natRepr_spec n.toNat).1]
        rw [Int.toNat_of_nonneg (by omega)]

theorem splitEq_chunk (k v : List Char) (hk : Char.ofNat 61 ∉ k) (hv : Char.ofNat 61 ∉ v) :
    splitEq (k ++ Char.ofNat 61 :: v) = some (k, v) := by
  rw [splitEq]
  have hc : (k ++ Char.ofNat 61 :: v).count (Char.ofNat 61) = 1 := by
    rw [List.count_append, List.count_cons_self]
    rw [List.count_eq_zero.mpr hk, List.count_eq_zero.mpr hv]
  rw [if_pos hc]
  have ht : (k ++ Char.ofNat 61 :: v).takeWhile (fun c => decide (c ≠ Char.ofNat 61)) = k := by
    rw [takeWhile_append_all (fun c => decide (c ≠ Char.ofNat 61)) k (Char.ofNat 61 :: v)
      (fun c hc2 => decide_eq_true (show c ≠ Char.ofNat 61 from fun he => hk (he ▸ hc2)))]
    rw [List.takeWhile_cons]
    simp
  have hd : ((k ++ Char.ofNat 61 :: v).dropWhile (fun c => decide (c ≠ Char.ofNat 61))).drop 1
      = v := by
    rw [dropWhile_append_all (fun c => decide (c ≠ Char.ofNat 61)) k (Char.ofNat 61 :: v)
      (fun c hc2 => decide_eq_true (show c ≠ Char.ofNat 61 from fun he => hk (he ▸ hc2)))]
    rw [List.dropWhile_cons]
    simp
  rw [ht, hd]

theorem setKV_fresh (acc : List (String × MVal)) (k : String) (v : MVal)
    (h : ∀ kv ∈ acc, kv.1 ≠ k) : setKV acc k v = acc ++ [(k, v)] := by
  induction acc with
  | nil => rfl
  | cons kv0 rest ih =>
    obtain ⟨k0, v0⟩ := kv0
    rw [setKV]
    rw [if_neg (h (k0, v0) (List.mem_cons_self _ _))]
    rw [ih (fun x hx => h x (List.mem_cons.mpr (Or.inr hx)))]
    rw [List.cons_append]

/-- The serialized form of one feature. -/
def encF (kv : String × MVal) : List Char := kv.1.data ++ Char.ofNat 61 :: mrepr kv.2

theorem applyFeaturesGo_enc (meta : List (String × MVal)) :
    ∀ acc, (∀ kv ∈ meta, keyOKb kv.1 = true ∧ valOKb kv.2 = true) →
    ((acc ++ meta).map Prod.fst).Nodup →
    applyFeaturesGo acc (meta.map encF) = .ok (acc ++ meta) := by
  induction meta with
  | nil =>
    intro acc _ _
    rw [List.map_nil, applyFeaturesGo, List.append_nil]
  | cons kv rest ih =>
    intro acc hgood hnd
    obtain ⟨k, v⟩ := kv
    rw [List.map_cons]
    have hkey := (hgood (k, v) (List.mem_cons_self _ _)).1
    have hval := (hgood (k, v) (List.mem_cons_self _ _)).2
    rw [keyOKb, Bool.and_eq_true] at hkey
    have hknoeq : Char.ofNat 61 ∉ k.data := by
      intro hm
      have h2 := List.all_eq_true.mp hkey.2 _ hm
      simp only [Bool.and_eq_true, decide_eq_true_eq] at h2
      exact h2.1.2 rfl
    have hvnoeq : Char.ofNat 61 ∉ mrepr v := by
      intro hm
      exact (mrepr_no_eq_rb v hval _ hm).1 rfl
    have hstep : applyFeaturesGo acc (encF (k, v) :: rest.map encF)
        = applyFeaturesGo (setKV acc ⟨k.data⟩
            (match pyEval (mrepr v) with | some mv => mv | none => MVal.mstr ⟨mrepr v⟩))
          (rest.map encF) := by
      rw [applyFeaturesGo, show encF (k, v) = k.data ++ Char.ofNat 61 :: mrepr v from rfl,
        splitEq_chunk k.data (mrepr v) hknoeq hvnoeq]
    rw [hstep]
    have hval2 : (match pyEval (mrepr v) with | some mv => mv | none => MVal.mstr ⟨mrepr v⟩)
        = v := by
      rw [pyEval_mrepr v hval]
    rw [hval2]
    have hketa : (⟨k.data⟩ : String) = k := rfl
    rw [hketa]
    rw [List.map_append, List.map_cons] at hnd
    have hdisj := (List.nodup_append.mp hnd).2.2
    have hfresh2 : ∀ kv2 ∈ acc, kv2.1 ≠ k := by
      intro kv2 hkv2 he
      exact hdisj (List.mem_map.mpr ⟨kv2, hkv2, rfl⟩) (he ▸ List.mem_cons_self _ _)
    rw [setKV_fresh acc k v hfresh2]
    have hassoc : (acc ++ [(k, v)]) ++ rest = acc ++ (k, v) :: rest := by
      rw [List.append_assoc]
      rfl
    have hnd2 : (((acc ++ [(k, v)]) ++ rest).map Prod.fst).Nodup := by
      rw [hassoc, List.map_append, List.map_cons]
      exact hnd
    rw [ih (acc ++ [(k, v)]) (fun x hx => hgood x (List.mem_cons.mpr (Or.inr hx))) hnd2]
    rw [hassoc]

theorem mem_intercComma (ls : List (List Char)) (c : Char) :
    c ∈ intercComma ls → (∃ l ∈ ls, c ∈ l) ∨ c = Char.ofNat 44 := by
  induction ls with
  | nil =>
    intro h
    cases h
  | cons x xs ih =>
    intro h
    cases xs with
    | nil => exact Or.inl ⟨x, List.mem_cons_self _ _, h⟩
    | cons y ys =>
      rw [show intercComma (x :: y :: ys)
          = x ++ Char.ofNat 44 :: intercComma (y :: ys) from rfl] at h
      rcases List.mem_append.mp h with h1 | h2
      · exact Or.inl ⟨x, List.mem_cons_self _ _, h1⟩
      · rcases List.mem_cons.mp h2 with rfl | h3
        · exact Or.inr rfl
        · rcases ih h3 with ⟨l, hl, hc⟩ | hcomma
          · exact Or.inl ⟨l, List.mem_cons.mpr (Or.inr hl), hc⟩
          · exact Or.inr hcomma

theorem splitFeatsGo_chunks (chunks : List (List Char)) :
    chunks ≠ [] →
    (∀ ch ∈ chunks, ∃ k v, ch = k ++ Char.ofNat 61 :: v ∧ k ≠ []
      ∧ (∀ c ∈ k, c ≠ Char.ofNat 44 ∧ c ≠ Char.ofNat 61) ∧ Char.ofNat 61 ∉ v) →
    splitFeatsGo [] (intercComma chunks) = chunks := by
  induction chunks with
  | nil =>
    intro h _
    exact absurd rfl h
  | cons ch chs ih =>
    intro _ hgood
    obtain ⟨k, v, rfl, hk0, hkc, hv⟩ := hgood ch (List.mem_cons_self _ _)
    cases chs with
    | nil =>
      rw [show intercComma [k ++ Char.ofNat 61 :: v] = k ++ Char.ofNat 61 :: v from rfl]
      rw [← List.append_nil (k ++ Char.ofNat 61 :: v)]
      rw [splitFeatsGo_chunk k v hkc hv [] [] (Or.inl rfl)]
      rw [splitFeatsGo]
      simp
    | cons ch2 chs2 =>
      rw [show intercComma ((k ++ Char.ofNat 61 :: v) :: ch2 :: chs2)
          = (k ++ Char.ofNat 61 :: v) ++ Char.ofNat 44 :: intercComma (ch2 :: chs2) from rfl]
      rw [splitFeatsGo_chunk k v hkc hv [] (Char.ofNat 44 :: intercComma (ch2 :: chs2))
        (Or.inr ⟨_, rfl⟩)]
      rw [splitFeatsGo]
      obtain ⟨k2, v2, hch2, hk20, hk2c, hv2⟩ :=
        hgood ch2 (List.mem_cons.mpr (Or.inr (List.mem_cons_self _ _)))
      have hcond : Char.ofNat 44 = Char.ofNat 44 ∧ Char.ofNat 61 ∈
          ((intercComma (ch2 :: chs2)).takeWhile (fun x => decide (x ≠ Char.ofNat 44))).drop 1 := by
        refine ⟨rfl, ?_⟩
        have hshape : ∃ z, intercComma (ch2 :: chs2) = k2 ++ Char.ofNat 61 :: z := by
          cases chs2 with
          | nil => exact ⟨v2, by rw [show intercComma [ch2] = ch2 from rfl, hch2]⟩
          | cons ch3 chs3 =>
            refine ⟨v2 ++ Char.ofNat 44 :: intercComma (ch3 :: chs3), ?_⟩
            rw [show intercComma (ch2 :: ch3 :: chs3)
                = ch2 ++ Char.ofNat 44 :: intercComma (ch3 :: chs3) from rfl, hch2]
            rw [List.append_assoc]
            rfl
        obtain ⟨z, hz⟩ := hshape
        rw [hz]
        rw [takeWhile_append_all (fun x => decide (x ≠ Char.ofNat 44)) k2 (Char.ofNat 61 :: z)
          (fun c hc => decide_eq_true (show c ≠ Char.ofNat 44 from (hk2c c hc).1))]
        rw [List.takeWhile_cons]
        rw [show decide (Char.ofNat 61 ≠ Char.ofNat 44) = true from by decide]
        rw [if_pos rfl]
        cases hk2nil : k2 with
        | nil => exact absurd hk2nil hk20
        | cons a k2t =>
          rw [List.cons_append]
          show Char.ofNat 61 ∈ k2t ++ Char.ofNat 61 :: z.takeWhile (fun x => decide (x ≠ Char.ofNat 44))
          exact List.mem_append.mpr (Or.inr (List.mem_cons_self _ _))
      rw [if_pos hcond]
      rw [ih (by simp) (fun x hx => hgood x (List.mem_cons.mpr (Or.inr hx)))]
      simp

theorem encF_shape (kv : String × MVal) (hkey : keyOKb kv.1 = true) (hval : valOKb kv.2 = true) :
    ∃ k v, encF kv = k ++ Char.ofNat 61 :: v ∧ k ≠ []
      ∧ (∀ c ∈ k, c ≠ Char.ofNat 44 ∧ c ≠ Char.ofNat 61) ∧ Char.ofNat 61 ∉ v := by
  rw [keyOKb, Bool.and_eq_true] at hkey
  refine ⟨kv.1.data, mrepr kv.2, rfl, ?_, ?_, ?_⟩
  · intro h0
    rw [h0] at hkey
    exact absurd hkey.1 (by decide)
  · intro c hc
    have h2 := List.all_eq_true.mp hkey.2 c hc
    simp only [Bool.and_eq_true, decide_eq_true_eq] at h2
    exact ⟨h2.1.1, h2.1.2⟩
  · intro hm
    exact (mrepr_no_eq_rb kv.2 hval _ hm).1 rfl

theorem splitFeatures_enc (meta : List (String × MVal)) (hne : meta ≠ [])
    (hgood : ∀ kv ∈ meta, keyOKb kv.1 = true ∧ valOKb kv.2 = true) :
    splitFeatures (intercComma (meta.map encF)) = meta.map encF := by
  rw [splitFeatures]
  refine splitFeatsGo_chunks (meta.map encF) ?_ ?_
  · intro h
    cases meta with
    | nil => exact hne rfl
    | cons a t => simp at h
  · intro ch hch
    rcases List.mem_map.mp hch with ⟨kv, hkv, rfl⟩
    exact encF_shape kv (hgood kv hkv).1 (hgood kv hkv).2

theorem intercComma_enc_no_rb (meta : List (String × MVal))
    (hgood : ∀ kv ∈ meta, keyOKb kv.1 = true ∧ valOKb kv.2 = true) :
    ∀ c ∈ intercComma (meta.map encF),
      c ∉ ([Char.ofNat 93] : List Char) := by
  intro c hc hmem
  rcases List.mem_singleton.mp hmem with rfl
  rcases mem_intercComma _ _ hc with ⟨l, hl, hcl⟩ | he
  · rcases List.mem_map.mp hl with ⟨kv, hkv, rfl⟩
    rcases List.mem_append.mp hcl with h1 | h2
    · have hkey := (hgood kv hkv).1
      rw [keyOKb, Bool.and_eq_true] at hkey
      have h3 := List.all_eq_true.mp hkey.2 _ h1
      simp only [Bool.and_eq_true, decide_eq_true_eq] at h3
      exact h3.2 rfl
    · rcases List.mem_cons.mp h2 with he2 | h3
      · exact absurd he2 (by decide)
      · exact (mrepr_no_eq_rb kv.2 (hgood kv hkv).2 _ h3).2 rfl
  · exact absurd he (by decide)

theorem metaPart_enc (meta : List (String × MVal)) (hne : meta ≠ [])
    (hgood : ∀ kv ∈ meta, keyOKb kv.1 = true ∧ valOKb kv.2 = true) :
    metaPart meta
      = .ok (Char.ofNat 91 :: Char.ofNat 38 :: intercComma (meta.map encF) ++ [Char.ofNat 93]) := by
  cases meta with
  | nil => exact absurd rfl hne
  | cons kv rest =>
    rw [metaPart]
    have hall : ((kv :: rest).all (fun kv2 => featOK kv2.1 (mrepr kv2.2))) = true := by
      refine List.all_eq_true.mpr ?_
      intro kv2 hkv2
      rw [featOK, Bool.and_eq_true]
      have hkey := (hgood kv2 hkv2).1
      rw [keyOKb, Bool.and_eq_true] at hkey
      constructor
      · refine List.all_eq_true.mpr ?_
        intro c hc
        exact List.all_eq_true.mp hkey.2 c hc
      · refine List.all_eq_true.mpr ?_
        intro c hc
        have h2 := mrepr_no_eq_rb kv2.2 (hgood kv2 hkv2).2 c hc
        simp only [Bool.and_eq_true, decide_eq_true_eq]
        exact h2
    rw [if_pos hall]
    have hmap : (kv :: rest).map (fun kv2 => kv2.1.data ++ Char.ofNat 61 :: mrepr kv2.2)
        = (kv :: rest).map encF :=
      List.map_congr_left (fun kv2 _ => rfl)
    rw [hmap]
    exact List.cons_ne_nil kv rest

theorem parseMeta_enc (meta : List (String × MVal)) (hne : meta ≠ [])
    (hgood : ∀ kv ∈ meta, keyOKb kv.1 = true ∧ valOKb kv.2 = true)
    (hnd : (meta.map Prod.fst).Nodup) (rest : List Char) :
    parseMeta ((Char.ofNat 91 :: Char.ofNat 38 :: intercComma (meta.map encF)
        ++ [Char.ofNat 93]) ++ rest)
      = .ok (meta, rest) := by
  have hs : (Char.ofNat 91 :: Char.ofNat 38 :: intercComma (meta.map encF)
      ++ [Char.ofNat 93]) ++ rest
      = Char.ofNat 91 :: Char.ofNat 38
        :: (intercComma (meta.map encF) ++ Char.ofNat 93 :: rest) := by
    simp
  rw [hs]
  have h1 : parseMeta (Char.ofNat 91 :: Char.ofNat 38
        :: (intercComma (meta.map encF) ++ Char.ofNat 93 :: rest))
      = (match readChars [Char.ofNat 93] (intercComma (meta.map encF) ++ Char.ofNat 93 :: rest) with
        | none => (.error "Expected one of stoppers, got end of string"
            : Except String (List (String × MVal) × List Char))
        | some (feats, r3) =>
          match applyFeaturesGo [] (splitFeatures feats) with
          | .error e => .error e
          | .ok kvs => .ok (kvs, r3.drop 1)) := rfl
  rw [h1]
  rw [readChars_append [Char.ofNat 93] (intercComma (meta.map encF)) (Char.ofNat 93 :: rest)
    (intercComma_enc_no_rb meta hgood) (Char.ofNat 93) rest rfl (List.mem_singleton.mpr rfl)]
  show (match applyFeaturesGo [] (splitFeatures (intercComma (meta.map encF))) with
    | .error e => (.error e : Except String (List (String × MVal) × List Char))
    | .ok kvs => .ok (kvs, (Char.ofNat 93 :: rest).drop 1)) = .ok (meta, rest)
  rw [splitFeatures_enc meta hne hgood]
  rw [applyFeaturesGo_enc meta [] hgood hnd]
  rfl

theorem parseBl_none (ff : FloatFmt) (d : Char) (r : List Char) (hd : d ≠ Char.ofNat 58) :
    parseBl ff (d :: r) = .ok (none, d :: r) := by
  rw [parseBl]
  rw [if_neg hd]

theorem parseBl_some (ff : FloatFmt) (b : ℚ) (hok : blOKb ff (some b) = true) (d : Char)
    (r : List Char) (hd : d = Char.ofNat 44 ∨ d = Char.ofNat 41 ∨ d = Char.ofNat 59) :
    parseBl ff ((Char.ofNat 58 :: ff.print b) ++ d :: r) = .ok (some b, d :: r) := by
  rw [blOKb, Bool.and_eq_true] at hok
  rw [List.cons_append, parseBl, if_pos rfl]
  have hpre : ∀ c ∈ ff.print b,
      c ∉ ([Char.ofNat 44, Char.ofNat 41, Char.ofNat 59] : List Char) := by
    intro c hc hmem
    have h2 := List.all_eq_true.mp hok.2 c hc
    simp only [Bool.and_eq_true, decide_eq_true_eq] at h2
    simp only [List.mem_cons, List.not_mem_nil, or_false] at hmem
    rcases hmem with rfl | rfl | rfl
    · exact h2.1.1 rfl
    · exact h2.1.2 rfl
    · exact h2.2 rfl
  have hdmem : d ∈ ([Char.ofNat 44, Char.ofNat 41, Char.ofNat 59] : List Char) := by
    rcases hd with rfl | rfl | rfl
    · exact List.mem_cons_self _ _
    · exact List.mem_cons.mpr (Or.inr (List.mem_cons_self _ _))
    · exact List.mem_cons.mpr (Or.inr (List.mem_cons.mpr (Or.inr (List.mem_cons_self _ _))))
  rw [readChars_append _ (ff.print b) (d :: r) hpre d r rfl hdmem]
  show (match ff.parse (ff.print b) with
    | none => (.error "ValueError: could not convert string to float"
        : Except String (Option ℚ × List Char))
    | some q => .ok (some q, d :: r)) = .ok (some b, d :: r)
  rw [of_decide_eq_true hok.1]

theorem parseLoop_succ_ne (ff : FloatFmt) (fuel : ℕ) (input : List Char)
    (stk : List (List PTree)) (cc cn : List PTree) (c0 : Char) (cs0 : List Char)
    (hin : input = c0 :: cs0) (hpar : c0 ≠ Char.ofNat 40) :
    parseLoop ff (fuel + 1) input stk cc cn =
      match readChars [Char.ofNat 58, Char.ofNat 91, Char.ofNat 44,
          Char.ofNat 41, Char.ofNat 59] input with
      | none => .error "Expected one of stoppers, got end of string"
      | some (nameChars, rest1) =>
        match parseMeta rest1 with
        | .error e => .error e
        | .ok (meta, rest2) =>
          match parseBl ff rest2 with
          | .error e => .error e
          | .ok (bl, rest3) =>
            match rest3 with
            | [] => .error "IndexError"
            | d :: r4 =>
              if d = Char.ofNat 41 then
                match stk with
                | [] => .error "pop from empty list"
                | top :: stk2 =>
                  parseLoop ff fuel r4 stk2 (cn ++ [PTree.node ⟨nameChars⟩ bl meta cc]) top
              else if d = Char.ofNat 59 then .ok (PTree.node ⟨nameChars⟩ bl meta cc)
              else parseLoop ff fuel r4 stk [] (cn ++ [PTree.node ⟨nameChars⟩ bl meta cc]) := by
  subst hin
  have h1 : parseLoop ff (fuel + 1) (c0 :: cs0) stk cc cn
      = (if c0 = Char.ofNat 40 then parseLoop ff fuel cs0 (cn :: stk) cc []
        else
          match readChars [Char.ofNat 58, Char.ofNat 91, Char.ofNat 44,
              Char.ofNat 41, Char.ofNat 59] (c0 :: cs0) with
          | none => .error "Expected one of stoppers, got end of string"
          | some (nameChars, rest1) =>
            match parseMeta rest1 with
            | .error e => .error e
            | .ok (meta, rest2) =>
              match parseBl ff rest2 with
              | .error e => .error e
              | .ok (bl, rest3) =>
                match rest3 with
                | [] => .error "IndexError"
                | d :: r4 =>
                  if d = Char.ofNat 41 then
                    match stk with
                    | [] => .error "pop from empty list"
                    | top :: stk2 =>
                      parseLoop ff fuel r4 stk2 (cn ++ [PTree.node ⟨nameChars⟩ bl meta cc]) top
                  else if d = Char.ofNat 59 then .ok (PTree.node ⟨nameChars⟩ bl meta cc)
                  else parseLoop ff fuel r4 stk [] (cn ++ [PTree.node ⟨nameChars⟩ bl meta cc])) :=
    rfl
  rw [h1, if_neg hpar]

theorem parseMeta_not91 (c : Char) (rest : List Char) (hc : c ≠ Char.ofNat 91) :
    parseMeta (c :: rest) = .ok ([], c :: rest) := by
  have h1 : parseMeta (c :: rest)
      = (if c = Char.ofNat 91 then
          match rest with
          | [] => (.error "IndexError" : Except String (List (String × MVal) × List Char))
          | c2 :: r2 =>
            if c2 = Char.ofNat 38 then
              match readChars [Char.ofNat 93] r2 with
              | none => .error "Expected one of stoppers, got end of string"
              | some (feats, r3) =>
                match applyFeaturesGo [] (splitFeatures feats) with
                | .error e => .error e
                | .ok kvs => .ok (kvs, r3.drop 1)
            else .error "Expected an ampersand at the start of node features"
        else .ok ([], c :: rest)) := rfl
  rw [h1, if_neg hc]

theorem parse_name_iter (ff : FloatFmt) (name : String) (bl : Option ℚ)
    (meta : List (String × MVal)) (mp : List Char)
    (hname : nameOKb name = true)
    (hbl : blOKb ff bl = true)
    (hgood : ∀ kv ∈ meta, keyOKb kv.1 = true ∧ valOKb kv.2 = true)
    (hnd : (meta.map Prod.fst).Nodup)
    (hmp : metaPart meta = .ok mp)
    (fuel : ℕ) (d : Char) (r : List Char) (stk : List (List PTree)) (cc cn : List PTree)
    (hd : d = Char.ofNat 44 ∨ d = Char.ofNat 41 ∨ d = Char.ofNat 59) :
    parseLoop ff (fuel + 1) (name.data ++ (mp ++ (blPart ff bl ++ d :: r))) stk cc cn
      = afterN ff fuel d r stk cn (PTree.node name bl meta cc) := by
  rw [nameOKb] at hname
  have hnstop : ∀ c ∈ name.data,
      c ∉ ([Char.ofNat 58, Char.ofNat 91, Char.ofNat 44,
        Char.ofNat 41, Char.ofNat 59] : List Char) := by
    intro c hc hmem
    have h2 := List.all_eq_true.mp hname c hc
    simp only [Bool.and_eq_true, decide_eq_true_eq] at h2
    simp only [List.mem_cons, List.not_mem_nil, or_false] at hmem
    rcases hmem with rfl | rfl | rfl | rfl | rfl
    · exact h2.1.1.1.1.1.1 rfl
    · exact h2.1.1.1.1.1.2 rfl
    · exact h2.1.1.1.1.2 rfl
    · exact h2.1.1.2 rfl
    · exact h2.1.2 rfl
  have hnpar : ∀ c ∈ name.data, c ≠ Char.ofNat 40 := by
    intro c hc
    have h2 := List.all_eq_true.mp hname c hc
    simp only [Bool.and_eq_true, decide_eq_true_eq] at h2
    exact h2.1.1.1.2
  have hparse2 : parseMeta (mp ++ (blPart ff bl ++ d :: r))
      = .ok (meta, blPart ff bl ++ d :: r) := by
    have hd91 : d ≠ Char.ofNat 91 := by
      rcases hd with rfl | rfl | rfl <;> decide
    cases meta with
    | nil =>
      have h0 : (Except.ok ([] : List Char) : Except String (List Char)) = .ok mp := hmp
      injection h0 with h1
      subst h1
      rw [List.nil_append]
      cases bl with
      | none =>
        rw [blPart, List.nil_append]
        exact parseMeta_not91 d r hd91
      | some b =>
        rw [blPart, List.cons_append]
        exact parseMeta_not91 (Char.ofNat 58) _ (by decide)
    | cons kv mrest =>
      have henc := metaPart_enc (kv :: mrest) (List.cons_ne_nil _ _) hgood
      have h0 := hmp.symm.trans henc
      injection h0 with h1
      subst h1
      exact parseMeta_enc (kv :: mrest) (List.cons_ne_nil _ _) hgood hnd
        (blPart ff bl ++ d :: r)
  have hparse3 : parseBl ff (blPart ff bl ++ d :: r) = .ok (bl, d :: r) := by
    cases bl with
    | none =>
      have hd58 : d ≠ Char.ofNat 58 := by
        rcases hd with rfl | rfl | rfl <;> decide
      rw [blPart, List.nil_append]
      exact parseBl_none ff d r hd58
    | some b =>
      rw [blPart]
      exact parseBl_some ff b hbl d r hd
  have hhead : ∃ c1 cs1, mp ++ (blPart ff bl ++ d :: r) = c1 :: cs1
      ∧ c1 ∈ ([Char.ofNat 58, Char.ofNat 91, Char.ofNat 44,
          Char.ofNat 41, Char.ofNat 59] : List Char)
      ∧ c1 ≠ Char.ofNat 40 := by
    cases meta with
    | nil =>
      have h0 : (Except.ok ([] : List Char) : Except String (List Char)) = .ok mp := hmp
      injection h0 with h1
      subst h1
      cases bl with
      | none =>
        refine ⟨d, r, by rw [List.nil_append, blPart, List.nil_append], ?_, ?_⟩
        · rcases hd with rfl | rfl | rfl <;> decide
        · rcases hd with rfl | rfl | rfl <;> decide
      | some b =>
        exact ⟨Char.ofNat 58, ff.print b ++ d :: r,
          by rw [List.nil_append, blPart, List.cons_append], by decide, by decide⟩
    | cons kv mrest =>
      have henc := metaPart_enc (kv :: mrest) (List.cons_ne_nil _ _) hgood
      have h0 := hmp.symm.trans henc
      injection h0 with h1
      subst h1
      exact ⟨Char.ofNat 91,
        (Char.ofNat 38 :: intercComma ((kv :: mrest).map encF) ++ [Char.ofNat 93])
          ++ (blPart ff bl ++ d :: r),
        by simp, by decide, by decide⟩
  obtain ⟨c1, cs1, hdec1, hc1stop, hc1par⟩ := hhead
  have hstep1 : readChars [Char.ofNat 58, Char.ofNat 91, Char.ofNat 44,
        Char.ofNat 41, Char.ofNat 59] (name.data ++ (mp ++ (blPart ff bl ++ d :: r)))
      = some (name.data, mp ++ (blPart ff bl ++ d :: r)) :=
    readChars_append _ name.data _ hnstop c1 cs1 hdec1 hc1stop
  have hfull : ∃ c0 cs0,
      name.data ++ (mp ++ (blPart ff bl ++ d :: r)) = c0 :: cs0 ∧ c0 ≠ Char.ofNat 40 := by
    cases hn : name.data with
    | nil => exact ⟨c1, cs1, by rw [List.nil_append]; exact hdec1, hc1par⟩
    | cons c nm =>
      refine ⟨c, nm ++ (mp ++ (blPart ff bl ++ d :: r)), by rw [List.cons_append], ?_⟩
      exact hnpar c (hn ▸ List.mem_cons_self c nm)
  obtain ⟨c0, cs0, hdec0, hc0par⟩ := hfull
  rw [parseLoop_succ_ne ff fuel _ stk cc cn c0 cs0 hdec0 hc0par]
  rw [hstep1]
  show (match parseMeta (mp ++ (blPart ff bl ++ d :: r)) with
    | .error e => (.error e : Except String PTree)
    | .ok (meta2, rest2) =>
      match parseBl ff rest2 with
      | .error e => .error e
      | .ok (bl2, rest3) =>
        match rest3 with
        | [] => .error "IndexError"
        | d2 :: r4 =>
          if d2 = Char.ofNat 41 then
            match stk with
            | [] => .error "pop from empty list"
            | top :: stk2 =>
              parseLoop ff fuel r4 stk2 (cn ++ [PTree.node ⟨name.data⟩ bl2 meta2 cc]) top
          else if d2 = Char.ofNat 59 then .ok (PTree.node ⟨name.data⟩ bl2 meta2 cc)
          else parseLoop ff fuel r4 stk [] (cn ++ [PTree.node ⟨name.data⟩ bl2 meta2 cc]))
      = afterN ff fuel d r stk cn (PTree.node name bl meta cc)
  rw [hparse2]
  show (match parseBl ff (blPart ff bl ++ d :: r) with
    | .error e => (.error e : Except String PTree)
    | .ok (bl2, rest3) =>
      match rest3 with
      | [] => .error "IndexError"
      | d2 :: r4 =>
        if d2 = Char.ofNat 41 then
          match stk with
          | [] => .error "pop from empty list"
          | top :: stk2 =>
            parseLoop ff fuel r4 stk2 (cn ++ [PTree.node ⟨name.data⟩ bl2 meta cc]) top
        else if d2 = Char.ofNat 59 then .ok (PTree.node ⟨name.data⟩ bl2 meta cc)
        else parseLoop ff fuel r4 stk [] (cn ++ [PTree.node ⟨name.data⟩ bl2 meta cc]))
      = afterN ff fuel d r stk cn (PTree.node name bl meta cc)
  rw [hparse3]
  show (if d = Char.ofNat 41 then
      match stk with
      | [] => (.error "pop from empty list" : Except String PTree)
      | top :: stk2 =>
        parseLoop ff fuel r stk2 (cn ++ [PTree.node ⟨name.data⟩ bl meta cc]) top
    else if d = Char.ofNat 59 then .ok (PTree.node ⟨name.data⟩ bl meta cc)
    else parseLoop ff fuel r stk [] (cn ++ [PTree.node ⟨name.data⟩ bl meta cc]))
    = afterN ff fuel d r stk cn (PTree.node name bl meta cc)
  rfl

theorem psize_pos (t : PTree) : 1 ≤ psize t := by
  cases t with
  | node a b c d =>
    have h : psize (PTree.node a b c d) = 1 + pforestSize d := rfl
    omega

theorem parseLoop_succ_par (ff : FloatFmt) (k : ℕ) (cs : List Char)
    (stk : List (List PTree)) (cc cn : List PTree) :
    parseLoop ff (k + 1) (Char.ofNat 40 :: cs) stk cc cn
      = parseLoop ff k cs (cn :: stk) cc [] := rfl

theorem to_newickForest_cons_ok (ff : FloatFmt) (t : PTree) (ts : List PTree)
    (outs : List (List Char)) (h : to_newickForest ff (t :: ts) = .ok outs) :
    ∃ s ss, outs = s :: ss ∧ to_newick ff t = .ok s ∧ to_newickForest ff ts = .ok ss := by
  have h2 : (match to_newick ff t with
    | .error e => (.error e : Except String (List (List Char)))
    | .ok s =>
      match to_newickForest ff ts with
      | .error e => .error e
      | .ok ss => .ok (s :: ss)) = .ok outs := h
  cases hc1 : to_newick ff t with
  | error e =>
    rw [hc1] at h2
    exact Except.noConfusion
      (show (Except.error e : Except String (List (List Char))) = .ok outs from h2)
  | ok s =>
    rw [hc1] at h2
    cases hc2 : to_newickForest ff ts with
    | error e =>
      rw [hc2] at h2
      exact Except.noConfusion
        (show (Except.error e : Except String (List (List Char))) = .ok outs from h2)
    | ok ss =>
      rw [hc2] at h2
      have h3 : (Except.ok (s :: ss) : Except String (List (List Char))) = .ok outs := h2
      injection h3 with h4
      exact ⟨s, ss, h4.symm, rfl, rfl⟩

theorem to_newick_ok_shape (ff : FloatFmt) (name : String) (bl : Option ℚ)
    (meta : List (String × MVal)) (children : List PTree) (out : List Char)
    (h : to_newick ff (PTree.node name bl meta children) = .ok out) :
    ∃ childStrs mp, to_newickForest ff children = .ok childStrs
      ∧ metaPart meta = .ok mp
      ∧ out = (if (intercComma childStrs).isEmpty then name.data ++ mp
          else Char.ofNat 40 :: intercComma childStrs ++ Char.ofNat 41 :: (name.data ++ mp))
        ++ blPart ff bl := by
  rw [to_newick] at h
  cases hcs : to_newickForest ff children with
  | error e =>
    rw [hcs] at h
    exact Except.noConfusion
      (show (Except.error e : Except String (List Char)) = .ok out from h)
  | ok childStrs =>
    rw [hcs] at h
    cases hmp : metaPart meta with
    | error e =>
      rw [hmp] at h
      exact Except.noConfusion
        (show (Except.error e : Except String (List Char)) = .ok out from h)
    | ok mp =>
      rw [hmp] at h
      refine ⟨childStrs, mp, rfl, rfl, ?_⟩
      cases bl with
      | none =>
        have h3 : (Except.ok (if (intercComma childStrs).isEmpty then name.data ++ mp
            else Char.ofNat 40 :: intercComma childStrs ++ Char.ofNat 41 :: (name.data ++ mp))
            : Except String (List Char)) = .ok out := h
        injection h3 with h4
        rw [← h4, blPart, List.append_nil]
      | some b =>
        have h3 : (Except.ok ((if (intercComma childStrs).isEmpty then name.data ++ mp
            else Char.ofNat 40 :: intercComma childStrs ++ Char.ofNat 41 :: (name.data ++ mp))
            ++ Char.ofNat 58 :: ff.print b) : Except String (List Char)) = .ok out := h
        injection h3 with h4
        rw [← h4, blPart]

theorem isEmpty_append_cons (a : List Char) (c : Char) (x : List Char) :
    (a ++ c :: x).isEmpty = false := by
  cases a <;> rfl

theorem ser_empty (ff : FloatFmt) : ∀ n : ℕ,
    (∀ ts : List PTree, pforestSize ts ≤ n → ∀ outs, to_newickForest ff ts = .ok outs →
      intercComma outs = [] → emptySerF ts = true)
    ∧ (∀ t : PTree, psize t ≤ n → ∀ out, to_newick ff t = .ok out →
      out = [] → emptySer t = true) := by
  intro n
  induction n using Nat.strong_induction_on with
  | _ n ih =>
    have hT : ∀ t : PTree, psize t ≤ n → ∀ out, to_newick ff t = .ok out →
        out = [] → emptySer t = true := by
      intro t hsize out hser hout0
      cases t with
      | node name bl meta children =>
        obtain ⟨childStrs, mp, hcs, hmp, houtshape⟩ :=
          to_newick_ok_shape ff name bl meta children out hser
        rw [hout0] at houtshape
        have h1 := List.append_eq_nil.mp houtshape.symm
        cases bl with
        | some b => exact absurd h1.2 (by rw [blPart]; exact List.cons_ne_nil _ _)
        | none =>
          have h2 := h1.1
          cases hEmp : (intercComma childStrs).isEmpty with
          | false =>
            rw [hEmp, if_neg (by decide : ¬(false = true))] at h2
            simp at h2
          | true =>
            rw [hEmp, if_pos rfl] at h2
            rw [List.append_eq_nil] at h2
            have hmeta : meta = [] := by
              cases meta with
              | nil => rfl
              | cons kv rest =>
                have hmp2 : (if (kv :: rest).all (fun kv2 => featOK kv2.1 (mrepr kv2.2)) then
                    (Except.ok (Char.ofNat 91 :: Char.ofNat 38 ::
                      intercComma ((kv :: rest).map
                        (fun kv2 => kv2.1.data ++ Char.ofNat 61 :: mrepr kv2.2))
                      ++ [Char.ofNat 93]) : Except String (List Char))
                  else .error "Invalid feature") = .ok mp := hmp
                cases hall : (kv :: rest).all (fun kv2 => featOK kv2.1 (mrepr kv2.2)) with
                | true =>
                  rw [hall, if_pos rfl] at hmp2
                  injection hmp2 with h5
                  have h6 := h5.trans h2.2
                  simp at h6
                | false =>
                  rw [hall, if_neg (by decide : ¬(false = true))] at hmp2
                  exact Except.noConfusion hmp2
            subst hmeta
            have hI : intercComma childStrs = [] := by
              cases hi : intercComma childStrs with
              | nil => rfl
              | cons a l =>
                rw [hi] at hEmp
                exact Bool.noConfusion hEmp
            have h10 : psize (PTree.node name none ([] : List (String × MVal)) children)
                = 1 + pforestSize children := rfl
            have hF := (ih (pforestSize children) (by omega)).1 children le_rfl childStrs hcs hI
            have hgo : emptySer (PTree.node name none ([] : List (String × MVal)) children)
                = (name.data.isEmpty && (none : Option ℚ).isNone
                  && ([] : List (String × MVal)).isEmpty && emptySerF children) := rfl
            rw [hgo, h2.1, hF]
            rfl
    refine ⟨?_, hT⟩
    intro ts hsize outs hser hI
    cases ts with
    | nil => rfl
    | cons t ts2 =>
      obtain ⟨s, ss, hoeq, h1, h2⟩ := to_newickForest_cons_ok ff t ts2 outs hser
      subst hoeq
      have h10 : pforestSize (t :: ts2) = psize t + pforestSize ts2 := rfl
      cases ts2 with
      | nil =>
        have h3 : (Except.ok ([] : List (List Char))
            : Except String (List (List Char))) = .ok ss := h2
        injection h3 with h4
        rw [← h4] at hI
        rw [show intercComma [s] = s from rfl] at hI
        have hT2 := hT t (by omega) s h1 hI
        have hgo : emptySerF [t] = emptySer t := rfl
        rw [hgo, hT2]
      | cons t2 ts3 =>
        obtain ⟨s2, ss2, hsseq, _h21, _h22⟩ := to_newickForest_cons_ok ff t2 ts3 ss h2
        subst hsseq
        rw [show intercComma (s :: s2 :: ss2)
          = s ++ Char.ofNat 44 :: intercComma (s2 :: ss2) from rfl] at hI
        exact List.noConfusion (List.append_eq_nil.mp hI).2

theorem loneOK_single (ch : PTree) (h : loneOK [ch] = true) : emptySer ch = false := by
  have h2 : (!emptySer ch) = true := h
  cases hres : emptySer ch with
  | false => rfl
  | true =>
    rw [hres] at h2
    exact Bool.noConfusion h2

theorem interc_ne_empty (ff : FloatFmt) (ch : PTree) (chs : List PTree)
    (s : List Char) (ss : List (List Char))
    (hchser : to_newick ff ch = .ok s)
    (hchsser : to_newickForest ff chs = .ok ss)
    (hlone : chs = [] → emptySer ch = false) :
    (intercComma (s :: ss)).isEmpty = false := by
  cases chs with
  | nil =>
    have h3 : (Except.ok ([] : List (List Char))
        : Except String (List (List Char))) = .ok ss := hchsser
    injection h3 with h4
    rw [← h4]
    rw [show intercComma [s] = s from rfl]
    cases hs : s with
    | nil =>
      have h5 := (ser_empty ff (psize ch)).2 ch le_rfl s hchser hs
      rw [hlone rfl] at h5
      exact Bool.noConfusion h5
    | cons a as => rfl
  | cons ch2 chs2 =>
    obtain ⟨s2, ss2, hsseq, _h21, _h22⟩ := to_newickForest_cons_ok ff ch2 chs2 ss hchsser
    subst hsseq
    rw [show intercComma (s :: s2 :: ss2)
      = s ++ Char.ofNat 44 :: intercComma (s2 :: ss2) from rfl]
    exact isEmpty_append_cons s _ _

theorem iters_bound (ff : FloatFmt) : ∀ n : ℕ,
    (∀ ts : List PTree, pforestSize ts ≤ n → noLoneEmptyF ts = true →
      ∀ outs, to_newickForest ff ts = .ok outs →
      itersF ts ≤ (intercComma outs).length + 1)
    ∧ (∀ t : PTree, psize t ≤ n → noLoneEmpty t = true →
      ∀ out, to_newick ff t = .ok out →
      itersT t ≤ out.length + 1) := by
  intro n
  induction n using Nat.strong_induction_on with
  | _ n ih =>
    have hT : ∀ t : PTree, psize t ≤ n → noLoneEmpty t = true →
        ∀ out, to_newick ff t = .ok out →
        itersT t ≤ out.length + 1 := by
      intro t hsize hnl out hser
      cases t with
      | node name bl meta children =>
        cases children with
        | nil =>
          have h9 : itersT (PTree.node name bl meta []) = 1 := rfl
          omega
        | cons ch chs =>
          obtain ⟨childStrs, mp, hcs, hmp, hout⟩ :=
            to_newick_ok_shape ff name bl meta (ch :: chs) out hser
          obtain ⟨s, ss, hcseq, hchser, hchsser⟩ :=
            to_newickForest_cons_ok ff ch chs childStrs hcs
          subst hcseq
          subst hout
          have hnlb : (loneOK (ch :: chs) && noLoneEmptyF (ch :: chs)) = true := hnl
          rw [Bool.and_eq_true] at hnlb
          have hne2 : (intercComma (s :: ss)).isEmpty = false :=
            interc_ne_empty ff ch chs s ss hchser hchsser
              (by intro hchs0; subst hchs0; exact loneOK_single ch hnlb.1)
          have h9 : itersT (PTree.node name bl meta (ch :: chs)) = 2 + itersF (ch :: chs) := rfl
          have h10 : psize (PTree.node name bl meta (ch :: chs))
              = 1 + pforestSize (ch :: chs) := rfl
          have hFr : itersF (ch :: chs) ≤ (intercComma (s :: ss)).length + 1 :=
            (ih (pforestSize (ch :: chs)) (by omega)).1 (ch :: chs) le_rfl hnlb.2 (s :: ss) hcs
          rw [h9, hne2]
          simp only [Bool.false_eq_true, if_false,
            List.length_append, List.length_cons]
          omega
    refine ⟨?_, hT⟩
    intro ts hsize hnlF outs hser
    cases ts with
    | nil =>
      have h9 : itersF ([] : List PTree) = 0 := rfl
      omega
    | cons t ts2 =>
      obtain ⟨s, ss, hoeq, h1, h2⟩ := to_newickForest_cons_ok ff t ts2 outs hser
      subst hoeq
      have hnlb2 : (noLoneEmpty t && noLoneEmptyF ts2) = true := hnlF
      rw [Bool.and_eq_true] at hnlb2
      have h9 : itersF (t :: ts2) = itersT t + itersF ts2 := rfl
      have h10 : pforestSize (t :: ts2) = psize t + pforestSize ts2 := rfl
      have hTt : itersT t ≤ s.length + 1 := hT t (by omega) hnlb2.1 s h1
      cases ts2 with
      | nil =>
        have h3 : (Except.ok ([] : List (List Char))
            : Except String (List (List Char))) = .ok ss := h2
        injection h3 with h4
        rw [← h4, h9]
        have h11 : itersF ([] : List PTree) = 0 := rfl
        rw [show intercComma [s] = s from rfl]
        omega
      | cons t2 ts3 =>
        obtain ⟨s2, ss2, hsseq, _h21, _h22⟩ := to_newickForest_cons_ok ff t2 ts3 ss h2
        subst hsseq
        have hFr : itersF (t2 :: ts3) ≤ (intercComma (s2 :: ss2)).length + 1 :=
          (ih (pforestSize (t2 :: ts3))
            (by have h11 := psize_pos t; omega)).1 (t2 :: ts3) le_rfl hnlb2.2 (s2 :: ss2) h2
        rw [h9, show intercComma (s :: s2 :: ss2)
          = s ++ Char.ofNat 44 :: intercComma (s2 :: ss2) from rfl]
        simp only [List.length_append, List.length_cons]
        omega

theorem parse_ser_core (ff : FloatFmt) : ∀ n : ℕ,
    (∀ ts : List PTree, pforestSize ts ≤ n → pforestOK ff ts = true →
      noLoneEmptyF ts = true → ts ≠ [] →
      ∀ outs, to_newickForest ff ts = .ok outs →
      ∀ fuel r stk topcn cn,
        parseLoop ff (itersF ts + fuel) (intercComma outs ++ Char.ofNat 41 :: r)
            (topcn :: stk) [] cn
          = parseLoop ff fuel r stk (cn ++ ts) topcn)
    ∧ (∀ t : PTree, psize t ≤ n → ptreeOK ff t = true → noLoneEmpty t = true →
      ∀ out, to_newick ff t = .ok out →
      ∀ fuel d r stk cn, (d = Char.ofNat 44 ∨ d = Char.ofNat 41 ∨ d = Char.ofNat 59) →
        parseLoop ff (itersT t + fuel) (out ++ d :: r) stk [] cn
          = afterN ff fuel d r stk cn t) := by
  intro n
  induction n using Nat.strong_induction_on with
  | _ n ih =>
    have hT : ∀ t : PTree, psize t ≤ n → ptreeOK ff t = true → noLoneEmpty t = true →
        ∀ out, to_newick ff t = .ok out →
        ∀ fuel d r stk cn, (d = Char.ofNat 44 ∨ d = Char.ofNat 41 ∨ d = Char.ofNat 59) →
        parseLoop ff (itersT t + fuel) (out ++ d :: r) stk [] cn
          = afterN ff fuel d r stk cn t := by
      intro t hsize hok hnl out hser fuel d r stk cn hd
      cases t with
      | node name bl meta children =>
        obtain ⟨childStrs, mp, hcs, hmp, hout⟩ :=
          to_newick_ok_shape ff name bl meta children out hser
        have hokb : (nameOKb name && blOKb ff bl
            && meta.all (fun kv => keyOKb kv.1 && valOKb kv.2)
            && decide ((meta.map Prod.fst).Nodup)
            && pforestOK ff children) = true := hok
        simp only [Bool.and_eq_true] at hokb
        have hgood : ∀ kv ∈ meta, keyOKb kv.1 = true ∧ valOKb kv.2 = true := by
          intro kv hkv
          have h2 := List.all_eq_true.mp hokb.1.1.2 kv hkv
          rw [Bool.and_eq_true] at h2
          exact h2
        have hnd : (meta.map Prod.fst).Nodup := of_decide_eq_true hokb.1.2
        cases children with
        | nil =>
          have h3 : (Except.ok ([] : List (List Char))
              : Except String (List (List Char))) = .ok childStrs := hcs
          injection h3 with h4
          subst hout
          rw [← h4]
          have h9 : itersT (PTree.node name bl meta []) = 1 := rfl
          have hfe : itersT (PTree.node name bl meta []) + fuel = fuel + 1 := by omega
          rw [hfe]
          have hin : ((if (intercComma ([] : List (List Char))).isEmpty then name.data ++ mp
              else Char.ofNat 40 :: intercComma ([] : List (List Char))
                ++ Char.ofNat 41 :: (name.data ++ mp)) ++ blPart ff bl) ++ d :: r
              = name.data ++ (mp ++ (blPart ff bl ++ d :: r)) := by
            simp [intercComma]
          rw [hin]
          exact parse_name_iter ff name bl meta mp hokb.1.1.1.1 hokb.1.1.1.2 hgood hnd hmp
            fuel d r stk [] cn hd
        | cons ch chs =>
          obtain ⟨s, ss, hcseq, hchser, hchsser⟩ :=
            to_newickForest_cons_ok ff ch chs childStrs hcs
          subst hcseq
          subst hout
          have h9 : itersT (PTree.node name bl meta (ch :: chs))
              = 2 + itersF (ch :: chs) := rfl
          have hfe : itersT (PTree.node name bl meta (ch :: chs)) + fuel
              = (itersF (ch :: chs) + (fuel + 1)) + 1 := by omega
          rw [hfe]
          have hnlb : (loneOK (ch :: chs) && noLoneEmptyF (ch :: chs)) = true := hnl
          rw [Bool.and_eq_true] at hnlb
          have hne2 : (intercComma (s :: ss)).isEmpty = false :=
            interc_ne_empty ff ch chs s ss hchser hchsser
              (by intro hchs0; subst hchs0; exact loneOK_single ch hnlb.1)
          have hin : ((if (intercComma (s :: ss)).isEmpty then name.data ++ mp
              else Char.ofNat 40 :: intercComma (s :: ss)
                ++ Char.ofNat 41 :: (name.data ++ mp)) ++ blPart ff bl) ++ d :: r
              = Char.ofNat 40 :: (intercComma (s :: ss)
                ++ Char.ofNat 41 :: (name.data ++ (mp ++ (blPart ff bl ++ d :: r)))) := by
            rw [hne2]
            simp
          rw [hin]
          rw [parseLoop_succ_par ff (itersF (ch :: chs) + (fuel + 1)) _ stk [] cn]
          have h10 : psize (PTree.node name bl meta (ch :: chs))
              = 1 + pforestSize (ch :: chs) := rfl
          rw [(ih (pforestSize (ch :: chs)) (by omega)).1 (ch :: chs) le_rfl hokb.2
            hnlb.2 (List.cons_ne_nil _ _) (s :: ss) hcs (fuel + 1)
            (name.data ++ (mp ++ (blPart ff bl ++ d :: r))) stk cn []]
          rw [List.nil_append]
          exact parse_name_iter ff name bl meta mp hokb.1.1.1.1 hokb.1.1.1.2 hgood hnd hmp
            fuel d r stk (ch :: chs) cn hd
    refine ⟨?_, hT⟩
    intro ts hsize hok hnlF hne outs hser fuel r stk topcn cn
    cases ts with
    | nil => exact absurd rfl hne
    | cons t ts2 =>
      obtain ⟨s, ss, hoeq, h1, h2⟩ := to_newickForest_cons_ok ff t ts2 outs hser
      subst hoeq
      have hokb : (ptreeOK ff t && pforestOK ff ts2) = true := hok
      rw [Bool.and_eq_true] at hokb
      have hnlb2 : (noLoneEmpty t && noLoneEmptyF ts2) = true := hnlF
      rw [Bool.and_eq_true] at hnlb2
      have h10 : pforestSize (t :: ts2) = psize t + pforestSize ts2 := rfl
      cases ts2 with
      | nil =>
        have h3 : (Except.ok ([] : List (List Char))
            : Except String (List (List Char))) = .ok ss := h2
        injection h3 with h4
        rw [← h4]
        have h9 : itersF [t] = itersT t := rfl
        have hfe : itersF [t] + fuel = itersT t + fuel := by omega
        rw [hfe, show intercComma [s] = s from rfl]
        rw [hT t (by omega) hokb.1 hnlb2.1 s h1 fuel (Char.ofNat 41) r (topcn :: stk) cn
          (Or.inr (Or.inl rfl))]
        rw [afterN, if_pos rfl]
      | cons t2 ts3 =>
        obtain ⟨s2, ss2, hsseq, _h21, _h22⟩ := to_newickForest_cons_ok ff t2 ts3 ss h2
        subst hsseq
        have h9 : itersF (t :: t2 :: ts3) = itersT t + itersF (t2 :: ts3) := rfl
        have hfe : itersF (t :: t2 :: ts3) + fuel
            = itersT t + (itersF (t2 :: ts3) + fuel) := by omega
        rw [hfe, show intercComma (s :: s2 :: ss2)
          = s ++ Char.ofNat 44 :: intercComma (s2 :: ss2) from rfl]
        have hin : (s ++ Char.ofNat 44 :: intercComma (s2 :: ss2)) ++ Char.ofNat 41 :: r
            = s ++ Char.ofNat 44 :: (intercComma (s2 :: ss2) ++ Char.ofNat 41 :: r) := by
          simp
        rw [hin]
        rw [hT t (by omega) hokb.1 hnlb2.1 s h1 (itersF (t2 :: ts3) + fuel) (Char.ofNat 44)
          (intercComma (s2 :: ss2) ++ Char.ofNat 41 :: r) (topcn :: stk) cn (Or.inl rfl)]
        rw [afterN, if_neg (by decide), if_neg (by decide)]
        rw [(ih (pforestSize (t2 :: ts3)) (by have h11 := psize_pos t; omega)).1
          (t2 :: ts3) le_rfl hokb.2 hnlb2.2 (List.cons_ne_nil _ _) (s2 :: ss2) h2 fuel r stk
          topcn (cn ++ [t])]
        rw [show (cn ++ [t]) ++ (t2 :: ts3) = cn ++ (t :: t2 :: ts3) from by simp]

theorem stripWs_ok (l : List Char)
    (hhead : ∀ c cs, l = c :: cs → c.isWhitespace = false)
    (hlast : ∀ c cs, l.reverse = c :: cs → c.isWhitespace = false) :
    stripWs l = l := by
  cases l with
  | nil => rfl
  | cons a as =>
    rw [stripWs]
    rw [List.dropWhile_cons, hhead a as rfl]
    rw [if_neg (by decide : ¬(false = true))]
    cases hr : (a :: as).reverse with
    | nil => exact absurd hr (by simp)
    | cons b bs =>
      rw [List.dropWhile_cons, hlast b bs hr]
      rw [if_neg (by decide : ¬(false = true))]
      rw [← hr, List.reverse_reverse]

theorem stripRootAnn_id (l : List Char)
    (h : ∀ c cs, l = c :: cs → c ≠ Char.ofNat 91) :
    stripRootAnn l = l := by
  cases l with
  | nil => rfl
  | cons c1 rest1 =>
    cases rest1 with
    | nil => rfl
    | cons c2 rest =>
      have h1 : stripRootAnn (c1 :: c2 :: rest)
          = if c1 = Char.ofNat 91 ∧ c2 = Char.ofNat 38
              ∧ rest.any (fun c => decide (c = Char.ofNat 93)) then
            (rest.dropWhile (fun c => decide (c ≠ Char.ofNat 93))).drop 1
          else c1 :: c2 :: rest := rfl
      rw [h1, if_neg]
      intro hcond
      exact h c1 (c2 :: rest) rfl hcond.1

theorem to_newick_head (ff : FloatFmt) (t : PTree) (out : List Char)
    (hok : ptreeOK ff t = true)
    (hnl : noLoneEmpty t = true)
    (hroot : t.children = [] → t.name = "" → t.meta = [])
    (hser : to_newick ff t = .ok out) :
    ∀ c cs, out ++ [Char.ofNat 59] = c :: cs
      → c.isWhitespace = false ∧ c ≠ Char.ofNat 91 := by
  intro c cs hc
  cases t with
  | node name bl meta children =>
    obtain ⟨childStrs, mp, hcs, hmp, hout⟩ :=
      to_newick_ok_shape ff name bl meta children out hser
    have hokb : (nameOKb name && blOKb ff bl
        && meta.all (fun kv => keyOKb kv.1 && valOKb kv.2)
        && decide ((meta.map Prod.fst).Nodup)
        && pforestOK ff children) = true := hok
    simp only [Bool.and_eq_true] at hokb
    have hname := hokb.1.1.1.1
    rw [nameOKb] at hname
    have hnc : ∀ a ∈ name.data, a.isWhitespace = false ∧ a ≠ Char.ofNat 91 := by
      intro a ha
      have h2 := List.all_eq_true.mp hname a ha
      simp only [Bool.and_eq_true, decide_eq_true_eq, Bool.not_eq_true'] at h2
      exact ⟨h2.2, h2.1.1.1.1.1.2⟩
    cases children with
    | cons ch chs =>
      obtain ⟨s, ss, hcseq, hchser, hchsser⟩ := to_newickForest_cons_ok ff ch chs childStrs hcs
      subst hcseq
      subst hout
      have hnlb : (loneOK (ch :: chs) && noLoneEmptyF (ch :: chs)) = true := hnl
      rw [Bool.and_eq_true] at hnlb
      have hne2 : (intercComma (s :: ss)).isEmpty = false :=
        interc_ne_empty ff ch chs s ss hchser hchsser
          (by intro hchs0; subst hchs0; exact loneOK_single ch hnlb.1)
      rw [hne2] at hc
      simp only [Bool.false_eq_true, if_false,
        List.cons_append, List.append_assoc] at hc
      injection hc with h6 _
      rw [← h6]
      exact ⟨by decide, by decide⟩
    | nil =>
      have h3 : (Except.ok ([] : List (List Char))
          : Except String (List (List Char))) = .ok childStrs := hcs
      injection h3 with h4
      rw [← h4] at hout
      simp only [intercComma, List.isEmpty_nil, if_true] at hout
      cases hn : name.data with
      | cons a nm =>
        rw [hn] at hout
        subst hout
        simp only [List.cons_append, List.append_assoc] at hc
        injection hc with h6 _
        rw [← h6]
        exact hnc a (hn ▸ List.mem_cons_self a nm)
      | nil =>
        have hname0 : name = "" := by
          cases name with
          | mk data =>
            have hn2 : data = [] := hn
            subst hn2
            rfl
        have hmeta0 : meta = [] := hroot rfl hname0
        subst hmeta0
        have h6 : (Except.ok ([] : List Char) : Except String (List Char)) = .ok mp := hmp
        injection h6 with h7
        rw [hn, ← h7] at hout
        subst hout
        cases bl with
        | none =>
          simp only [blPart, List.append_nil, List.nil_append] at hc
          injection hc with h8 _
          rw [← h8]
          exact ⟨by decide, by decide⟩
        | some b =>
          simp only [blPart, List.nil_append, List.cons_append] at hc
          injection hc with h8 _
          rw [← h8]
          exact ⟨by decide, by decide⟩

/-- C6: the corrected round-trip. For a tree whose node names avoid the
structural characters `: [ , ( ) ;` and whitespace, whose metadata keys are
nonempty and avoid `, = ]` and are distinct at each node, whose metadata
values are ints, bools, or strings avoiding quotes, backslashes, `=` and
`]`, whose branch lengths print in a form that reparses to the same value
and avoids `, ) ;`, in which no node has exactly one child that serializes
to the empty string (the serializer's `if children_newick:` tests the
joined string, so such a lone child loses its parentheses and is silently
dropped), and whose ROOT is not a childless empty-named node carrying
metadata (that case hits the parser's root-annotation strip and loses the
metadata), parsing the serializer's output plus the terminating semicolon
reconstructs the tree exactly. -/
theorem newick_round_trip (ff : FloatFmt) (t : PTree) (out : List Char)
    (hok : ptreeOK ff t = true)
    (hnl : noLoneEmpty t = true)
    (hroot : t.children = [] → t.name = "" → t.meta = [])
    (hser : to_newick ff t = .ok out) :
    parse_newick ff (out ++ [Char.ofNat 59]) = .ok t := by
  have hhead := to_newick_head ff t out hok hnl hroot hser
  have hlastc : ∀ c cs, (out ++ [Char.ofNat 59]).reverse = c :: cs
      → c.isWhitespace = false := by
    intro c cs hc
    rw [List.reverse_append] at hc
    have hc2 : Char.ofNat 59 :: out.reverse = c :: cs := hc
    injection hc2 with h1 _
    rw [← h1]
    decide
  have hs1 : stripWs (out ++ [Char.ofNat 59]) = out ++ [Char.ofNat 59] :=
    stripWs_ok _ (fun c cs hc => (hhead c cs hc).1) hlastc
  have hs2 : stripRootAnn (out ++ [Char.ofNat 59]) = out ++ [Char.ofNat 59] :=
    stripRootAnn_id _ (fun c cs hc => (hhead c cs hc).2)
  have hp : parse_newick ff (out ++ [Char.ofNat 59])
      = parseLoop ff ((stripWs (stripRootAnn (stripWs (out ++ [Char.ofNat 59])))).length + 1)
          (stripWs (stripRootAnn (stripWs (out ++ [Char.ofNat 59])))) [] [] [] := rfl
  rw [hp, hs1, hs2, hs1]
  have hbound : itersT t ≤ out.length + 1 :=
    (iters_bound ff (psize t)).2 t le_rfl hnl out hser
  obtain ⟨fuel0, hf⟩ : ∃ f, (out ++ [Char.ofNat 59]).length + 1 = itersT t + f := by
    refine ⟨(out ++ [Char.ofNat 59]).length + 1 - itersT t, ?_⟩
    rw [List.length_append]
    simp only [List.length_cons, List.length_nil]
    omega
  rw [hf]
  rw [(parse_ser_core ff (psize t)).2 t le_rfl hok hnl out hser fuel0 (Char.ofNat 59) [] [] []
    (Or.inr (Or.inr rfl))]
  rw [afterN, if_neg (by decide), if_pos rfl]

theorem newick_round_trip_witness :
    parse_newick ⟨fun _ => [], fun _ => none⟩ ("(y,z)x".data ++ [Char.ofNat 59])
      = .ok (PTree.node "x" none []
          [PTree.node "y" none [] [], PTree.node "z" none [] []]) :=
  newick_round_trip ⟨fun _ => [], fun _ => none⟩
    (PTree.node "x" none [] [PTree.node "y" none [] [], PTree.node "z" none [] []])
    "(y,z)x".data (by decide) (by decide) (fun h => List.noConfusion h) rfl

end Phylogenie
